import Mathlib

/-!
# stack-dist: marker list and stack-distance driver

A shallow embedding of `src/list.c` (the move-to-front list with interspersed
markers) and of the driver loop of `src/stack_dist.c`, followed by theorems
about them.

Modelling conventions.

* Pointers are natural numbers, `0` is `NULL`.
* The C heap is a finite association list from addresses to cells.  Reading an
  address that is `NULL` or not allocated is undefined behaviour in C and is
  `none` here; every operation is in the `Option` monad and `none` stands for
  "the C program aborts, has undefined behaviour or does not terminate".
* `malloc` is an arbitrary function of the current heap (an oracle).  The
  theorems assume only that it returns a non-null address that is not
  currently allocated (`ValidMalloc`); in particular it may hand out an address
  that was freed before.
* `int` fields are unbounded integers (no wrap-around at `2^31`).
* `MARKER_MAX_SZ` is a parameter `cap` of the operations; the header fixes it to
  `250` (`MARKER_MAX_SZ`).
* Loops that walk the heap take a fuel argument; the operations supply
  `length of the heap + 1`, which no terminating walk can exceed.
-/

namespace StackDist

/-! ## Data model (`list.h`) -/

/-- The constant `MARKER_MAX_SZ` of `list.h`. -/
def MARKER_MAX_SZ : Int := 250

/-- A list element, `list_elem_t`.  The anonymous union of `data` and `count`
is the single field `count`: payload on a data element, span size on a marker. -/
structure list_elem_t where
  count : Int
  is_marker : Int
  prev_marker : Nat
  next : Nat
deriving DecidableEq, Repr

/-- The payload of a data element: the other member of the union. -/
abbrev list_elem_t.data (c : list_elem_t) : Int := c.count

/-- The heap: allocated addresses with their cells. -/
abbrev Heap := List (Nat × list_elem_t)

/-- Look an address up in the association list. -/
def Heap.find : Heap → Nat → Option list_elem_t
  | [], _ => none
  | (b, c) :: h, a => if a = b then some c else Heap.find h a

/-- Dereference a pointer: `none` for `NULL` and for unallocated addresses. -/
def Heap.read (h : Heap) (a : Nat) : Option list_elem_t :=
  if a = 0 then none else h.find a

/-- Release an address, `free(a)`. -/
def Heap.free (h : Heap) (a : Nat) : Heap := h.filter (fun p => decide (p.1 ≠ a))

/-- Store a cell at an address (allocating it when it is not allocated). -/
def Heap.write (h : Heap) (a : Nat) (c : list_elem_t) : Heap := (a, c) :: h.free a

/-- The list structure `list_t`, together with the memory its elements live in. -/
structure list_t where
  mem : Heap
  head : Nat
  marker_tail : Nat
deriving DecidableEq, Repr

/-! ## Operations (`list.c`) -/

/-- Function `list_create`: an empty list. -/
def list_create : list_t := { mem := [], head := 0, marker_tail := 0 }

/-- Function `list_is_empty`. -/
def list_is_empty (list : list_t) : Int := if list.head = 0 then 1 else 0

/-- Function `list_push`: push a new data element with payload `data` onto the
head, returning the updated list and the address of the new element. -/
def list_push (malloc : Heap → Nat) (cap : Int) (list : list_t) (data : Int) :
    Option (list_t × Nat) :=
  let new_elem := malloc list.mem
  if new_elem = 0 then none else
  -- new_elem->data = data; ->next = list->head; ->is_marker = 0; ->prev_marker = NULL
  let mem := list.mem.write new_elem
    { count := data, next := list.head, is_marker := 0, prev_marker := 0 }
  -- list_is_empty(list) || list->marker_tail->count >= MARKER_MAX_SZ
  (if list_is_empty list ≠ 0 then some true
   else (mem.read list.marker_tail).map (fun t => decide (t.count ≥ cap))) >>= fun full =>
  (if full then
    let marker := malloc mem
    if marker = 0 then none else
    let mem := mem.write marker
      { count := 0, is_marker := 1, next := list.head, prev_marker := 0 }
    -- if (list->marker_tail) list->marker_tail->prev_marker = marker
    (if list.marker_tail ≠ 0 then
      (mem.read list.marker_tail).map
        (fun t => mem.write list.marker_tail { t with prev_marker := marker })
     else some mem) >>= fun mem =>
    -- list->marker_tail = marker; new_elem->next = marker
    (mem.read new_elem).map (fun e =>
      ({ mem := mem.write new_elem { e with next := marker },
         head := list.head, marker_tail := marker } : list_t))
   else some { list with mem := mem }) >>= fun list =>
  -- list->marker_tail->count++; list->head = new_elem
  (list.mem.read list.marker_tail).map (fun t =>
    (({ mem := list.mem.write list.marker_tail { t with count := t.count + 1 },
        head := new_elem, marker_tail := list.marker_tail } : list_t), new_elem))

/-- Lines 91-98 of `list_move_to_head`: `while (!cur->is_marker)`, walking
`next` and counting the hops. -/
def find_marker (mem : Heap) : Nat → Nat → Int → Option (Nat × Int)
  | 0, _, _ => none
  | fuel + 1, cur, dist_to_marker =>
    (mem.read cur) >>= fun c =>
    if c.is_marker = 0 then find_marker mem fuel c.next (dist_to_marker + 1)
    else some (cur, dist_to_marker)

/-- Lines 103-107: walk the `prev_marker` chain, adding the counts. -/
def walk_markers (mem : Heap) : Nat → Nat → Int → Option Int
  | 0, _, _ => none
  | fuel + 1, cur, distance =>
    if cur = 0 then some distance
    else (mem.read cur) >>= fun c =>
      walk_markers mem fuel c.prev_marker (distance + c.count)

/-- Line 114: `while (cur->next != elem) cur = cur->next`. -/
def find_parent (mem : Heap) (elem : Nat) : Nat → Nat → Option Nat
  | 0, _ => none
  | fuel + 1, cur =>
    (mem.read cur) >>= fun c =>
    if c.next ≠ elem then find_parent mem elem fuel c.next else some cur

/-- Line 130: `while (cur != NULL && !cur->is_marker) cur = cur->next`. -/
def skip_to_marker (mem : Heap) : Nat → Nat → Option Nat
  | 0, _ => none
  | fuel + 1, cur =>
    if cur = 0 then some 0
    else (mem.read cur) >>= fun c =>
      if c.is_marker = 0 then skip_to_marker mem fuel c.next else some cur

/-- Lines 91-107 of `list_move_to_head`: the marker after `elem` and the
distance of `elem` from the head. -/
def mth_distance (list : list_t) (elem : Nat) : Option (Nat × Int) :=
  let fuel := list.mem.length + 1
  find_marker list.mem fuel elem 0 >>= fun r =>
  let marker := r.1
  let dist_to_marker := r.2
  list.mem.read marker >>= fun m =>
  let distance := m.count - dist_to_marker
  (walk_markers list.mem fuel m.prev_marker distance).map (fun distance => (marker, distance))

/-- Lines 109-146 of `list_move_to_head`: find the parent of `elem`, take
`elem` out of the sequence, and remove `marker` when its span became empty. -/
def mth_unlink (list : list_t) (elem marker : Nat) : Option list_t :=
  let fuel := list.mem.length + 1
  let mem := list.mem
  mem.read marker >>= fun m =>
  find_parent mem elem fuel (if m.prev_marker = 0 then list.head else m.prev_marker)
    >>= fun parent =>
  -- parent->next = elem->next
  mem.read elem >>= fun e =>
  mem.read parent >>= fun p =>
  let mem := mem.write parent { p with next := e.next }
  -- marker->count--
  mem.read marker >>= fun m =>
  let mem := mem.write marker { m with count := m.count - 1 }
  mem.read marker >>= fun m =>
  if m.count = 0 then
    mem.read elem >>= fun e =>
    mem.read parent >>= fun p =>
    -- assert(marker == elem->next); assert(parent->is_marker)
    if marker ≠ e.next ∨ p.is_marker = 0 then none else
    -- parent->next = marker->next
    let mem := mem.write parent { p with next := m.next }
    mem.read marker >>= fun m =>
    skip_to_marker mem fuel m.next >>= fun cur =>
    (if cur = 0 then some ({ list with mem := mem } : list_t)
     else if list.marker_tail = marker then
       (mem.read cur).map (fun c =>
         ({ mem := mem.write cur { c with prev_marker := 0 },
            head := list.head, marker_tail := cur } : list_t))
     else
       (mem.read cur).map (fun c =>
         ({ list with mem := mem.write cur { c with prev_marker := parent } } : list_t)))
    >>= fun list =>
    -- free(marker)
    some { list with mem := list.mem.free marker }
  else some { list with mem := mem }

/-- Lines 148-168 of `list_move_to_head`: put `elem` back at the head, behind
a new marker when the active marker is full. -/
def mth_relink (malloc : Heap → Nat) (cap : Int) (list : list_t) (elem : Nat) :
    Option list_t :=
  let mem := list.mem
  mem.read list.marker_tail >>= fun t =>
  (if t.count ≥ cap then
    let new_marker := malloc mem
    if new_marker = 0 then none else
    let mem := mem.write new_marker
      { count := 0, is_marker := 1, next := list.head, prev_marker := 0 }
    -- elem->next = new_marker
    mem.read elem >>= fun e =>
    let mem := mem.write elem { e with next := new_marker }
    -- list->marker_tail->prev_marker = new_marker; list->marker_tail = new_marker
    (mem.read list.marker_tail).map (fun t =>
      ({ mem := mem.write list.marker_tail { t with prev_marker := new_marker },
         head := list.head, marker_tail := new_marker } : list_t))
   else
    -- elem->next = list->head
    (mem.read elem).map (fun e =>
      ({ list with mem := mem.write elem { e with next := list.head } } : list_t)))
  >>= fun list =>
  -- list->head = elem; list->marker_tail->count++
  (list.mem.read list.marker_tail).map (fun t =>
    ({ mem := list.mem.write list.marker_tail { t with count := t.count + 1 },
       head := elem, marker_tail := list.marker_tail } : list_t))

/-- Function `list_move_to_head`: move `elem` to the head and return its
distance from the head. -/
def list_move_to_head (malloc : Heap → Nat) (cap : Int) (list : list_t) (elem : Nat) :
    Option (list_t × Int) :=
  if list.head = elem then some (list, 0)
  else
    mth_distance list elem >>= fun r =>
    mth_unlink list elem r.1 >>= fun list =>
    (mth_relink malloc cap list elem).map (fun list => (list, r.2))

/-- The traversal of `list_print`: the addresses met from `cur` by following
`next` until `NULL`. -/
def list_walk (mem : Heap) : Nat → Nat → List Nat
  | 0, _ => []
  | fuel + 1, cur =>
    match mem.read cur with
    | none => []
    | some c => cur :: list_walk mem fuel c.next

/-- All elements of the list, markers included, from the head. -/
def list_elems (list : list_t) : List Nat :=
  list_walk list.mem (list.mem.length + 1) list.head

/-- Is the cell at `a` a data element (allocated, `is_marker == 0`)? -/
def is_data (mem : Heap) (a : Nat) : Bool :=
  match mem.read a with
  | some c => decide (c.is_marker = 0)
  | none => false

/-- Is the cell at `a` a marker (allocated, `is_marker != 0`)? -/
def is_mark (mem : Heap) (a : Nat) : Bool :=
  match mem.read a with
  | some c => decide (c.is_marker ≠ 0)
  | none => false

/-- The data elements of the list from the head, markers left out. -/
def data_elems (list : list_t) : List Nat :=
  (list_elems list).filter (is_data list.mem)

/-- The markers of the list from the head. -/
def marker_elems (list : list_t) : List Nat :=
  (list_elems list).filter (is_mark list.mem)

/-- The `count` / `data` field stored at `a` (`0` when not allocated). -/
def count_at (mem : Heap) (a : Nat) : Int :=
  match mem.read a with
  | some c => c.count
  | none => 0

/-- The payload of the data element at `a`. -/
def payload (list : list_t) (a : Nat) : Int := count_at list.mem a

/-- An allocator that never reuses an address: one past the largest allocated
address. -/
def bump (h : Heap) : Nat := (h.map Prod.fst).foldr max 0 + 1

/-- What the theorems assume of `malloc`: the address is not `NULL` and is not
allocated at the time of the call. -/
def ValidMalloc (malloc : Heap → Nat) : Prop :=
  ∀ h : Heap, malloc h ≠ 0 ∧ h.find (malloc h) = none

/-- The list states reachable from `list_create` by `list_push` and by
`list_move_to_head` on a data element of the list. -/
inductive Reachable (malloc : Heap → Nat) (cap : Int) : list_t → Prop
  | create : Reachable malloc cap list_create
  | push {l l1 : list_t} {data : Int} {a : Nat} :
      Reachable malloc cap l → list_push malloc cap l data = some (l1, a) →
      Reachable malloc cap l1
  | move {l l1 : list_t} {elem : Nat} {d : Int} :
      Reachable malloc cap l → elem ∈ data_elems l →
      list_move_to_head malloc cap l elem = some (l1, d) →
      Reachable malloc cap l1

/-! ## Abstract view of a list state

The sequence of a list state is described by its spans, front to back: each
span is the run of data elements in front of a marker, together with that
marker. -/

/-- A span: the addresses of its data elements, front to back, and the address
of the marker that closes it. -/
abbrev Span := List Nat × Nat

/-- All addresses of the sequence, front to back. -/
def flat : List Span → List Nat
  | [] => []
  | s :: rest => s.1 ++ s.2 :: flat rest

/-- The data elements of the sequence, front to back. -/
def nodes : List Span → List Nat
  | [] => []
  | s :: rest => s.1 ++ nodes rest

/-- The marker that precedes the spans `post` when `pre` comes before them and
`p` precedes `pre`. -/
def lastM (p : Nat) : List Span → Nat
  | [] => p
  | s :: rest => lastM s.2 rest

/-- The `next` field stored at `a`, when `a` is allocated. -/
def nextOf (h : Heap) (a : Nat) : Option Nat := (h.read a).map (fun c => c.next)

/-- The other fields stored at `a` (tag, count or payload, previous marker),
when `a` is allocated. -/
def infoOf (h : Heap) (a : Nat) : Option (Int × Int × Nat) :=
  (h.read a).map (fun c => (c.is_marker, c.count, c.prev_marker))

/-- The cells of `L` are allocated and chained by `next`, the last one
pointing to `stop`. -/
def Linked (h : Heap) : List Nat → Nat → Prop
  | [], _ => True
  | a :: rest, stop =>
    (∃ c, h.read a = some c ∧ c.next = rest.headD stop) ∧ Linked h rest stop

/-- The cell at `a` is a data element with payload `v`; its `prev_marker` is
`NULL`, as `list_push` leaves it. -/
def IsNode (h : Heap) (a : Nat) (v : Int) : Prop :=
  ∃ c, h.read a = some c ∧ c.is_marker = 0 ∧ c.count = v ∧ c.prev_marker = 0

/-- The cell at `m` is a marker with count `n` and previous marker `p`. -/
def IsMarker (h : Heap) (m : Nat) (n : Int) (p : Nat) : Prop :=
  ∃ c, h.read m = some c ∧ c.is_marker = 1 ∧ c.count = n ∧ c.prev_marker = p

/-- The tags, counts, payloads and `prev_marker` links of the spans: every span
is non-empty, its elements are data elements carrying their payload, its marker
counts them and points back to the marker of the span before (`p` for the
first). -/
def Info (h : Heap) (pay : Nat → Int) : Nat → List Span → Prop
  | _, [] => True
  | p, s :: rest =>
    s.1 ≠ [] ∧ (∀ a ∈ s.1, IsNode h a (pay a)) ∧ IsMarker h s.2 s.1.length p ∧
      Info h pay s.2 rest

/-- The representation invariant: the list state `l` holds exactly the spans
`spans`, with payloads `pay`. -/
structure Rep (l : list_t) (spans : List Span) (pay : Nat → Int) : Prop where
  linked : Linked l.mem (flat spans) 0
  info : Info l.mem pay 0 spans
  nodup : (flat spans).Nodup
  head_eq : l.head = (flat spans).headD 0
  tail_eq : l.marker_tail = (spans.map Prod.snd).headD 0

/-- Put `e` at the front of the spans, behind the new marker `new` when the
first span is full (or there is none). -/
def ainsert (cap : Int) (e new : Nat) : List Span → List Span
  | [] => [([e], new)]
  | s :: rest =>
    if (s.1.length : Int) ≥ cap then ([e], new) :: s :: rest
    else (e :: s.1, s.2) :: rest

/-- Take `e` out of the spans, dropping a span that becomes empty. -/
def aremove (e : Nat) : List Span → List Span
  | [] => []
  | s :: rest =>
    if e ∈ s.1 then
      (if s.1.erase e = [] then rest else (s.1.erase e, s.2) :: rest)
    else s :: aremove e rest

/-- The effect of `list_move_to_head` on the spans: nothing when `e` is the
head, otherwise take `e` out and put it back at the front. -/
def amove (cap : Int) (e new : Nat) (spans : List Span) : List Span :=
  if (flat spans).headD 0 = e then spans else ainsert cap e new (aremove e spans)

/-! ## Observations used by the theorems -/

/-- The number of data elements met from the head before `elem`: those that
lie strictly nearer the head than `elem`. -/
def nearer_head (list : list_t) (elem : Nat) : Nat :=
  ((data_elems list).takeWhile (fun a => decide (a ≠ elem))).length

/-- The sum of the `count` fields of the markers of the list. -/
def marker_count_sum (list : list_t) : Int :=
  ((marker_elems list).map (count_at list.mem)).sum

/-- Push the payloads one after the other, first payload first. -/
def push_all (malloc : Heap → Nat) (cap : Int) : list_t → List Int → Option list_t
  | l, [] => some l
  | l, d :: ds => (list_push malloc cap l d) >>= fun r => push_all malloc cap r.1 ds

/-- The list after pushing A, B, C (payloads 65, 66, 67) with the bump
allocator: A is element 1, B is element 3, C is element 4, the marker is 2. -/
def ex_abc : list_t :=
  (push_all bump MARKER_MAX_SZ list_create [65, 66, 67]).getD list_create

/-- The list after pushing A to E (payloads 65 to 69) with cap 2 and the bump
allocator: A = 1, B = 3, C = 4, D = 6, E = 7, markers 2, 5 and 8. -/
def ex_abcde : list_t :=
  (push_all bump 2 list_create [65, 66, 67, 68, 69]).getD list_create

/-! ## Touch histories

A history lists the handles (or references) touched so far, most recent
first. -/

/-- The most-recently-used order of a history: every handle once, at the place
of its most recent touch. -/
def mru {α : Type} [DecidableEq α] : List α → List α
  | [] => []
  | x :: hist => x :: (mru hist).filter (fun y => decide (y ≠ x))

/-- The number of distinct handles touched after the most recent touch of `x`:
the distinct handles in the part of the history that is more recent than the
first entry equal to `x`. -/
def touched_since {α : Type} [DecidableEq α] (hist : List α) (x : α) : Nat :=
  ((hist.takeWhile (fun y => decide (y ≠ x))).dedup).length

/-- The list states reached from `list_create` by a finite sequence of
`list_push` and `list_move_to_head` calls, with the history of the handles
touched: a push touches the handle it returns, a move touches its argument,
which is a handle returned by an earlier push. -/
inductive Trace (malloc : Heap → Nat) (cap : Int) : list_t → List Nat → Prop
  | create : Trace malloc cap list_create []
  | push {l l1 : list_t} {hist : List Nat} {data : Int} {a : Nat} :
      Trace malloc cap l hist → list_push malloc cap l data = some (l1, a) →
      Trace malloc cap l1 (a :: hist)
  | move {l l1 : list_t} {hist : List Nat} {x : Nat} {d : Int} :
      Trace malloc cap l hist → x ∈ hist →
      list_move_to_head malloc cap l x = some (l1, d) →
      Trace malloc cap l1 (x :: hist)

/-! ## The driver (`stack_dist.c`) -/

/-- The constant `DEFAULT_NBUCKETS`. -/
def DEFAULT_NBUCKETS : Int := 1000000

/-- The macro `B_OVFL`: the index of the overflow counter. -/
def B_OVFL (nbuckets : Int) : Int := nbuckets

/-- The macro `B_INF`: the index of the cold-start counter. -/
def B_INF (nbuckets : Int) : Int := nbuckets + 1

/-- First loop of `process_string` (lines 62-66): what is left of the buffer
at index `i` when the loop stops.  The buffer is a C string: it ends at its
first `'\0'`, or at the end of the list. -/
def scan_blank : List Char → List Char
  | [] => []
  | c :: cs =>
    if c = '\x00' then c :: cs
    else if ¬ (c = ' ' ∨ c = '\t' ∨ c = '\n') then c :: cs
    else scan_blank cs

/-- Second loop of `process_string` (lines 73-74): the characters shifted to
the front of the buffer. -/
def shift_left : List Char → List Char
  | [] => []
  | c :: cs => if c ≠ '\n' ∧ c ≠ '\x00' then c :: shift_left cs else []

/-- Function `process_string`: the returned length and the string left in the
buffer. -/
def process_string (input : List Char) : Int × List Char :=
  match scan_blank input with
  | [] => (0, input)
  | c :: cs =>
    if c = '\x00' ∨ c = '#' then (0, input)
    else ((shift_left (c :: cs)).length, shift_left (c :: cs))

/-- The symbol table `data_elem`: a finite map from reference strings (compared
by content, as `compare_strings` does) to list elements. -/
abbrev GHashTable := List (List Char × Nat)

/-- Library call `g_hash_table_lookup`: the element stored for `key`, `NULL`
when there is none. -/
def g_hash_table_lookup : GHashTable → List Char → Nat
  | [], _ => 0
  | (k, v) :: tbl, key => if key = k then v else g_hash_table_lookup tbl key

/-- Library call `g_hash_table_insert`: store `value` for `key`, replacing an
earlier entry. -/
def g_hash_table_insert (tbl : GHashTable) (key : List Char) (value : Nat) : GHashTable :=
  (key, value) :: tbl.filter (fun p => decide (p.1 ≠ key))

/-- Add one to the counter at index `i` of an array of counters. -/
def incr_at : List Nat → Nat → List Nat
  | [], _ => []
  | c :: cs, 0 => (c + 1) :: cs
  | c :: cs, i + 1 => c :: incr_at cs i

/-- The statement `histogram[i] += 1`; an index outside the array is undefined
behaviour.  The counters are unbounded. -/
def hist_incr (histogram : List Nat) (i : Int) : Option (List Nat) :=
  if 0 ≤ i ∧ i < histogram.length then some (incr_at histogram i.toNat) else none

/-- Lines 166-170 of `main`: count a hit at distance `distance`. -/
def record_hit (nbuckets : Int) (histogram : List Nat) (distance : Int) : Option (List Nat) :=
  if distance > nbuckets then hist_incr histogram (B_OVFL nbuckets)
  else hist_incr histogram distance

/-- The state of the loop of `main`. -/
structure driver_t where
  data_elem : GHashTable
  access_list : list_t
  histogram : List Nat
deriving DecidableEq, Repr

/-- Lines 130-136 of `main`: the state before the trace is read. -/
def main_init (nbuckets : Int) : driver_t :=
  { data_elem := [], access_list := list_create,
    histogram := List.replicate (nbuckets + 2).toNat 0 }

/-- Lines 150-171 of `main`: one reference.  `strdup` gives the address of the
copy of the string, which becomes the payload of the new list element. -/
def process_ref (malloc : Heap → Nat) (cap : Int) (strdup : List Char → Int)
    (nbuckets : Int) (st : driver_t) (input : List Char) : Option driver_t :=
  let lookup := g_hash_table_lookup st.data_elem input
  if lookup = 0 then
    -- Cold start: Not in the list yet
    list_push malloc cap st.access_list (strdup input) >>= fun r =>
    (hist_incr st.histogram (B_INF nbuckets)).map (fun h =>
      ({ data_elem := g_hash_table_insert st.data_elem input r.2,
         access_list := r.1, histogram := h } : driver_t))
  else
    -- Hit: We've seen this data before
    list_move_to_head malloc cap st.access_list lookup >>= fun r =>
    (record_hit nbuckets st.histogram r.2).map (fun h =>
      ({ data_elem := st.data_elem, access_list := r.1, histogram := h } : driver_t))

/-- The loop of `main` (lines 139-172) over the lines delivered by `fgets`. -/
def main_loop (malloc : Heap → Nat) (cap : Int) (strdup : List Char → Int)
    (nbuckets : Int) : driver_t → List (List Char) → Option driver_t
  | st, [] => some st
  | st, line :: rest =>
    if (process_string line).1 = 0 then main_loop malloc cap strdup nbuckets st rest
    else process_ref malloc cap strdup nbuckets st (process_string line).2 >>= fun st1 =>
      main_loop malloc cap strdup nbuckets st1 rest

/-- The loop of `main` over references that are already normalized. -/
def run_refs (malloc : Heap → Nat) (cap : Int) (strdup : List Char → Int)
    (nbuckets : Int) : driver_t → List (List Char) → Option driver_t
  | st, [] => some st
  | st, r :: rest =>
    process_ref malloc cap strdup nbuckets st r >>= fun st1 =>
      run_refs malloc cap strdup nbuckets st1 rest

/-! ## The specification of the driver, in the words of the spec -/

/-- The C string held in a buffer: the characters before the first `'\0'`. -/
def c_string (buf : List Char) : List Char := buf.takeWhile (fun c => decide (c ≠ '\x00'))

/-- Leading whitespace, as the spec has it: space, tab, newline. -/
def is_blank (c : Char) : Bool := decide (c = ' ' ∨ c = '\t' ∨ c = '\n')

/-- A record is discarded when, after stripping leading whitespace, it is
empty or its first character is `#`. -/
def discarded (line : List Char) : Prop :=
  (c_string line).dropWhile is_blank = [] ∨
    ((c_string line).dropWhile is_blank).head? = some '#'

/-- Whether a record is discarded can be computed. -/
instance discarded_decidable (line : List Char) : Decidable (discarded line) := by
  unfold discarded; infer_instance

/-- The reference read from a line that is not discarded: the line without its
leading whitespace, up to the line terminator. -/
def reference_of (line : List Char) : List Char :=
  ((c_string line).dropWhile is_blank).takeWhile (fun c => decide (c ≠ '\n'))

/-- What the loop of `main` does with a line, in the words of the spec: nothing
when the record is discarded, otherwise it processes the reference. -/
def normalized (line : List Char) : Option (List Char) :=
  if discarded line then none else some (reference_of line)

/-- The stack distance of reference `r` after the references `seen` (most
recent first): none on a first occurrence, otherwise the number of distinct
references seen since the previous occurrence of `r`. -/
def stack_distance (seen : List (List Char)) (r : List Char) : Option Nat :=
  if r ∈ seen then some (touched_since seen r) else none

/-- One reference in the naive histogram: COLD (index `nbuckets + 1`) on a
first occurrence, otherwise bucket `d` when `d < nbuckets` and OVERFLOW (index
`nbuckets`) when not. -/
def naive_step (nbuckets : Nat) (hist : List Nat) (seen : List (List Char))
    (r : List Char) : List Nat :=
  match stack_distance seen r with
  | none => incr_at hist (nbuckets + 1)
  | some d => if d < nbuckets then incr_at hist d else incr_at hist nbuckets

/-- The naive histogram of a stream, continuing from `hist` after `seen`. -/
def naive_hist (nbuckets : Nat) : List Nat → List (List Char) → List (List Char) → List Nat
  | hist, _, [] => hist
  | hist, seen, r :: rest =>
    naive_hist nbuckets (naive_step nbuckets hist seen r) (r :: seen) rest

/-- The histogram of the naive stack-distance definition for a whole stream. -/
def naive_histogram (nbuckets : Nat) (refs : List (List Char)) : List Nat :=
  naive_hist nbuckets (List.replicate (nbuckets + 2) 0) [] refs

/-- The driver scenario of the spec: the stream a, a, b, a. -/
def ex_stream : List (List Char) := [['a'], ['a'], ['b'], ['a']]

/-- The driver scenario of the spec with blank and comment lines, as `fgets`
delivers them. -/
def ex_lines : List (List Char) := ["  \n".toList, "# note\n".toList, "x\n".toList]

/-- The invariant of the loop of `main` after the references `seen` (most
recent first): the list holds the elements of the references seen in
most-recently-used order, the symbol table knows exactly the references seen,
and the histogram has `nbuckets + 2` counters. -/
def DriverInv (nbuckets : Nat) (st : driver_t) (seen : List (List Char)) : Prop :=
  ∃ spans pay, Rep st.access_list spans pay ∧
    nodes spans = (mru seen).map (g_hash_table_lookup st.data_elem) ∧
    (∀ r, r ∉ seen → g_hash_table_lookup st.data_elem r = 0) ∧
    st.histogram.length = nbuckets + 2

/-! ## Spans, links and the report scan, read off a list state -/

/-- Cut a sequence of addresses after every marker.  `acc` holds, in reverse,
the data elements met since the last marker; data elements after the last
marker belong to no span. -/
def group_spans (h : Heap) : List Nat → List Nat → List Span
  | _, [] => []
  | acc, a :: rest =>
    if is_mark h a then (acc.reverse, a) :: group_spans h [] rest
    else group_spans h (a :: acc) rest

/-- The spans of a list state, front to back: each marker of the sequence with
the run of data elements between the marker before it (or the head) and it. -/
def spans_of (list : list_t) : List Span := group_spans list.mem [] (list_elems list)

/-- The span of the marker `m`: its data elements, front to back. -/
def span_of_marker (list : list_t) (m : Nat) : List Nat :=
  match (spans_of list).find? (fun s => decide (s.2 = m)) with
  | some s => s.1
  | none => []

/-- The number of data elements of the span of `m` that are at or nearer the
front than `e`, `e` itself included. -/
def span_at_or_nearer (list : list_t) (m e : Nat) : Nat :=
  ((span_of_marker list m).filter (fun a =>
    decide ((list_elems list).indexOf a ≤ (list_elems list).indexOf e))).length

/-- The number of data elements of the span of `m` that are strictly nearer
the front than `e`. -/
def span_strictly_nearer (list : list_t) (m e : Nat) : Nat :=
  ((span_of_marker list m).filter (fun a =>
    decide ((list_elems list).indexOf a < (list_elems list).indexOf e))).length

/-- The `next` field stored at `a` (`NULL` when not allocated). -/
def next_at (mem : Heap) (a : Nat) : Nat :=
  match mem.read a with
  | some c => c.next
  | none => 0

/-- The `prev_marker` field stored at `a` (`NULL` when not allocated). -/
def prev_marker_at (mem : Heap) (a : Nat) : Nat :=
  match mem.read a with
  | some c => c.prev_marker
  | none => 0

/-- Lines 183-185 of `main`: `while (histogram[last_bucket] == 0) last_bucket--`.
Reading outside the array is undefined behaviour: `none`. -/
def find_last_bucket (histogram : List Nat) : Nat → Int → Option Int
  | 0, _ => none
  | fuel + 1, last_bucket =>
    if last_bucket < 0 ∨ (histogram.length : Int) ≤ last_bucket then none
    else if histogram.getD last_bucket.toNat 0 = 0 then
      find_last_bucket histogram fuel (last_bucket - 1)
    else some last_bucket

/-- Lines 182-185 of `main`: the last non-zero bucket, scanning down from
`nbuckets - 1`.  The index only decreases, so `length + 1` steps are enough. -/
def last_bucket (nbuckets : Int) (histogram : List Nat) : Option Int :=
  find_last_bucket histogram (histogram.length + 1) (nbuckets - 1)

/-- The list after pushing A to E with cap 2 and moving A to the head: the
sequence is A, E, marker 8, D, C, marker 5, B, marker 2. -/
def ex_moved : list_t :=
  ((list_move_to_head bump 2 ex_abcde 1).getD (list_create, 0)).1

/-- Two lists in one memory: the first holds A (element 1, marker 2), the
second, created after it, holds B (element 3, marker 4).  This is the first
list. -/
def ex_first_of_two : list_t :=
  let l1 := ((list_push bump MARKER_MAX_SZ list_create 65).getD (list_create, 0)).1
  let l2 := ((list_push bump MARKER_MAX_SZ { mem := l1.mem, head := 0, marker_tail := 0 } 66).getD
    (list_create, 0)).1
  { mem := l2.mem, head := l1.head, marker_tail := l1.marker_tail }

/-- What putting an element at the head does to the markers, from the state
`l` before to the state `l1` after, in the words of the spec: when the list is
empty or the active marker is at the cap, a new marker is inserted ahead of the
old one and becomes the active marker with count 1; otherwise the active marker
stays and counts one more. -/
def front_insert_effect (cap : Int) (l l1 : list_t) : Prop :=
  if l.head = 0 ∨ cap ≤ count_at l.mem l.marker_tail then
    marker_elems l1 = l1.marker_tail :: marker_elems l ∧
    l1.marker_tail ∉ list_elems l ∧
    count_at l1.mem l1.marker_tail = 1 ∧
    (l.head ≠ 0 → prev_marker_at l1.mem l.marker_tail = l1.marker_tail)
  else
    marker_elems l1 = marker_elems l ∧
    l1.marker_tail = l.marker_tail ∧
    count_at l1.mem l1.marker_tail = count_at l.mem l.marker_tail + 1

/-! ## Theorems -/

theorem find_free (h : Heap) (a b : Nat) :
    (h.free a).find b = if b = a then none else h.find b := by
  induction h with
  | nil => simp [Heap.free, Heap.find]
  | cons x h ih =>
    obtain ⟨k, c⟩ := x
    simp only [Heap.free] at ih ⊢
    by_cases hk : k = a
    · subst hk
      simp only [List.filter, ne_eq, not_true_eq_false, decide_False, Heap.find]
      rw [ih]; split_ifs <;> simp_all
    · simp only [List.filter, ne_eq, hk, not_false_eq_true, decide_True, Heap.find]
      rw [ih]; split_ifs <;> simp_all

theorem read_free (h : Heap) (a b : Nat) :
    (h.free a).read b = if b = a then none else h.read b := by
  simp only [Heap.read, find_free]; split_ifs <;> rfl

theorem read_write (h : Heap) {a : Nat} (ha : a ≠ 0) (c : list_elem_t) (b : Nat) :
    (h.write a c).read b = if b = a then some c else h.read b := by
  simp only [Heap.read, Heap.write, Heap.find, find_free]
  split_ifs <;> simp_all

theorem read_zero (h : Heap) : h.read 0 = none := by simp [Heap.read]

theorem ne_zero_of_read {h : Heap} {a : Nat} {c : list_elem_t} (hr : h.read a = some c) :
    a ≠ 0 := by
  rintro rfl; simp [Heap.read] at hr

theorem find_of_read {h : Heap} {a : Nat} {c : list_elem_t} (hr : h.read a = some c) :
    h.find a = some c := by
  have := ne_zero_of_read hr
  simpa [Heap.read, this] using hr

theorem mem_keys_of_find {h : Heap} {a : Nat} {c : list_elem_t} (hr : h.find a = some c) :
    a ∈ h.map Prod.fst := by
  induction h with
  | nil => simp [Heap.find] at hr
  | cons x h ih =>
    obtain ⟨k, d⟩ := x
    simp only [Heap.find] at hr
    by_cases hk : a = k
    · simp [hk]
    · simp only [hk, if_false] at hr
      simp [ih hr]

/-- A duplicate-free list of allocated addresses is no longer than the heap. -/
theorem length_le_of_live {h : Heap} {L : List Nat} (hnd : L.Nodup)
    (hl : ∀ a ∈ L, ∃ c, h.read a = some c) : L.length ≤ h.length := by
  have hsub : L ⊆ h.map Prod.fst := by
    intro a ha
    obtain ⟨c, hc⟩ := hl a ha
    exact mem_keys_of_find (find_of_read hc)
  have := (List.subperm_of_subset hnd hsub).length_le
  simpa using this

theorem bump_valid : ValidMalloc bump := by
  intro h
  refine ⟨by simp [bump], ?_⟩
  have key : ∀ (h : Heap) (a : Nat), (h.map Prod.fst).foldr max 0 < a → h.find a = none := by
    intro h
    induction h with
    | nil => intro a _; rfl
    | cons x h ih =>
      obtain ⟨k, d⟩ := x
      intro a ha
      simp only [List.map, List.foldr] at ha
      have h1 : k < a := lt_of_le_of_lt (le_max_left _ _) ha
      have h2 := lt_of_le_of_lt (le_max_right _ _) ha
      simp only [Heap.find, Nat.ne_of_gt h1, if_false]
      exact ih a h2
  exact key h _ (Nat.lt_succ_self _)

theorem headD_append (L1 L2 : List Nat) (s : Nat) :
    (L1 ++ L2).headD s = L1.headD (L2.headD s) := by
  cases L1 <;> rfl

theorem linked_cons_iff (h : Heap) (a : Nat) (rest : List Nat) (stop : Nat) :
    Linked h (a :: rest) stop ↔ nextOf h a = some (rest.headD stop) ∧ Linked h rest stop := by
  simp [Linked, nextOf]

theorem linked_append (h : Heap) (L1 L2 : List Nat) (stop : Nat) :
    Linked h (L1 ++ L2) stop ↔ Linked h L1 (L2.headD stop) ∧ Linked h L2 stop := by
  induction L1 with
  | nil => simp [Linked]
  | cons a L1 ih =>
    simp only [List.cons_append, linked_cons_iff, ih, headD_append]
    tauto

theorem linked_congr {h h1 : Heap} {L : List Nat} {stop : Nat}
    (hs : ∀ a ∈ L, nextOf h1 a = nextOf h a) (hl : Linked h L stop) : Linked h1 L stop := by
  induction L with
  | nil => trivial
  | cons a L ih =>
    rw [linked_cons_iff] at hl ⊢
    refine ⟨?_, ih (fun b hb => hs b (List.mem_cons_of_mem _ hb)) hl.2⟩
    rw [hs a (List.mem_cons_self _ _)]; exact hl.1

theorem linked_live {h : Heap} {L : List Nat} {stop : Nat} (hl : Linked h L stop) :
    ∀ a ∈ L, ∃ c, h.read a = some c := by
  induction L with
  | nil => simp
  | cons a L ih =>
    intro b hb
    rcases List.mem_cons.1 hb with rfl | hb
    · obtain ⟨⟨c, hc, _⟩, _⟩ := hl; exact ⟨c, hc⟩
    · exact ih hl.2 b hb

theorem isNode_iff (h : Heap) (a : Nat) (v : Int) :
    IsNode h a v ↔ infoOf h a = some (0, v, 0) := by
  simp only [IsNode, infoOf, Option.map_eq_some', Prod.mk.injEq]

theorem isMarker_iff (h : Heap) (m : Nat) (n : Int) (p : Nat) :
    IsMarker h m n p ↔ infoOf h m = some (1, n, p) := by
  simp only [IsMarker, infoOf, Option.map_eq_some', Prod.mk.injEq]

theorem flat_append (s1 s2 : List Span) : flat (s1 ++ s2) = flat s1 ++ flat s2 := by
  induction s1 with
  | nil => rfl
  | cons s s1 ih => simp [flat, ih]

theorem nodes_append (s1 s2 : List Span) : nodes (s1 ++ s2) = nodes s1 ++ nodes s2 := by
  induction s1 with
  | nil => rfl
  | cons s s1 ih => simp [nodes, ih]

theorem lastM_append (p : Nat) (s1 s2 : List Span) :
    lastM p (s1 ++ s2) = lastM (lastM p s1) s2 := by
  induction s1 generalizing p with
  | nil => rfl
  | cons s s1 ih => simp [lastM, ih]

theorem info_append (h : Heap) (pay : Nat → Int) (p : Nat) (s1 s2 : List Span) :
    Info h pay p (s1 ++ s2) ↔ Info h pay p s1 ∧ Info h pay (lastM p s1) s2 := by
  induction s1 generalizing p with
  | nil => simp [Info, lastM]
  | cons s s1 ih =>
    show (_ ∧ _ ∧ _ ∧ Info h pay s.2 (s1 ++ s2)) ↔
      (_ ∧ _ ∧ _ ∧ Info h pay s.2 s1) ∧ Info h pay (lastM s.2 s1) s2
    rw [ih]; tauto

theorem info_congr {h h1 : Heap} {pay pay1 : Nat → Int} {p : Nat} {spans : List Span}
    (hs : ∀ a ∈ flat spans, infoOf h1 a = infoOf h a)
    (hp : ∀ a ∈ nodes spans, pay1 a = pay a)
    (hi : Info h pay p spans) : Info h1 pay1 p spans := by
  induction spans generalizing p with
  | nil => trivial
  | cons s rest ih =>
    obtain ⟨h1', h2, h3, h4⟩ := hi
    refine ⟨h1', ?_, ?_, ih ?_ ?_ h4⟩
    · intro a ha
      have := h2 a ha
      rw [isNode_iff] at this ⊢
      rw [hs a (by simp [flat, ha]), hp a (by simp [nodes, ha])]; exact this
    · rw [isMarker_iff] at h3 ⊢
      rw [hs _ (by simp [flat])]; exact h3
    · intro a ha; exact hs a (by simp [flat, ha])
    · intro a ha; exact hp a (by simp [nodes, ha])

theorem nodes_sublist_flat (spans : List Span) : ∀ a ∈ nodes spans, a ∈ flat spans := by
  induction spans with
  | nil => simp [nodes]
  | cons s rest ih =>
    intro a ha
    simp only [nodes, List.mem_append] at ha
    simp only [flat, List.mem_append, List.mem_cons]
    rcases ha with ha | ha
    · exact Or.inl ha
    · exact Or.inr (Or.inr (ih a ha))

theorem headD_append_cons (ns : List Nat) (m : Nat) (R : List Nat) (s t : Nat) :
    (ns ++ m :: R).headD s = (ns ++ [m]).headD t := by
  cases ns <;> rfl

theorem linked_cons_read {h : Heap} {a : Nat} {r : List Nat} {stop : Nat}
    (hl : Linked h (a :: r) stop) :
    (∃ c, h.read a = some c ∧ c.next = r.headD stop) ∧ Linked h r stop := hl

theorem list_walk_linked {h : Heap} {L : List Nat} (hl : Linked h L 0) :
    ∀ fuel, L.length ≤ fuel → list_walk h fuel (L.headD 0) = L := by
  induction L with
  | nil =>
    intro fuel _
    cases fuel with
    | zero => rfl
    | succ n => simp [list_walk, read_zero]
  | cons a L ih =>
    intro fuel hf
    obtain ⟨⟨c, hc, hn⟩, hl2⟩ := hl
    cases fuel with
    | zero => simp at hf
    | succ n =>
      simp only [List.headD_cons, list_walk, hc, hn]
      rw [ih hl2 n (by simpa using hf)]

theorem find_marker_spec {h : Heap} {w : Nat → Int} {m : Nat} {n : Int} {p : Nat}
    (hm : IsMarker h m n p) :
    ∀ (ns R : List Nat) (stop : Nat) (fuel : Nat) (d : Int),
      Linked h (ns ++ m :: R) stop → (∀ a ∈ ns, IsNode h a (w a)) → ns.length < fuel →
      find_marker h fuel ((ns ++ [m]).headD 0) d = some (m, d + ns.length) := by
  intro ns
  induction ns with
  | nil =>
    intro R stop fuel d _ _ hf
    obtain ⟨c, hc, hk, _⟩ := hm
    cases fuel with
    | zero => simp at hf
    | succ k => simp [find_marker, hc, hk]
  | cons a ns ih =>
    intro R stop fuel d hl hn hf
    cases fuel with
    | zero => simp at hf
    | succ k =>
      obtain ⟨⟨c, hc, hnx⟩, hl2⟩ := linked_cons_read (r := ns ++ m :: R) hl
      obtain ⟨c1, hc1, hk1, _⟩ := hn a (List.mem_cons_self _ _)
      rw [hc] at hc1; cases hc1
      have hnx1 : c.next = (ns ++ [m]).headD 0 := by
        rw [hnx]; exact headD_append_cons _ _ _ _ _
      simp only [List.cons_append, List.headD_cons, find_marker, hc, Option.bind_eq_bind, Option.some_bind, hk1,
        if_true, hnx1]
      rw [ih R stop k (d + 1) hl2 (fun b hb => hn b (List.mem_cons_of_mem _ hb))
        (by simpa using hf)]
      simp only [List.length_cons, Nat.cast_add, Nat.cast_one]
      congr 2; ring

theorem skip_to_marker_spec {h : Heap} {w : Nat → Int} {m : Nat} {n : Int} {p : Nat}
    (hm : IsMarker h m n p) :
    ∀ (ns R : List Nat) (stop : Nat) (fuel : Nat),
      Linked h (ns ++ m :: R) stop → (∀ a ∈ ns, IsNode h a (w a)) → ns.length < fuel →
      skip_to_marker h fuel ((ns ++ [m]).headD 0) = some m := by
  intro ns
  have hm0 : m ≠ 0 := by obtain ⟨c, hc, _⟩ := hm; exact ne_zero_of_read hc
  induction ns with
  | nil =>
    intro R stop fuel _ _ hf
    obtain ⟨c, hc, hk, _⟩ := hm
    cases fuel with
    | zero => simp at hf
    | succ k => simp [skip_to_marker, hc, hk, hm0]
  | cons a ns ih =>
    intro R stop fuel hl hn hf
    cases fuel with
    | zero => simp at hf
    | succ k =>
      obtain ⟨⟨c, hc, hnx⟩, hl2⟩ := linked_cons_read (r := ns ++ m :: R) hl
      obtain ⟨c1, hc1, hk1, _⟩ := hn a (List.mem_cons_self _ _)
      rw [hc] at hc1; cases hc1
      have hnx1 : c.next = (ns ++ [m]).headD 0 := by
        rw [hnx]; exact headD_append_cons _ _ _ _ _
      simp only [List.cons_append, List.headD_cons, skip_to_marker, ne_zero_of_read hc, hc,
        Option.bind_eq_bind, Option.some_bind, hk1, if_true, if_false, hnx1]
      exact ih R stop k hl2 (fun b hb => hn b (List.mem_cons_of_mem _ hb)) (by simpa using hf)

theorem walk_markers_spec {h : Heap} {pay : Nat → Int} :
    ∀ (pre : List Span) (fuel : Nat) (acc : Int),
      Info h pay 0 pre → pre.length < fuel →
      walk_markers h fuel (lastM 0 pre) acc = some (acc + (nodes pre).length) := by
  intro pre
  induction pre using List.reverseRecOn with
  | nil =>
    intro fuel acc _ hf
    cases fuel with
    | zero => simp at hf
    | succ k => simp [walk_markers, lastM, nodes]
  | append_singleton pre s ih =>
    intro fuel acc hi hf
    cases fuel with
    | zero => simp at hf
    | succ k =>
      rw [info_append] at hi
      obtain ⟨hi1, _, _, ⟨c, hc, _, hcnt, hprev⟩, _⟩ := hi
      simp only [lastM_append, lastM, walk_markers, ne_zero_of_read hc, if_false, hc,
        Option.bind_eq_bind, Option.some_bind, hprev, hcnt]
      rw [ih k _ hi1 (by simpa using hf)]
      simp only [nodes_append, nodes, List.append_nil, List.length_append, Nat.cast_add]
      congr 1; ring

theorem headD_mem_of_ne_nil {L : List Nat} (hL : L ≠ []) (d : Nat) : L.headD d ∈ L := by
  cases L with
  | nil => exact absurd rfl hL
  | cons a L => simp

theorem find_parent_spec {h : Heap} {elem p : Nat} :
    ∀ (Q R : List Nat) (stop : Nat) (fuel : Nat),
      Linked h (Q ++ p :: elem :: R) stop → elem ∉ Q → elem ≠ p → Q.length < fuel →
      find_parent h elem fuel ((Q ++ [p]).headD 0) = some p := by
  intro Q
  induction Q with
  | nil =>
    intro R stop fuel hl _ _ hf
    cases fuel with
    | zero => simp at hf
    | succ k =>
      obtain ⟨⟨c, hc, hnx⟩, _⟩ := hl
      simp only [List.headD_cons] at hnx
      simp [find_parent, hc, hnx]
  | cons a Q ih =>
    intro R stop fuel hl hq hp hf
    cases fuel with
    | zero => simp at hf
    | succ k =>
      obtain ⟨⟨c, hc, hnx⟩, hl2⟩ := linked_cons_read (r := Q ++ p :: elem :: R) hl
      have hnx1 : c.next = (Q ++ [p]).headD 0 := by
        rw [hnx]; exact headD_append_cons _ _ _ _ _
      have hmem : (Q ++ [p]).headD 0 ∈ Q ++ [p] := headD_mem_of_ne_nil (by simp) 0
      have hne : c.next ≠ elem := by
        rw [hnx1]; intro he; rw [he] at hmem
        simp only [List.mem_append, List.mem_singleton] at hmem
        rcases hmem with h1 | h1
        · exact hq (List.mem_cons_of_mem _ h1)
        · exact hp h1
      rw [hnx1] at hne
      simp only [List.cons_append, List.headD_cons, find_parent, hc, Option.bind_eq_bind,
        Option.some_bind, hnx1, ne_eq, hne, not_false_eq_true, if_true]
      exact ih R stop k hl2 (fun hh => hq (List.mem_cons_of_mem _ hh)) hp (by simpa using hf)

theorem is_data_of_isNode {h : Heap} {a : Nat} {v : Int} (hn : IsNode h a v) :
    is_data h a = true := by
  obtain ⟨c, hc, hk, _⟩ := hn
  simp [is_data, hc, hk]

theorem is_mark_of_isNode {h : Heap} {a : Nat} {v : Int} (hn : IsNode h a v) :
    is_mark h a = false := by
  obtain ⟨c, hc, hk, _⟩ := hn
  simp [is_mark, hc, hk]

theorem is_data_of_isMarker {h : Heap} {m : Nat} {n : Int} {p : Nat} (hm : IsMarker h m n p) :
    is_data h m = false := by
  obtain ⟨c, hc, hk, _⟩ := hm
  simp [is_data, hc, hk]

theorem is_mark_of_isMarker {h : Heap} {m : Nat} {n : Int} {p : Nat} (hm : IsMarker h m n p) :
    is_mark h m = true := by
  obtain ⟨c, hc, hk, _⟩ := hm
  simp [is_mark, hc, hk]

theorem filter_data_flat {h : Heap} {pay : Nat → Int} :
    ∀ (spans : List Span) (p : Nat), Info h pay p spans →
      (flat spans).filter (is_data h) = nodes spans := by
  intro spans
  induction spans with
  | nil => intro _ _; rfl
  | cons s rest ih =>
    intro p hi
    obtain ⟨_, h2, h3, h4⟩ := hi
    have e1 : s.1.filter (is_data h) = s.1 :=
      List.filter_eq_self.2 (fun a ha => is_data_of_isNode (h2 a ha))
    simp only [flat, nodes, List.filter_append, e1, List.filter_cons, is_data_of_isMarker h3,
      ih s.2 h4]
    simp

theorem filter_mark_flat {h : Heap} {pay : Nat → Int} :
    ∀ (spans : List Span) (p : Nat), Info h pay p spans →
      (flat spans).filter (is_mark h) = spans.map Prod.snd := by
  intro spans
  induction spans with
  | nil => intro _ _; rfl
  | cons s rest ih =>
    intro p hi
    obtain ⟨_, h2, h3, h4⟩ := hi
    have e1 : s.1.filter (is_mark h) = [] :=
      List.filter_eq_nil_iff.2 (fun a ha => by simp [is_mark_of_isNode (h2 a ha)])
    simp only [flat, List.filter_append, e1, List.filter_cons, is_mark_of_isMarker h3,
      ih s.2 h4]
    simp

theorem rep_list_elems {l : list_t} {spans : List Span} {pay : Nat → Int}
    (hr : Rep l spans pay) : list_elems l = flat spans := by
  have hlen := length_le_of_live hr.nodup (linked_live hr.linked)
  unfold list_elems
  rw [hr.head_eq]
  exact list_walk_linked hr.linked _ (by omega)

theorem rep_data_elems {l : list_t} {spans : List Span} {pay : Nat → Int}
    (hr : Rep l spans pay) : data_elems l = nodes spans := by
  unfold data_elems
  rw [rep_list_elems hr]
  exact filter_data_flat spans 0 hr.info

theorem rep_marker_elems {l : list_t} {spans : List Span} {pay : Nat → Int}
    (hr : Rep l spans pay) : marker_elems l = spans.map Prod.snd := by
  unfold marker_elems
  rw [rep_list_elems hr]
  exact filter_mark_flat spans 0 hr.info

theorem rep_create : Rep list_create [] (fun _ => 0) where
  linked := trivial
  info := trivial
  nodup := List.nodup_nil
  head_eq := rfl
  tail_eq := rfl

/-- Establishing the invariant after an insertion behind a new marker. -/
theorem rep_insert_new {l : list_t} {spans : List Span} {pay : Nat → Int}
    (hr : Rep l spans pay) {e new : Nat} {h1 : Heap} {v : Int}
    (he : e ∉ flat spans) (hnew : new ∉ flat spans) (hen : e ≠ new)
    (hne : nextOf h1 e = some new) (hie : infoOf h1 e = some (0, v, 0))
    (hnn : nextOf h1 new = some l.head) (hin : infoOf h1 new = some (1, 1, 0))
    (hnext : ∀ a ∈ flat spans, nextOf h1 a = nextOf l.mem a)
    (hinfo : ∀ a ∈ flat spans, a ≠ l.marker_tail → infoOf h1 a = infoOf l.mem a)
    (htail : ∀ n p, infoOf l.mem l.marker_tail = some (1, n, p) →
      infoOf h1 l.marker_tail = some (1, n, new)) :
    Rep ⟨h1, e, new⟩ (([e], new) :: spans) (Function.update pay e v) := by
  have hlk : Linked h1 (flat spans) 0 := linked_congr hnext hr.linked
  have hpay : ∀ a ∈ nodes spans, Function.update pay e v a = pay a := by
    intro a ha
    have : a ≠ e := fun hh => he (hh ▸ nodes_sublist_flat spans a ha)
    simp [Function.update, this]
  refine ⟨?_, ?_, ?_, rfl, rfl⟩
  · show Linked h1 (e :: new :: flat spans) 0
    rw [linked_cons_iff, linked_cons_iff]
    refine ⟨by simpa using hne, ?_, hlk⟩
    rw [hnn, hr.head_eq]
  · show _ ∧ _ ∧ _ ∧ Info h1 _ new spans
    refine ⟨by simp, ?_, ?_, ?_⟩
    · intro a ha
      simp only [List.mem_singleton] at ha
      subst ha
      rw [isNode_iff]; simpa using hie
    · rw [isMarker_iff]; simpa using hin
    · cases spans with
      | nil => trivial
      | cons s rest =>
        obtain ⟨i1, i2, i3, i4⟩ := hr.info
        have ht : l.marker_tail = s.2 := hr.tail_eq
        have hnd := hr.nodup
        simp only [flat, List.nodup_append, List.nodup_cons] at hnd
        obtain ⟨nd1, ⟨nd2, nd3⟩, nd4⟩ := hnd
        refine ⟨i1, ?_, ?_, ?_⟩
        · intro a ha
          have hne2 : a ≠ l.marker_tail := by
            rw [ht]; rintro rfl
            exact nd4 ha (List.mem_cons_self _ _)
          have := i2 a ha
          rw [isNode_iff] at this ⊢
          rw [hinfo a (by simp [flat, ha]) hne2, hpay a (by simp [nodes, ha])]; exact this
        · rw [isMarker_iff] at i3 ⊢
          rw [← ht]; rw [← ht] at i3
          exact htail _ _ i3
        · refine info_congr (fun a ha => hinfo a (by simp [flat, ha]) ?_)
            (fun a ha => hpay a (by simp [nodes, ha])) i4
          rw [ht]; rintro rfl; exact nd2 ha
  · show (e :: new :: flat spans).Nodup
    simp only [List.nodup_cons, List.mem_cons, not_or]
    exact ⟨⟨hen, he⟩, hnew, hr.nodup⟩

/-- Establishing the invariant after an insertion into the first span. -/
theorem rep_insert_same {l : list_t} {s : Span} {rest : List Span} {pay : Nat → Int}
    (hr : Rep l (s :: rest) pay) {e : Nat} {h1 : Heap} {v : Int}
    (he : e ∉ flat (s :: rest))
    (hne : nextOf h1 e = some l.head) (hie : infoOf h1 e = some (0, v, 0))
    (hnext : ∀ a ∈ flat (s :: rest), nextOf h1 a = nextOf l.mem a)
    (hinfo : ∀ a ∈ flat (s :: rest), a ≠ s.2 → infoOf h1 a = infoOf l.mem a)
    (htail : infoOf h1 s.2 = some (1, (s.1.length : Int) + 1, 0)) :
    Rep ⟨h1, e, s.2⟩ ((e :: s.1, s.2) :: rest) (Function.update pay e v) := by
  have hlk : Linked h1 (flat (s :: rest)) 0 := linked_congr hnext hr.linked
  have hpay : ∀ a ∈ nodes (s :: rest), Function.update pay e v a = pay a := by
    intro a ha
    have : a ≠ e := fun hh => he (hh ▸ nodes_sublist_flat _ a ha)
    simp [Function.update, this]
  obtain ⟨i1, i2, i3, i4⟩ := hr.info
  have hnd := hr.nodup
  simp only [flat, List.nodup_append, List.nodup_cons] at hnd
  obtain ⟨nd1, ⟨nd2, nd3⟩, nd4⟩ := hnd
  refine ⟨?_, ?_, ?_, rfl, rfl⟩
  · show Linked h1 (e :: flat (s :: rest)) 0
    rw [linked_cons_iff]
    refine ⟨?_, hlk⟩
    rw [hne, hr.head_eq]
  · show _ ∧ _ ∧ _ ∧ Info h1 _ s.2 rest
    refine ⟨by simp, ?_, ?_, ?_⟩
    · intro a ha
      rcases List.mem_cons.1 ha with rfl | ha
      · rw [isNode_iff]; simpa using hie
      · have hne2 : a ≠ s.2 := by
          rintro rfl; exact nd4 ha (List.mem_cons_self _ _)
        have := i2 a ha
        rw [isNode_iff] at this ⊢
        rw [hinfo a (by simp [flat, ha]) hne2, hpay a (by simp [nodes, ha])]; exact this
    · rw [isMarker_iff]; simpa using htail
    · refine info_congr (fun a ha => hinfo a (by simp [flat, ha]) ?_)
        (fun a ha => hpay a (by simp [nodes, ha])) i4
      rintro rfl; exact nd2 ha
  · show (e :: flat (s :: rest)).Nodup
    exact List.nodup_cons.2 ⟨he, hr.nodup⟩

theorem read_none_of_find {h : Heap} {a : Nat} (hf : h.find a = none) : h.read a = none := by
  simp [Heap.read, hf]

theorem not_mem_of_read_none {h : Heap} {L : List Nat} {stop a : Nat}
    (hl : Linked h L stop) (hn : h.read a = none) : a ∉ L := by
  intro ha
  obtain ⟨c, hc⟩ := linked_live hl a ha
  rw [hn] at hc; cases hc

theorem nextOf_write (h : Heap) {a : Nat} (ha : a ≠ 0) (c : list_elem_t) (b : Nat) :
    nextOf (h.write a c) b = if b = a then some c.next else nextOf h b := by
  simp only [nextOf, read_write h ha]; split_ifs <;> rfl

theorem infoOf_write (h : Heap) {a : Nat} (ha : a ≠ 0) (c : list_elem_t) (b : Nat) :
    infoOf (h.write a c) b =
      if b = a then some (c.is_marker, c.count, c.prev_marker) else infoOf h b := by
  simp only [infoOf, read_write h ha]; split_ifs <;> rfl

theorem malloc_fresh {malloc : Heap → Nat} (hm : ValidMalloc malloc) (h : Heap) :
    malloc h ≠ 0 ∧ h.read (malloc h) = none :=
  ⟨(hm h).1, read_none_of_find (hm h).2⟩

theorem push_spec {malloc : Heap → Nat} (hm : ValidMalloc malloc) (cap : Int)
    {l : list_t} {spans : List Span} {pay : Nat → Int} (hr : Rep l spans pay) (data : Int) :
    ∃ l1 new, list_push malloc cap l data = some (l1, malloc l.mem) ∧
      Rep l1 (ainsert cap (malloc l.mem) new spans) (Function.update pay (malloc l.mem) data) ∧
      malloc l.mem ∉ flat spans := by
  obtain ⟨mem, head, mt⟩ := l
  cases spans with
  | nil =>
    have hhead : head = 0 := hr.head_eq
    have htail : mt = 0 := hr.tail_eq
    subst hhead; subst htail
    obtain ⟨ha0, har⟩ := malloc_fresh hm mem
    generalize hadef : malloc mem = a at ha0 har
    generalize hh1 : mem.write a
      { count := data, next := 0, is_marker := 0, prev_marker := 0 } = h1
    have hr1 : ∀ b, h1.read b = if b = a then
        some { count := data, next := 0, is_marker := 0, prev_marker := 0 }
        else mem.read b := by
      intro b; rw [← hh1, read_write _ ha0]
    obtain ⟨hn0, hnr⟩ := malloc_fresh hm h1
    generalize hndef : malloc h1 = new at hn0 hnr
    have hna : new ≠ a := by
      rintro rfl; rw [hr1] at hnr; simp at hnr
    simp only [list_push, hadef, ha0, if_false, hh1, list_is_empty, if_true,
        ne_eq, not_true_eq_false, not_false_eq_true, one_ne_zero, Option.bind_eq_bind,
        Option.some_bind, hndef, hn0, read_write _ hn0, hr1, Ne.symm hna, Option.map_some',
        eq_self_iff_true, read_write _ ha0, hna, Option.some.injEq, Prod.mk.injEq, and_true]
    refine ⟨_, new, rfl, ?_, by simp [flat]⟩
    have hnn : new ∉ flat [] := by simp [flat]
    show Rep _ [([a], new)] _
    refine rep_insert_new (e := a) (v := data) hr (by simp [flat]) hnn (Ne.symm hna)
      ?_ ?_ ?_ ?_ ?_ ?_ ?_
    · simp [nextOf_write, hn0, ha0, hna, Ne.symm hna]
    · simp [infoOf_write, hn0, ha0, hna, Ne.symm hna]
    · simp [nextOf_write, hn0, ha0, hna, Ne.symm hna]
    · simp [infoOf_write, hn0, ha0, hna, Ne.symm hna]
    · simp [flat]
    · simp [flat]
    · intro n p hh; simp [infoOf, read_zero] at hh
  | cons s rest =>
    have htail : mt = s.2 := hr.tail_eq
    subst htail
    have hheadeq : head = (flat (s :: rest)).headD 0 := hr.head_eq
    have hheadmem : head ∈ flat (s :: rest) := by
      rw [hheadeq]; exact headD_mem_of_ne_nil (by simp [flat]) 0
    have hhead0 : head ≠ 0 := by
      obtain ⟨c, hc⟩ := linked_live hr.linked head hheadmem
      exact ne_zero_of_read hc
    obtain ⟨_, _, ⟨t, ht, htk, htc, htp⟩, _⟩ := hr.info
    have hs0 : s.2 ≠ 0 := ne_zero_of_read ht
    obtain ⟨ha0, har⟩ := malloc_fresh hm mem
    generalize hadef : malloc mem = a at ha0 har
    have hanot : a ∉ flat (s :: rest) := not_mem_of_read_none hr.linked har
    generalize hh1 : mem.write a
      { count := data, next := head, is_marker := 0, prev_marker := 0 } = h1
    have hr1 : ∀ b, h1.read b = if b = a then
        some { count := data, next := head, is_marker := 0, prev_marker := 0 }
        else mem.read b := by
      intro b; rw [← hh1, read_write _ ha0]
    have hn1 : ∀ b, nextOf h1 b = if b = a then some head else nextOf mem b := by
      intro b; rw [← hh1, nextOf_write _ ha0]
    have hi1 : ∀ b, infoOf h1 b = if b = a then some (0, data, 0) else infoOf mem b := by
      intro b; rw [← hh1, infoOf_write _ ha0]
    obtain ⟨hn0, hnr⟩ := malloc_fresh hm h1
    generalize hndef : malloc h1 = new at hn0 hnr
    have hna : new ≠ a := by
      rintro rfl; rw [hr1] at hnr; simp at hnr
    have hnr0 : mem.read new = none := by
      have := hr1 new; rw [hnr] at this; simpa [hna] using this.symm
    have hnnot : new ∉ flat (s :: rest) := not_mem_of_read_none hr.linked hnr0
    have hsa : s.2 ≠ a := by
      intro hh; rw [hh] at ht; rw [har] at ht; cases ht
    have hsn : s.2 ≠ new := by
      intro hh; rw [hh] at ht; rw [hnr0] at ht; cases ht
    have hnx : nextOf mem s.2 = some t.next := by simp [nextOf, ht]
    have hix : infoOf mem s.2 = some (1, (s.1.length : Int), 0) := by
      simp [infoOf, ht, htk, htc, htp]
    by_cases hfull : (s.1.length : Int) ≥ cap
    · have hfull1 : cap ≤ t.count := by rw [htc]; exact hfull
      simp only [list_push, hadef, ha0, if_false, hh1, list_is_empty, hhead0, if_true,
        ne_eq, not_true_eq_false, not_false_eq_true, one_ne_zero, Option.bind_eq_bind,
        Option.some_bind, hndef, hn0, read_write _ hn0, read_write _ hs0, hr1, Ne.symm hna,
        Option.map_some', eq_self_iff_true, read_write _ ha0, hna, Option.some.injEq,
        Prod.mk.injEq, and_true, hs0, hsa, hsn, Ne.symm hsa, Ne.symm hsn, ht, ge_iff_le, hfull1,
        decide_True]
      refine ⟨_, new, rfl, ?_, hanot⟩
      have hai : ainsert cap a new (s :: rest) = ([a], new) :: s :: rest := by
        simp [ainsert, hfull]
      rw [hai]
      refine rep_insert_new (e := a) (v := data) hr hanot hnnot (Ne.symm hna)
        ?_ ?_ ?_ ?_ ?_ ?_ ?_
      · simp [nextOf_write, hn0, ha0, hna, Ne.symm hna]
      · simp [infoOf_write, hn0, ha0, hna, Ne.symm hna]
      · simp [nextOf_write, hn0, ha0, hna, Ne.symm hna]
      · simp [infoOf_write, hn0, ha0, hna, Ne.symm hna]
      · intro b hb
        have hba : b ≠ a := fun hh => hanot (hh ▸ hb)
        have hbn : b ≠ new := fun hh => hnnot (hh ▸ hb)
        by_cases hbs : b = s.2
        · subst hbs
          simp [nextOf_write, hn0, ha0, hs0, hba, hbn, hnx]
        · simp [nextOf_write, hn0, ha0, hs0, hba, hbn, hbs, hn1]
      · intro b hb hbs
        have hba : b ≠ a := fun hh => hanot (hh ▸ hb)
        have hbn : b ≠ new := fun hh => hnnot (hh ▸ hb)
        simp only [ne_eq] at hbs
        simp [infoOf_write, hn0, ha0, hs0, hba, hbn, hbs, hi1]
      · intro n p hh
        rw [hix] at hh
        simp only [Option.some.injEq, Prod.mk.injEq, true_and] at hh
        simp [infoOf_write, hn0, ha0, hs0, hsa, hsn, htk, htc, hh.1]
    · have hfull1 : ¬ cap ≤ t.count := by rw [htc]; exact hfull
      simp only [list_push, hadef, ha0, if_false, hh1, list_is_empty, hhead0, if_true,
        ne_eq, not_true_eq_false, not_false_eq_true, one_ne_zero, Option.bind_eq_bind,
        Option.some_bind, hndef, hn0, read_write _ hn0, read_write _ hs0, hr1, Ne.symm hna,
        Option.map_some', eq_self_iff_true, read_write _ ha0, hna, Option.some.injEq,
        Prod.mk.injEq, and_true, hs0, hsa, hsn, Ne.symm hsa, Ne.symm hsn, ht, ge_iff_le, hfull1,
        decide_False, Bool.false_eq_true]
      refine ⟨_, new, rfl, ?_, hanot⟩
      have hai : ainsert cap a new (s :: rest) = (a :: s.1, s.2) :: rest := by
        simp [ainsert, hfull]
      rw [hai]
      refine rep_insert_same (e := a) (v := data) hr hanot ?_ ?_ ?_ ?_ ?_
      · simp [nextOf_write, hs0, Ne.symm hsa, hn1]
      · simp [infoOf_write, hs0, Ne.symm hsa, hi1]
      · intro b hb
        have hba : b ≠ a := fun hh => hanot (hh ▸ hb)
        by_cases hbs : b = s.2
        · subst hbs
          simp [nextOf_write, hs0, hnx]
        · simp [nextOf_write, hs0, hba, hbs, hn1]
      · intro b hb hbs
        have hba : b ≠ a := fun hh => hanot (hh ▸ hb)
        simp only [ne_eq] at hbs
        simp [infoOf_write, hs0, hba, hbs, hi1]
      · simp [infoOf_write, hs0, htk, htc, htp]

theorem relink_spec {malloc : Heap → Nat} (hm : ValidMalloc malloc) (cap : Int)
    {l : list_t} {s : Span} {rest : List Span} {pay : Nat → Int}
    (hr : Rep l (s :: rest) pay) {e : Nat} (he : e ∉ flat (s :: rest))
    (hie : IsNode l.mem e (pay e)) :
    ∃ l1 new, mth_relink malloc cap l e = some l1 ∧
      Rep l1 (ainsert cap e new (s :: rest)) pay := by
  obtain ⟨mem, head, mt⟩ := l
  have htail : mt = s.2 := hr.tail_eq
  subst htail
  obtain ⟨_, _, ⟨t, ht, htk, htc, htp⟩, _⟩ := hr.info
  obtain ⟨ec, hec, heck, hecc, hecp⟩ := hie
  change mem.read s.2 = some t at ht
  change mem.read e = some ec at hec
  have hs0 : s.2 ≠ 0 := ne_zero_of_read ht
  have he0 : e ≠ 0 := ne_zero_of_read hec
  have hse : s.2 ≠ e := fun hh => he (hh ▸ by simp [flat])
  have hnx : nextOf mem s.2 = some t.next := by simp [nextOf, ht]
  have hix : infoOf mem s.2 = some (1, (s.1.length : Int), 0) := by
    simp [infoOf, ht, htk, htc, htp]
  have hpay : Function.update pay e (pay e) = pay := Function.update_eq_self e pay
  by_cases hfull : (s.1.length : Int) ≥ cap
  · have hfull1 : cap ≤ t.count := by rw [htc]; exact hfull
    obtain ⟨hn0, hnr⟩ := malloc_fresh hm mem
    generalize hndef : malloc mem = new at hn0 hnr
    have hnnot : new ∉ flat (s :: rest) := not_mem_of_read_none hr.linked hnr
    have hne : new ≠ e := by
      intro hh; rw [hh] at hnr; rw [hnr] at hec; cases hec
    have hsn : s.2 ≠ new := by
      intro hh; rw [hh] at ht; rw [hnr] at ht; cases ht
    simp only [mth_relink, ht, Option.bind_eq_bind, Option.some_bind, ge_iff_le, hfull1,
      if_true, hndef, hn0, if_false, read_write _ hn0, read_write _ he0, read_write _ hs0,
      hec, hne, Ne.symm hne, hse, Ne.symm hse, hsn, Ne.symm hsn, Option.map_some']
    refine ⟨_, new, rfl, ?_⟩
    have hai : ainsert cap e new (s :: rest) = ([e], new) :: s :: rest := by
      simp [ainsert, hfull]
    rw [hai, ← hpay]
    refine rep_insert_new (e := e) (v := pay e) hr he hnnot (Ne.symm hne)
      ?_ ?_ ?_ ?_ ?_ ?_ ?_
    · simp [nextOf_write, hn0, he0, hs0, hne, Ne.symm hne, hse, Ne.symm hse]
    · simp [infoOf_write, hn0, he0, hs0, hne, Ne.symm hne, hse, Ne.symm hse, heck, hecc, hecp]
    · simp [nextOf_write, hn0, he0, hs0, hne, Ne.symm hne, hse, Ne.symm hse]
    · simp [infoOf_write, hn0, he0, hs0, hne, Ne.symm hne, hse, Ne.symm hse]
    · intro b hb
      have hbe : b ≠ e := fun hh => he (hh ▸ hb)
      have hbn : b ≠ new := fun hh => hnnot (hh ▸ hb)
      by_cases hbs : b = s.2
      · subst hbs
        simp [nextOf_write, hn0, he0, hs0, hbe, hbn, hnx]
      · simp [nextOf_write, hn0, he0, hs0, hbe, hbn, hbs]
    · intro b hb hbs
      have hbe : b ≠ e := fun hh => he (hh ▸ hb)
      have hbn : b ≠ new := fun hh => hnnot (hh ▸ hb)
      simp only [ne_eq] at hbs
      simp [infoOf_write, hn0, he0, hs0, hbe, hbn, hbs]
    · intro n p hh
      rw [hix] at hh
      simp only [Option.some.injEq, Prod.mk.injEq, true_and] at hh
      simp [infoOf_write, hn0, he0, hs0, hse, hsn, htk, htc, hh.1]
  · have hfull1 : ¬ cap ≤ t.count := by rw [htc]; exact hfull
    simp only [mth_relink, ht, Option.bind_eq_bind, Option.some_bind, ge_iff_le, hfull1,
      if_false, read_write _ he0, read_write _ hs0,
      hec, hse, Ne.symm hse, Option.map_some']
    refine ⟨_, 0, rfl, ?_⟩
    have hai : ainsert cap e 0 (s :: rest) = (e :: s.1, s.2) :: rest := by
      simp [ainsert, hfull]
    rw [hai, ← hpay]
    refine rep_insert_same (e := e) (v := pay e) hr he ?_ ?_ ?_ ?_ ?_
    · simp [nextOf_write, he0, hs0, hse, Ne.symm hse]
    · simp [infoOf_write, he0, hs0, hse, Ne.symm hse, heck, hecc, hecp]
    · intro b hb
      have hbe : b ≠ e := fun hh => he (hh ▸ hb)
      by_cases hbs : b = s.2
      · subst hbs
        simp [nextOf_write, he0, hs0, hbe, hnx]
      · simp [nextOf_write, he0, hs0, hbe, hbs]
    · intro b hb hbs
      have hbe : b ≠ e := fun hh => he (hh ▸ hb)
      simp only [ne_eq] at hbs
      simp [infoOf_write, he0, hs0, hbe, hbs]
    · simp [infoOf_write, he0, hs0, htk, htc, htp]

theorem not_mem_of_nodup_middle {X Y : List Nat} {a : Nat} (h : (X ++ a :: Y).Nodup) :
    a ∉ X ∧ a ∉ Y := by
  rw [List.nodup_middle, List.nodup_cons, List.mem_append, not_or] at h
  exact h.1

theorem length_le_flat (spans : List Span) : spans.length ≤ (flat spans).length := by
  induction spans with
  | nil => simp
  | cons s rest ih => simp only [flat, List.length_cons, List.length_append]; omega

theorem mem_nodes_split {e : Nat} : ∀ (spans : List Span), e ∈ nodes spans →
    ∃ pre A B m post, spans = pre ++ (A ++ e :: B, m) :: post := by
  intro spans
  induction spans with
  | nil => intro h; simp [nodes] at h
  | cons s rest ih =>
    intro h
    simp only [nodes, List.mem_append] at h
    rcases h with h | h
    · obtain ⟨A, B, hAB⟩ := List.append_of_mem h
      refine ⟨[], A, B, s.2, rest, ?_⟩
      simp [← hAB]
    · obtain ⟨pre, A, B, m, post, hh⟩ := ih h
      exact ⟨s :: pre, A, B, m, post, by simp [hh]⟩

theorem flat_split (pre post : List Span) (A B : List Nat) (e m : Nat) :
    flat (pre ++ (A ++ e :: B, m) :: post) = (flat pre ++ A) ++ e :: (B ++ m :: flat post) := by
  simp [flat_append, flat]

theorem nodes_split (pre post : List Span) (A B : List Nat) (e m : Nat) :
    nodes (pre ++ (A ++ e :: B, m) :: post) = (nodes pre ++ A) ++ e :: (B ++ nodes post) := by
  simp [nodes_append, nodes]

theorem lastM_ne_zero {h : Heap} {pay : Nat → Int} {p : Nat} {pre : List Span} {s : Span}
    (hi : Info h pay p (pre ++ [s])) : lastM p (pre ++ [s]) = s.2 ∧ s.2 ≠ 0 := by
  rw [info_append] at hi
  obtain ⟨_, _, _, ⟨c, hc, _⟩, _⟩ := hi
  exact ⟨by simp [lastM_append, lastM], ne_zero_of_read hc⟩

theorem distance_spec {l : list_t} {pre post : List Span} {A B : List Nat} {e m : Nat}
    {pay : Nat → Int} (hr : Rep l (pre ++ (A ++ e :: B, m) :: post) pay) :
    mth_distance l e = some (m, (((nodes pre).length + A.length : Nat) : Int)) := by
  have hlen := length_le_of_live hr.nodup (linked_live hr.linked)
  have hlk := hr.linked
  rw [flat_split, linked_append] at hlk
  have hinfo := hr.info
  rw [info_append] at hinfo
  obtain ⟨hipre, _, hnodes, hmk, _⟩ := hinfo
  have hfl : (flat (pre ++ (A ++ e :: B, m) :: post)).length =
      (flat pre).length + A.length + (B.length + 1 + ((flat post).length + 1)) := by
    rw [flat_split]; simp only [List.length_append, List.length_cons]; omega
  have h1 := find_marker_spec (w := pay) hmk (e :: B) (flat post) 0 (l.mem.length + 1) 0
    hlk.2 (fun a ha => hnodes a (by
      simp only [List.mem_cons] at ha
      simp only [List.mem_append, List.mem_cons]; tauto))
    (by simp only [List.length_cons]; omega)
  obtain ⟨c, hc, _, hcnt, hprev⟩ := hmk
  have h2 := walk_markers_spec pre (l.mem.length + 1)
    (c.count - ((0 : Int) + ((e :: B).length : Nat))) hipre
    (by have := length_le_flat pre; omega)
  simp only [List.cons_append, List.headD_cons] at h1
  simp only [mth_distance, h1, Option.bind_eq_bind, Option.some_bind, hc, hprev, h2,
    Option.map_some', Option.some.injEq, Prod.mk.injEq, true_and]
  rw [hcnt]
  simp only [List.length_append, List.length_cons, Nat.cast_add, Nat.cast_one]
  ring

theorem parent_spec {l : list_t} {pre post : List Span} {A B : List Nat} {e m : Nat}
    {pay : Nat → Int} (hr : Rep l (pre ++ (A ++ e :: B, m) :: post) pay) (hne : l.head ≠ e) :
    ∃ X p, flat pre ++ A = X ++ [p] ∧
      find_parent l.mem e (l.mem.length + 1)
        (if lastM 0 pre = 0 then l.head else lastM 0 pre) = some p ∧
      (A = [] → ∃ pre1 nsp, pre = pre1 ++ [(nsp, p)]) := by
  have hlen := length_le_of_live hr.nodup (linked_live hr.linked)
  have hlk := hr.linked
  have hnd := hr.nodup
  have hhead := hr.head_eq
  rw [flat_split] at hlk hnd hhead hlen
  have hinfo := hr.info
  rw [info_append] at hinfo
  obtain ⟨hipre, -⟩ := hinfo
  rcases List.eq_nil_or_concat pre with hpre | ⟨pre1, sp, hpre⟩ <;>
    try rw [List.concat_eq_append] at hpre
  · subst hpre
    rcases List.eq_nil_or_concat A with hA | ⟨A1, p, hA⟩ <;>
      try rw [List.concat_eq_append] at hA
    · subst hA
      exact absurd (by simpa [flat] using hhead) hne
    · subst hA
      refine ⟨A1, p, by simp [flat], ?_, by simp⟩
      simp only [flat, List.nil_append, List.append_assoc, List.singleton_append] at hlk hnd hhead hlen
      have hd1 := not_mem_of_nodup_middle (X := A1 ++ [p]) (by simpa using hnd)
      simp only [List.mem_append, List.mem_singleton, not_or] at hd1
      have := find_parent_spec A1 (B ++ m :: flat post) 0 (l.mem.length + 1) hlk hd1.1.1
        hd1.1.2 (by simp only [List.length_append, List.length_cons] at hlen; omega)
      simp only [lastM, if_true, hhead]
      rw [headD_append_cons _ _ _ _ 0]
      exact this
  · subst hpre
    obtain ⟨hl1, hl2⟩ := lastM_ne_zero hipre
    rw [hl1]
    simp only [hl2, if_false]
    rcases List.eq_nil_or_concat A with hA | ⟨A1, p, hA⟩ <;>
      try rw [List.concat_eq_append] at hA
    · subst hA
      refine ⟨flat pre1 ++ sp.1, sp.2, by simp [flat_append, flat], ?_, fun _ => ⟨pre1, sp.1, rfl⟩⟩
      have e1 : flat (pre1 ++ [sp]) ++ [] ++ e :: (B ++ m :: flat post) =
          (flat pre1 ++ sp.1) ++ sp.2 :: e :: (B ++ m :: flat post) := by
        simp [flat_append, flat]
      rw [e1] at hlk hnd
      rw [linked_append] at hlk
      have hd1 := not_mem_of_nodup_middle (X := flat pre1 ++ sp.1 ++ [sp.2]) (by simpa using hnd)
      simp only [List.mem_append, List.mem_singleton, not_or] at hd1
      exact find_parent_spec [] (B ++ m :: flat post) 0 (l.mem.length + 1) hlk.2 (by simp)
        hd1.1.2 (by simp)
    · subst hA
      refine ⟨flat pre1 ++ sp.1 ++ sp.2 :: A1, p, by simp [flat_append, flat], ?_, by simp⟩
      have e1 : flat (pre1 ++ [sp]) ++ (A1 ++ [p]) ++ e :: (B ++ m :: flat post) =
          (flat pre1 ++ sp.1) ++ ((sp.2 :: A1) ++ p :: e :: (B ++ m :: flat post)) := by
        simp [flat_append, flat]
      rw [e1] at hlk hnd hlen
      rw [linked_append] at hlk
      have hd1 := not_mem_of_nodup_middle (X := flat pre1 ++ sp.1 ++ sp.2 :: A1 ++ [p])
        (by simpa using hnd)
      have := find_parent_spec (sp.2 :: A1) (B ++ m :: flat post) 0 (l.mem.length + 1) hlk.2
        (fun hh => hd1.1 (by
          simp only [List.mem_cons] at hh
          simp only [List.mem_append, List.mem_cons, List.mem_singleton]; tauto))
        (fun hh => hd1.1 (by simp [hh])) (by simp only [List.length_append, List.length_cons] at hlen ⊢; omega)
      simpa using this

theorem linked_splice {h h2 : Heap} {X Z R : List Nat} {p stop : Nat}
    (hl : Linked h (X ++ p :: (Z ++ R)) stop)
    (hX : ∀ a ∈ X, nextOf h2 a = nextOf h a) (hR : ∀ a ∈ R, nextOf h2 a = nextOf h a)
    (hp : nextOf h2 p = some (R.headD stop)) : Linked h2 (X ++ p :: R) stop := by
  rw [linked_append, linked_cons_iff, linked_append] at hl
  rw [linked_append, linked_cons_iff]
  exact ⟨linked_congr hX hl.1, hp, linked_congr hR hl.2.2.2⟩

theorem nodup_flat_remove {pre post : List Span} {A B : List Nat} {e m : Nat}
    (h : (flat (pre ++ (A ++ e :: B, m) :: post)).Nodup) :
    (flat (pre ++ (A ++ B, m) :: post)).Nodup ∧ e ∉ flat (pre ++ (A ++ B, m) :: post) := by
  rw [flat_split] at h
  have e1 : flat (pre ++ (A ++ B, m) :: post) = (flat pre ++ A) ++ (B ++ m :: flat post) := by
    simp [flat_append, flat]
  rw [e1]
  have h2 := List.nodup_middle.1 h
  rw [List.nodup_cons] at h2
  exact ⟨h2.2, h2.1⟩

theorem unlink_keep {l : list_t} {pre post : List Span} {A B : List Nat} {e m : Nat}
    {pay : Nat → Int} (hr : Rep l (pre ++ (A ++ e :: B, m) :: post) pay) (hne : l.head ≠ e)
    (hAB : A ++ B ≠ []) :
    ∃ l1, mth_unlink l e m = some l1 ∧ Rep l1 (pre ++ (A ++ B, m) :: post) pay ∧
      IsNode l1.mem e (pay e) := by
  obtain ⟨X, p, hXp, hfp, -⟩ := parent_spec hr hne
  obtain ⟨mem, head, mt⟩ := l
  have hflat : flat (pre ++ (A ++ e :: B, m) :: post) = X ++ p :: ([e] ++ (B ++ m :: flat post)) := by
    rw [flat_split, hXp]; simp
  have hflat1 : flat (pre ++ (A ++ B, m) :: post) = X ++ p :: (B ++ m :: flat post) := by
    have : flat (pre ++ (A ++ B, m) :: post) = (flat pre ++ A) ++ (B ++ m :: flat post) := by
      simp [flat_append, flat]
    rw [this, hXp]; simp
  have hlk := hr.linked
  have hnd := hr.nodup
  have hinfo := hr.info
  rw [info_append] at hinfo
  obtain ⟨hipre, -, hnodes, hmk, hipost⟩ := hinfo
  change Linked mem _ 0 at hlk
  change Info mem pay 0 pre at hipre
  change ∀ a ∈ A ++ e :: B, IsNode mem a (pay a) at hnodes
  change IsMarker mem m ((A ++ e :: B).length : Nat) (lastM 0 pre) at hmk
  change Info mem pay m post at hipost
  change find_parent mem e (mem.length + 1) (if lastM 0 pre = 0 then head else lastM 0 pre)
    = some p at hfp
  -- the cells involved
  obtain ⟨mc, hmc, hmck, hmcc, hmcp⟩ := hmk
  obtain ⟨ec, hec, heck, hecc, -⟩ := hnodes e (by simp)
  have hlk2 := hlk
  rw [hflat, linked_append, linked_cons_iff, List.singleton_append, linked_cons_iff] at hlk2
  obtain ⟨-, hpn, hen, -⟩ := hlk2
  obtain ⟨pc, hpc, hpcn⟩ : ∃ pc, mem.read p = some pc ∧ pc.next = e := by
    simpa [nextOf] using hpn
  have hecn : ec.next = (B ++ m :: flat post).headD 0 := by
    simpa [nextOf, hec] using hen
  have hp0 := ne_zero_of_read hpc
  have he0 := ne_zero_of_read hec
  have hm0 := ne_zero_of_read hmc
  -- disequalities
  rw [hflat] at hnd
  have hndp := not_mem_of_nodup_middle hnd
  have hpe : p ≠ e := fun hh => hndp.2 (by simp [hh])
  have hpm : p ≠ m := fun hh => hndp.2 (by simp [hh])
  have hem : e ≠ m := by
    have := not_mem_of_nodup_middle (X := X ++ [p]) (a := e) (Y := B ++ m :: flat post)
      (by simpa using hnd)
    exact fun hh => this.2 (by simp [hh])
  have hmX : m ∉ X := by
    have := not_mem_of_nodup_middle (X := X ++ p :: e :: B) (a := m) (Y := flat post)
      (by simpa using hnd)
    exact fun hh => this.1 (by simp [hh])
  have hmpost : m ∉ flat post := by
    have := not_mem_of_nodup_middle (X := X ++ p :: e :: B) (a := m) (Y := flat post)
      (by simpa using hnd)
    exact this.2
  have hmA : m ∉ flat pre ++ A := by
    rw [hXp]; simp only [List.mem_append, List.mem_singleton, not_or]
    exact ⟨hmX, Ne.symm hpm⟩
  have hmB : m ∉ B := by
    have := not_mem_of_nodup_middle (X := X ++ p :: e :: B) (a := m) (Y := flat post)
      (by simpa using hnd)
    exact fun hh => this.1 (by simp [hh])
  -- the count stays positive
  have hcnt : mc.count - 1 ≠ 0 := by
    rw [hmcc]
    have : 0 < (A ++ B).length := List.length_pos.2 hAB
    simp only [List.length_append, List.length_cons, Nat.cast_add, Nat.cast_one] at this ⊢
    omega
  have hN : ∀ a, a ≠ p → nextOf ((mem.write p { pc with next := ec.next }).write m
      { mc with count := mc.count - 1 }) a = nextOf mem a := by
    intro a hap
    by_cases ham : a = m
    · rw [ham]; simp only [nextOf_write _ hm0, if_true]; simp [nextOf, hmc]
    · simp [nextOf_write, hm0, hp0, ham, hap]
  have hI : ∀ a, a ≠ m → infoOf ((mem.write p { pc with next := ec.next }).write m
      { mc with count := mc.count - 1 }) a = infoOf mem a := by
    intro a ham
    by_cases hap : a = p
    · rw [hap]
      simp only [infoOf_write _ hm0, infoOf_write _ hp0, hpm, if_false, if_true]
      simp [infoOf, hpc]
    · simp [infoOf_write, hm0, hp0, ham, hap]
  rw [← hmcp] at hfp
  simp only [mth_unlink, hmc, hfp, Option.bind_eq_bind, Option.some_bind, hec, hpc,
    read_write _ hp0, read_write _ hm0, hpm, Ne.symm hpm, if_true, if_false, hcnt]
  refine ⟨_, rfl, ?_, ?_⟩
  · refine ⟨?_, ?_, (nodup_flat_remove hr.nodup).1, ?_, ?_⟩
    · show Linked _ (flat (pre ++ (A ++ B, m) :: post)) 0
      rw [hflat1]
      rw [hflat] at hlk
      refine linked_splice hlk (fun a ha => hN a ?_) (fun a ha => hN a ?_) ?_
      · rintro rfl; exact hndp.1 ha
      · rintro rfl; exact hndp.2 (by simp [ha])
      · simp [nextOf_write, hm0, hp0, hpm, hecn]
    · show Info _ pay 0 (pre ++ (A ++ B, m) :: post)
      rw [info_append]
      refine ⟨info_congr (fun a ha => hI a ?_) (fun _ _ => rfl) hipre, hAB, ?_, ?_,
        info_congr (fun a ha => hI a ?_) (fun _ _ => rfl) hipost⟩
      · rintro rfl; exact hmA (by simp [ha])
      · intro a ha
        have ham : a ≠ m := by
          rintro rfl
          rcases List.mem_append.1 ha with h1 | h1
          · exact hmA (by simp [h1])
          · exact hmB h1
        have := hnodes a (by
          simp only [List.mem_append, List.mem_cons] at ha ⊢; tauto)
        rw [isNode_iff] at this ⊢
        rw [hI a ham]; exact this
      · rw [isMarker_iff]
        show infoOf _ m = _
        simp only [infoOf_write _ hm0, if_true, hmck, hmcp, hmcc]
        simp only [List.length_append, List.length_cons, Nat.cast_add, Nat.cast_one]
        congr 3; ring
      · rintro rfl; exact hmpost ha
    · show head = (flat (pre ++ (A ++ B, m) :: post)).headD 0
      have := hr.head_eq
      rw [hflat] at this
      change head = _ at this
      rw [hflat1, this]
      exact (headD_append_cons X p _ 0 0).trans (headD_append_cons X p _ 0 0).symm
    · show mt = ((pre ++ (A ++ B, m) :: post).map Prod.snd).headD 0
      have := hr.tail_eq
      simpa [List.map_append] using this
  · have := hnodes e (by simp)
    rw [isNode_iff] at this ⊢
    show infoOf _ e = _
    rw [hI e hem]; exact this

theorem nextOf_free (h : Heap) (a b : Nat) :
    nextOf (h.free a) b = if b = a then none else nextOf h b := by
  simp only [nextOf, read_free]; split_ifs <;> rfl

theorem infoOf_free (h : Heap) (a b : Nat) :
    infoOf (h.free a) b = if b = a then none else infoOf h b := by
  simp only [infoOf, read_free]; split_ifs <;> rfl

theorem marks_sub_flat (spans : List Span) : ∀ a ∈ spans.map Prod.snd, a ∈ flat spans := by
  induction spans with
  | nil => simp
  | cons s rest ih =>
    intro a ha
    simp only [List.map_cons, List.mem_cons] at ha
    simp only [flat, List.mem_append, List.mem_cons]
    rcases ha with ha | ha
    · exact Or.inr (Or.inl ha)
    · exact Or.inr (Or.inr (ih a ha))

theorem nodup_flat_drop {pre post : List Span} {e m : Nat}
    (h : (flat (pre ++ ([e], m) :: post)).Nodup) :
    (flat (pre ++ post)).Nodup ∧ e ∉ flat (pre ++ post) ∧ m ∉ flat (pre ++ post) ∧ e ≠ m := by
  have e1 : flat (pre ++ ([e], m) :: post) = flat pre ++ e :: m :: flat post := by
    simp [flat_append, flat]
  rw [e1] at h
  rw [flat_append]
  have h2 := List.nodup_middle.1 h
  rw [List.nodup_cons] at h2
  have h3 : (flat pre ++ m :: flat post).Nodup := by
    refine h2.2.sublist ?_
    exact List.Sublist.refl _
  have h4 := List.nodup_middle.1 h3
  rw [List.nodup_cons] at h4
  refine ⟨h4.2, ?_, h4.1, ?_⟩
  · intro hh; apply h2.1
    simp only [List.mem_append, List.mem_cons] at hh ⊢; tauto
  · rintro rfl; apply h2.1; simp

theorem headD_map_append_of_ne_nil {pre : List Span} (hp : pre ≠ []) (L1 L2 : List Span) :
    ((pre ++ L1).map Prod.snd).headD 0 = ((pre ++ L2).map Prod.snd).headD 0 := by
  cases pre with
  | nil => exact absurd rfl hp
  | cons s rest => rfl

theorem headD_mem_marks (pre : List Span) (hp : pre ≠ []) (L1 : List Span) :
    ((pre ++ L1).map Prod.snd).headD 0 ∈ pre.map Prod.snd := by
  cases pre with
  | nil => exact absurd rfl hp
  | cons s rest => simp

/-- Establishing the invariant after the span `([e], m)` was taken out. -/
theorem rep_drop {mem : Heap} {head mt : Nat} {pre1 post : List Span} {nsp : List Nat}
    {p e m : Nat} {pay : Nat → Int}
    (hr : Rep ⟨mem, head, mt⟩ ((pre1 ++ [(nsp, p)]) ++ ([e], m) :: post) pay) {h2 : Heap}
    (hN : ∀ a, a ≠ m → a ≠ p → a ≠ e → nextOf h2 a = nextOf mem a)
    (hNp : nextOf h2 p = nextOf mem m)
    (hI : ∀ a, a ≠ m → a ≠ (post.map Prod.snd).headD 0 → infoOf h2 a = infoOf mem a)
    (hIq : ∀ q n, (post.map Prod.snd).head? = some q → infoOf mem q = some (1, n, m) →
      infoOf h2 q = some (1, n, p)) :
    Rep ⟨h2, head, mt⟩ ((pre1 ++ [(nsp, p)]) ++ post) pay ∧ IsNode h2 e (pay e) := by
  have hflat : flat ((pre1 ++ [(nsp, p)]) ++ ([e], m) :: post) =
      (flat pre1 ++ nsp) ++ p :: ([e, m] ++ flat post) := by
    simp [flat_append, flat]
  have hflat1 : flat ((pre1 ++ [(nsp, p)]) ++ post) = (flat pre1 ++ nsp) ++ p :: flat post := by
    simp [flat_append, flat]
  have hlk := hr.linked
  have hnd := hr.nodup
  have hinfo := hr.info
  obtain ⟨hnd1, hend, hmnd, hem⟩ := nodup_flat_drop hnd
  rw [info_append] at hinfo
  obtain ⟨hipre, -, hnodes, hmk, hipost⟩ := hinfo
  obtain ⟨hlp, hp0⟩ := lastM_ne_zero hipre
  change Linked mem _ 0 at hlk
  change Info mem pay 0 _ at hipre
  change ∀ a ∈ [e], IsNode mem a (pay a) at hnodes
  change IsMarker mem m _ (lastM 0 (pre1 ++ [(nsp, p)])) at hmk
  change Info mem pay m post at hipost
  rw [hflat] at hlk hnd
  have hndp := not_mem_of_nodup_middle hnd
  have hpm : p ≠ m := fun hh => hndp.2 (by simp [hh])
  have hlk2 := hlk
  rw [linked_append, linked_cons_iff] at hlk2
  have hlk3 := hlk2.2.2
  rw [show ([e, m] ++ flat post) = e :: m :: flat post from rfl, linked_cons_iff,
    linked_cons_iff] at hlk3
  have hmnext : nextOf mem m = some ((flat post).headD 0) := hlk3.2.1
  have hmflat : ∀ a ∈ flat ((pre1 ++ [(nsp, p)]) ++ post), a ≠ m := by
    rintro a ha rfl; exact hmnd ha
  have heflat : ∀ a ∈ flat ((pre1 ++ [(nsp, p)]) ++ post), a ≠ e := by
    rintro a ha rfl; exact hend ha
  refine ⟨⟨?_, ?_, hnd1, ?_, ?_⟩, ?_⟩
  · show Linked h2 (flat ((pre1 ++ [(nsp, p)]) ++ post)) 0
    rw [hflat1]
    refine linked_splice hlk (fun a ha => hN a ?_ ?_ ?_) (fun a ha => hN a ?_ ?_ ?_) ?_
    · exact hmflat a (by rw [hflat1]; simp only [List.mem_append, List.mem_cons] at ha ⊢; tauto)
    · rintro rfl; exact hndp.1 ha
    · exact heflat a (by rw [hflat1]; simp only [List.mem_append, List.mem_cons] at ha ⊢; tauto)
    · exact hmflat a (by rw [hflat1]; simp only [List.mem_append, List.mem_cons] at ha ⊢; tauto)
    · rintro rfl; exact hndp.2 (by simp [ha])
    · exact heflat a (by rw [hflat1]; simp only [List.mem_append, List.mem_cons] at ha ⊢; tauto)
    · rw [hNp, hmnext]
  · show Info h2 pay 0 ((pre1 ++ [(nsp, p)]) ++ post)
    rw [info_append, hlp]
    constructor
    · refine info_congr (fun a ha => hI a ?_ ?_) (fun _ _ => rfl) hipre
      · exact hmflat a (by rw [flat_append]; simp [ha])
      · cases post with
        | nil =>
          obtain ⟨c, hc⟩ := linked_live hr.linked a (by rw [flat_append]; simp [ha])
          exact ne_zero_of_read hc
        | cons sq post1 =>
          rintro rfl
          have : (flat (pre1 ++ [(nsp, p)]) ++ flat (sq :: post1)).Nodup := by
            rw [← flat_append]; exact hnd1
          exact (List.nodup_append.1 this).2.2 ha (by simp [flat])
    · cases post with
      | nil => trivial
      | cons sq post1 =>
        obtain ⟨i1, i2, i3, i4⟩ := hipost
        have hnd2 : (flat (sq :: post1)).Nodup := by
          rw [flat_append] at hnd1
          exact (List.nodup_append.1 hnd1).2.1
        simp only [flat, List.nodup_append, List.nodup_cons] at hnd2
        obtain ⟨nd1, ⟨nd2, nd3⟩, nd4⟩ := hnd2
        refine ⟨i1, ?_, ?_, ?_⟩
        · intro a ha
          have := i2 a ha
          rw [isNode_iff] at this ⊢
          rw [hI a]
          · exact this
          · exact hmflat a (by rw [flat_append]; simp [flat, ha])
          · rintro rfl; exact nd4 ha (List.mem_cons_self _ _)
        · rw [isMarker_iff] at i3 ⊢
          exact hIq sq.2 _ rfl i3
        · refine info_congr (fun a ha => hI a ?_ ?_) (fun _ _ => rfl) i4
          · exact hmflat a (by rw [flat_append]; simp [flat, ha])
          · rintro rfl; exact nd2 ha
  · show head = (flat ((pre1 ++ [(nsp, p)]) ++ post)).headD 0
    have := hr.head_eq
    rw [hflat] at this
    change head = _ at this
    rw [hflat1, this]
    exact (headD_append_cons _ p _ 0 0).trans (headD_append_cons _ p _ 0 0).symm
  · show mt = (((pre1 ++ [(nsp, p)]) ++ post).map Prod.snd).headD 0
    have := hr.tail_eq
    change mt = _ at this
    rw [this]
    exact headD_map_append_of_ne_nil (by simp) _ _
  · have := hnodes e (by simp)
    rw [isNode_iff] at this ⊢
    rw [hI e hem]
    · exact this
    · cases post with
      | nil =>
        obtain ⟨c, hc, _⟩ := hnodes e (by simp)
        exact ne_zero_of_read hc
      | cons sq post1 =>
        rintro rfl
        apply hend
        rw [flat_append]; simp [flat]

theorem unlink_drop {l : list_t} {pre post : List Span} {e m : Nat}
    {pay : Nat → Int} (hr : Rep l (pre ++ ([e], m) :: post) pay) (hne : l.head ≠ e) :
    ∃ l1, mth_unlink l e m = some l1 ∧ Rep l1 (pre ++ post) pay ∧
      IsNode l1.mem e (pay e) ∧ pre ≠ [] ∧ l1.mem.read m = none := by
  obtain ⟨X, p, hXp, hfp, hA⟩ := parent_spec (A := []) (B := []) hr hne
  obtain ⟨pre1, nsp, hpre⟩ := hA rfl
  subst hpre
  obtain ⟨mem, head, mt⟩ := l
  have hflat : flat ((pre1 ++ [(nsp, p)]) ++ ([e], m) :: post) =
      (flat pre1 ++ nsp) ++ p :: e :: m :: flat post := by
    simp [flat_append, flat]
  have hlk := hr.linked
  have hnd := hr.nodup
  have hinfo := hr.info
  have hlen := length_le_of_live hr.nodup (linked_live hr.linked)
  obtain ⟨hnd1, hend, hmnd, hem⟩ := nodup_flat_drop hnd
  rw [info_append] at hinfo
  obtain ⟨hipre, -, hnodes, hmk, hipost⟩ := hinfo
  obtain ⟨hlp, hp0⟩ := lastM_ne_zero hipre
  change p ≠ 0 at hp0
  change Linked mem _ 0 at hlk
  change Info mem pay 0 _ at hipre
  change ∀ a ∈ [e], IsNode mem a (pay a) at hnodes
  change IsMarker mem m _ (lastM 0 (pre1 ++ [(nsp, p)])) at hmk
  change Info mem pay m post at hipost
  change find_parent mem e (mem.length + 1) _ = some p at hfp
  change _ ≤ mem.length at hlen
  rw [hflat] at hlk hnd hlen
  rw [info_append] at hipre
  obtain ⟨-, -, -, ⟨pc, hpc, hpck, -, -⟩, -⟩ := hipre
  change mem.read p = some pc at hpc
  obtain ⟨mc, hmc, hmck, hmcc, hmcp⟩ := hmk
  obtain ⟨ec, hec, heck, hecc, -⟩ := hnodes e (by simp)
  have hlk2 := hlk
  rw [linked_append, linked_cons_iff, linked_cons_iff, linked_cons_iff] at hlk2
  obtain ⟨-, hpn, hen, hmn, hlpost⟩ := hlk2
  have hecn : ec.next = m := by simpa [nextOf, hec] using hen
  have hmcn : mc.next = (flat post).headD 0 := by simpa [nextOf, hmc] using hmn
  have he0 := ne_zero_of_read hec
  have hm0 := ne_zero_of_read hmc
  have hndp := not_mem_of_nodup_middle hnd
  have hpe : p ≠ e := fun hh => hndp.2 (by simp [hh])
  have hpm : p ≠ m := fun hh => hndp.2 (by simp [hh])
  have hcnt : mc.count - 1 = 0 := by rw [hmcc]; simp
  have hmt : mt ≠ m := by
    have h1 := hr.tail_eq
    change mt = _ at h1
    have h2 := headD_mem_marks (pre1 ++ [(nsp, p)]) (by simp) (([e], m) :: post)
    rw [← h1] at h2
    have h3 := marks_sub_flat _ _ h2
    rintro rfl
    exact hmnd (by rw [flat_append]; simp [h3])
  rw [← hmcp] at hfp
  have step : ∀ (g : Heap) (post : List Span),
      (Rep ⟨g.free m, head, mt⟩ ((pre1 ++ [(nsp, p)]) ++ post) pay ∧
        IsNode (g.free m) e (pay e)) →
      Rep ⟨g.free m, head, mt⟩ ((pre1 ++ [(nsp, p)]) ++ post) pay ∧
        IsNode (⟨g.free m, head, mt⟩ : list_t).mem e (pay e) ∧ pre1 ++ [(nsp, p)] ≠ [] ∧
        (⟨g.free m, head, mt⟩ : list_t).mem.read m = none :=
    fun g _ H => ⟨H.1, H.2, by simp, by simp [read_free]⟩
  cases post with
  | nil =>
    have hmcn0 : mc.next = 0 := by simpa [flat] using hmcn
    simp only [mth_unlink, hmc, hfp, Option.bind_eq_bind, Option.some_bind, hec, hpc,
      read_write _ hp0, read_write _ hm0, hpm, Ne.symm hpm, hpe, Ne.symm hpe, hem, Ne.symm hem,
      if_true, if_false, hcnt, hecn, ne_eq, not_true_eq_false, hpck, one_ne_zero, or_self,
      hmcn0, skip_to_marker]
    refine ⟨_, rfl, step _ _ (rep_drop hr ?_ ?_ ?_ ?_)⟩
    · intro a ham hap hae
      simp [nextOf_free, nextOf_write, hp0, hm0, ham, hap]
    · simp only [nextOf_free, hpm, if_false, nextOf_write _ hp0, if_true]
      simp [nextOf, hmc, hmcn0]
    · intro a ham _
      by_cases hap : a = p
      · rw [hap]
        simp only [infoOf_free, hpm, if_false, infoOf_write _ hp0, if_true]
        simp [infoOf, hpc, hpck]
      · simp [infoOf_free, infoOf_write, hp0, hm0, ham, hap]
    · intro q n hq; simp at hq
  | cons sq post1 =>
    have hmcn1 : mc.next = (sq.1 ++ [sq.2]).headD 0 := by
      rw [hmcn]; exact headD_append_cons _ _ _ _ _
    obtain ⟨iq1, iq2, iq3, iq4⟩ := hipost
    obtain ⟨qc, hqc, hqck, hqcc, hqcp⟩ := iq3
    have hq0 := ne_zero_of_read hqc
    have hqflat : sq.2 ∈ flat (pre1 ++ [(nsp, p)] ++ sq :: post1) := by
      rw [flat_append]; simp [flat]
    have hqm : sq.2 ≠ m := by rintro hh; exact hmnd (hh ▸ hqflat)
    have hqe : sq.2 ≠ e := by rintro hh; exact hend (hh ▸ hqflat)
    have hqp : sq.2 ≠ p := by
      intro hh; apply hndp.2; rw [← hh]; simp [flat]
    simp only [mth_unlink, hmc, hfp, Option.bind_eq_bind, Option.some_bind, hec, hpc,
      read_write _ hp0, read_write _ hm0, hpm, Ne.symm hpm, hpe, Ne.symm hpe, hem, Ne.symm hem,
      if_true, if_false, hcnt, hecn, ne_eq, not_true_eq_false, hpck, one_ne_zero, or_self,
      hmcn1]
    rw [skip_to_marker_spec (w := pay) (m := sq.2) (n := sq.1.length) (p := m) ?hm sq.1
      (flat post1) 0 _ ?hl ?hn ?hf]
    case hf =>
      simp only [flat, List.length_append, List.length_cons] at hlen
      omega
    case hm =>
      rw [isMarker_iff]
      simp only [infoOf_write _ hp0, infoOf_write _ hm0, hqp, hqm, if_false]
      simp [infoOf, hqc, hqck, hqcc, hqcp]
    case hn =>
      intro a ha
      have haflat : a ∈ flat (pre1 ++ [(nsp, p)] ++ sq :: post1) := by
        rw [flat_append]; simp [flat, ha]
      have ham : a ≠ m := by rintro hh; exact hmnd (hh ▸ haflat)
      have hap : a ≠ p := by
        intro hh; apply hndp.2; rw [← hh]; simp [flat, ha]
      have := iq2 a ha
      rw [isNode_iff] at this ⊢
      simp only [infoOf_write _ hp0, infoOf_write _ hm0, hap, ham, if_false]
      exact this
    case hl =>
      refine linked_congr ?_ hlpost
      intro a ha
      have ha1 : a ∈ flat (sq :: post1) := ha
      have hap : a ≠ p := by
        intro hh; apply hndp.2; rw [← hh]; simp [ha1]
      by_cases ham : a = m
      · exfalso
        apply hmnd; rw [flat_append, ← ham]; simp [ha1]
      · simp only [nextOf_write _ hp0, nextOf_write _ hm0, hap, ham, if_false]
    simp only [Option.some_bind, hq0, if_false, hmt, read_write _ hp0, read_write _ hm0, hqp,
      hqm, hqc, Option.map_some']
    refine ⟨_, rfl, step _ _ (rep_drop hr ?_ ?_ ?_ ?_)⟩
    · intro a ham hap hae
      by_cases haq : a = sq.2
      · rw [haq]
        simp only [nextOf_free, hqm, if_false, nextOf_write _ hq0, if_true]
        simp [nextOf, hqc]
      · simp [nextOf_free, nextOf_write, hp0, hm0, hq0, ham, hap, haq]
    · simp only [nextOf_free, hpm, if_false, nextOf_write _ hq0, Ne.symm hqp, nextOf_write _ hp0,
        if_true]
      simp [nextOf, hmc, hmcn1]
    · intro a ham haq
      have haq' : a ≠ sq.2 := haq
      by_cases hap : a = p
      · rw [hap]
        simp only [infoOf_free, hpm, if_false, infoOf_write _ hq0, Ne.symm hqp,
          infoOf_write _ hp0, if_true]
        simp [infoOf, hpc, hpck]
      · simp [infoOf_free, infoOf_write, hp0, hm0, hq0, ham, hap, haq']
    · intro q n hq hqi
      have hqeq : sq.2 = q := by simpa using hq
      subst hqeq
      simp only [infoOf_free, hqm, if_false, infoOf_write _ hq0, if_true]
      simp only [infoOf, hqc, Option.map_some', Option.some.injEq, Prod.mk.injEq] at hqi
      simp [hqi.1, hqi.2.1]

theorem nodes_sublist (spans : List Span) : (nodes spans).Sublist (flat spans) := by
  induction spans with
  | nil => exact List.Sublist.refl _
  | cons s rest ih =>
    simp only [nodes, flat]
    exact List.Sublist.append (List.Sublist.refl _) (List.Sublist.cons _ ih)

theorem nodes_ainsert (cap : Int) (e new : Nat) (spans : List Span) :
    nodes (ainsert cap e new spans) = e :: nodes spans := by
  cases spans with
  | nil => simp [ainsert, nodes]
  | cons s rest =>
    simp only [ainsert]
    split_ifs <;> simp [nodes]

theorem nodes_aremove (e : Nat) (spans : List Span) :
    nodes (aremove e spans) = (nodes spans).erase e := by
  induction spans with
  | nil => simp [aremove, nodes]
  | cons s rest ih =>
    simp only [aremove]
    by_cases he : e ∈ s.1
    · simp only [he, if_true]
      split_ifs with h1
      · simp [nodes, List.erase_append_left _ he, h1]
      · simp [nodes, List.erase_append_left _ he]
    · simp [he, nodes, ih, List.erase_append_right _ he]

theorem aremove_split {pre post : List Span} {A B : List Nat} {e m : Nat}
    (h1 : e ∉ nodes pre) (h2 : e ∉ A) :
    aremove e (pre ++ (A ++ e :: B, m) :: post) =
      if A ++ B = [] then pre ++ post else pre ++ (A ++ B, m) :: post := by
  induction pre with
  | nil =>
    have : (A ++ e :: B).erase e = A ++ B := by
      rw [List.erase_append_right _ h2]; simp
    simp only [List.nil_append, aremove, List.mem_append, List.mem_cons, true_or, or_true,
      if_true, this]
  | cons s rest ih =>
    simp only [nodes, List.mem_append, not_or] at h1
    have e1 : aremove e (s :: (rest ++ (A ++ e :: B, m) :: post)) =
        s :: aremove e (rest ++ (A ++ e :: B, m) :: post) := by
      simp [aremove, h1.1]
    rw [List.cons_append, e1, ih h1.2]
    split_ifs <;> rfl

theorem rep_head_nodes {l : list_t} {spans : List Span} {pay : Nat → Int}
    (hr : Rep l spans pay) : l.head = (nodes spans).headD 0 := by
  rw [hr.head_eq]
  cases spans with
  | nil => rfl
  | cons s rest =>
    obtain ⟨h1, -⟩ := hr.info
    simp only [flat, nodes]
    cases hs : s.1 with
    | nil => exact absurd hs h1
    | cons a as => rfl

theorem move_spec {malloc : Heap → Nat} (hm : ValidMalloc malloc) (cap : Int)
    {l : list_t} {spans : List Span} {pay : Nat → Int} (hr : Rep l spans pay) {e : Nat}
    (he : e ∈ nodes spans) :
    ∃ l1 new, list_move_to_head malloc cap l e =
        some (l1, (((nodes spans).indexOf e : Nat) : Int)) ∧
      Rep l1 (amove cap e new spans) pay := by
  have hndn : (nodes spans).Nodup := hr.nodup.sublist (nodes_sublist spans)
  by_cases hhe : l.head = e
  · refine ⟨l, 0, ?_, ?_⟩
    · have h0 : (nodes spans).indexOf e = 0 := by
        have := rep_head_nodes hr
        rw [hhe] at this
        cases hn : nodes spans with
        | nil => rw [hn] at he; simp at he
        | cons a as =>
          rw [hn] at this
          simp only [List.headD_cons] at this
          rw [this]; exact List.indexOf_cons_self _ _
      simp [list_move_to_head, hhe, h0]
    · have : (flat spans).headD 0 = e := by rw [← hr.head_eq]; exact hhe
      simp only [amove, this, if_true]
      exact hr
  · obtain ⟨pre, A, B, m, post, hsp⟩ := mem_nodes_split spans he
    subst hsp
    rw [nodes_split] at hndn
    have hnm := not_mem_of_nodup_middle hndn
    have h1 : e ∉ nodes pre := fun hh => hnm.1 (by simp [hh])
    have h2 : e ∉ A := fun hh => hnm.1 (by simp [hh])
    have hidx : (nodes (pre ++ (A ++ e :: B, m) :: post)).indexOf e
        = (nodes pre).length + A.length := by
      rw [nodes_split, List.indexOf_append_of_not_mem hnm.1, List.indexOf_cons_self]
      simp
    have hdist := distance_spec hr
    have hhead : ¬ (flat (pre ++ (A ++ e :: B, m) :: post)).headD 0 = e := by
      rw [← hr.head_eq]; exact hhe
    simp only [list_move_to_head, hhe, if_false, hdist, Option.bind_eq_bind, Option.some_bind,
      hidx, amove, hhead, aremove_split h1 h2]
    by_cases hAB : A ++ B = []
    · have hA : A = [] := (List.append_eq_nil.1 hAB).1
      have hB : B = [] := (List.append_eq_nil.1 hAB).2
      subst hA; subst hB
      obtain ⟨l1, hu, hr1, hn1, hpre, -⟩ := unlink_drop hr hhe
      have hend := (nodup_flat_drop hr.nodup).2.1
      simp only [hu, Option.some_bind, List.append_nil, if_true]
      cases hsp : pre ++ post with
      | nil => simp at hsp; exact absurd hsp.1 hpre
      | cons s rest =>
        rw [hsp] at hr1 hend
        obtain ⟨l2, new, hrl, hr2⟩ := relink_spec hm cap hr1 hend hn1
        exact ⟨l2, new, by simp [hrl], hr2⟩
    · obtain ⟨l1, hu, hr1, hn1⟩ := unlink_keep hr hhe hAB
      have hend := (nodup_flat_remove hr.nodup).2
      simp only [hu, Option.some_bind, hAB, if_false]
      cases hsp : pre ++ (A ++ B, m) :: post with
      | nil => simp at hsp
      | cons s rest =>
        rw [hsp] at hr1 hend
        obtain ⟨l2, new, hrl, hr2⟩ := relink_spec hm cap hr1 hend hn1
        exact ⟨l2, new, by simp [hrl], hr2⟩

theorem nodes_amove {l : list_t} {spans : List Span} {pay : Nat → Int}
    (hr : Rep l spans pay) (cap : Int) {e : Nat} (new : Nat) (he : e ∈ nodes spans) :
    nodes (amove cap e new spans) = e :: (nodes spans).erase e := by
  unfold amove
  split_ifs with h
  · have := rep_head_nodes hr
    rw [hr.head_eq, h] at this
    cases hn : nodes spans with
    | nil => rw [hn] at he; simp at he
    | cons a as =>
      rw [hn] at this
      simp only [List.headD_cons] at this
      rw [this]; simp
  · rw [nodes_ainsert, nodes_aremove]

theorem reachable_rep {malloc : Heap → Nat} (hm : ValidMalloc malloc) {cap : Int} {l : list_t}
    (h : Reachable malloc cap l) : ∃ spans pay, Rep l spans pay := by
  induction h with
  | create => exact ⟨[], _, rep_create⟩
  | push _ hp ih =>
    obtain ⟨spans, pay, hr⟩ := ih
    obtain ⟨l1, new, h1, h2, -⟩ := push_spec hm cap hr _
    rw [hp] at h1
    simp only [Option.some.injEq, Prod.mk.injEq] at h1
    rw [h1.1]
    exact ⟨_, _, h2⟩
  | move _ he hmv ih =>
    obtain ⟨spans, pay, hr⟩ := ih
    rw [rep_data_elems hr] at he
    obtain ⟨l1, new, h1, h2⟩ := move_spec hm cap hr he
    rw [hmv] at h1
    simp only [Option.some.injEq, Prod.mk.injEq] at h1
    rw [h1.1]
    exact ⟨_, _, h2⟩

theorem rep_payload {l : list_t} {spans : List Span} {pay : Nat → Int}
    (hr : Rep l spans pay) {a : Nat} (ha : a ∈ nodes spans) : payload l a = pay a := by
  have key : ∀ (spans : List Span) (p : Nat), Info l.mem pay p spans → a ∈ nodes spans →
      IsNode l.mem a (pay a) := by
    intro spans
    induction spans with
    | nil => intro _ _ h; simp [nodes] at h
    | cons s rest ih =>
      intro p hi h
      obtain ⟨-, i2, -, i4⟩ := hi
      simp only [nodes, List.mem_append] at h
      rcases h with h | h
      · exact i2 a h
      · exact ih s.2 i4 h
  obtain ⟨c, hc, -, hcc, -⟩ := key spans 0 hr.info ha
  simp [payload, count_at, hc, hcc]

theorem mem_mru {α : Type} [DecidableEq α] (hist : List α) (x : α) : x ∈ mru hist ↔ x ∈ hist := by
  induction hist with
  | nil => simp [mru]
  | cons y hist ih =>
    simp only [mru, List.mem_cons, List.mem_filter, ih, decide_eq_true_eq]
    by_cases h : x = y <;> simp [h]

theorem nodup_mru {α : Type} [DecidableEq α] (hist : List α) : (mru hist).Nodup := by
  induction hist with
  | nil => simp [mru]
  | cons y hist ih =>
    simp only [mru, List.nodup_cons, List.mem_filter, decide_eq_true_eq]
    exact ⟨fun h => h.2 rfl, ih.filter _⟩

theorem takeWhile_filter_comm {α : Type} (p q : α → Bool) (hpq : ∀ a, p a = false → q a = true) :
    ∀ L : List α, (L.filter q).takeWhile p = (L.takeWhile p).filter q := by
  intro L
  induction L with
  | nil => rfl
  | cons a L ih =>
    by_cases hp : p a = true
    · by_cases hq : q a = true
      · simp [List.filter, List.takeWhile, hp, hq, ih]
      · simp only [Bool.not_eq_true] at hq
        simp [List.filter, List.takeWhile, hp, hq, ih]
    · simp only [Bool.not_eq_true] at hp
      simp [List.filter, List.takeWhile, hp, hpq a hp]

theorem takeWhile_mru {α : Type} [DecidableEq α] (hist : List α) (x : α) :
    (mru hist).takeWhile (fun y => decide (y ≠ x)) =
      mru (hist.takeWhile (fun y => decide (y ≠ x))) := by
  induction hist with
  | nil => rfl
  | cons y hist ih =>
    by_cases h : y = x
    · simp [mru, List.takeWhile, h]
    · have hc := takeWhile_filter_comm (fun z => decide (z ≠ x)) (fun z => decide (z ≠ y))
        (by
          intro a ha
          simp only [ne_eq, decide_eq_false_iff_not, not_not] at ha
          simp only [ne_eq, decide_eq_true_eq]
          rw [ha]; exact fun hh => h hh.symm) (mru hist)
      simp only [mru, List.takeWhile, ne_eq, h, not_false_eq_true, decide_True]
      rw [hc, ih]

theorem length_mru {α : Type} [DecidableEq α] (hist : List α) : (mru hist).length = hist.dedup.length := by
  rw [← List.toFinset_card_of_nodup (nodup_mru hist), ← List.card_toFinset]
  congr 1
  ext a
  simp [mem_mru]

theorem indexOf_eq_takeWhile {α : Type} [DecidableEq α] (L : List α) (e : α) :
    L.indexOf e = (L.takeWhile (fun a => decide (a ≠ e))).length := by
  induction L with
  | nil => simp
  | cons a L ih =>
    by_cases h : a = e
    · subst h; simp [List.takeWhile]
    · rw [List.indexOf_cons_ne _ h, ih]
      simp [List.takeWhile, h]

/-- The position of `x` in the most-recently-used order is the number of
distinct handles touched since the most recent touch of `x`. -/
theorem indexOf_mru {α : Type} [DecidableEq α] (hist : List α) (x : α) :
    (mru hist).indexOf x = touched_since hist x := by
  rw [indexOf_eq_takeWhile, takeWhile_mru, length_mru, touched_since]

theorem mru_cons_of_not_mem {α : Type} [DecidableEq α] {hist : List α} {x : α} (h : x ∉ hist) :
    mru (x :: hist) = x :: mru hist := by
  simp only [mru]
  congr 1
  apply List.filter_eq_self.2
  intro a ha
  simp only [ne_eq, decide_eq_true_eq]
  rintro rfl
  exact h ((mem_mru hist a).1 ha)

theorem reachable_push_all {malloc : Heap → Nat} {cap : Int} :
    ∀ (ds : List Int) (l l1 : list_t), Reachable malloc cap l →
      push_all malloc cap l ds = some l1 → Reachable malloc cap l1 := by
  intro ds
  induction ds with
  | nil =>
    intro l l1 hl h
    simp only [push_all, Option.some.injEq] at h
    exact h ▸ hl
  | cons d ds ih =>
    intro l l1 hl h
    simp only [push_all, Option.bind_eq_bind, Option.bind_eq_some] at h
    obtain ⟨r, hr, h2⟩ := h
    exact ih r.1 l1 (Reachable.push hl (a := r.2) hr) h2

theorem reachable_ex_abc : Reachable bump MARKER_MAX_SZ ex_abc :=
  reachable_push_all [65, 66, 67] list_create ex_abc Reachable.create (by decide)

theorem reachable_ex_abcde : Reachable bump 2 ex_abcde :=
  reachable_push_all [65, 66, 67, 68, 69] list_create ex_abcde Reachable.create (by decide)

theorem rep_head_of_cons {l : list_t} {spans : List Span} {pay : Nat → Int}
    (hr : Rep l spans pay) {e : Nat} {rest : List Nat} (hn : nodes spans = e :: rest) :
    l.head = e := by
  rw [rep_head_nodes hr, hn]; rfl

theorem marker_sum_info {h : Heap} {pay : Nat → Int} :
    ∀ (spans : List Span) (p : Nat), Info h pay p spans →
      ((spans.map Prod.snd).map (count_at h)).sum = ((nodes spans).length : Int) := by
  intro spans
  induction spans with
  | nil => intro _ _; simp [nodes]
  | cons s rest ih =>
    intro p hi
    obtain ⟨-, -, ⟨c, hc, -, hcc, -⟩, i4⟩ := hi
    have := ih s.2 i4
    simp only [List.map_cons, List.sum_cons, this, nodes, List.length_append, Nat.cast_add,
      count_at, hc, hcc]

/-- C1: in every state reachable from `list_create` by `list_push` and
`list_move_to_head`, for every data element `elem` of the list,
`list_move_to_head` returns the number of data elements that lie strictly
nearer the head than `elem` (markers not counted); every data element occurs
once in the sequence, so that number is the position of `elem`. -/
theorem list_move_to_head_returns_rank {malloc : Heap → Nat} (hm : ValidMalloc malloc)
    (cap : Int) {l : list_t} (hl : Reachable malloc cap l) (elem : Nat)
    (he : elem ∈ data_elems l) :
    (data_elems l).Nodup ∧
      ∃ l1, list_move_to_head malloc cap l elem = some (l1, (nearer_head l elem : Int)) := by
  obtain ⟨spans, pay, hr⟩ := reachable_rep hm hl
  have hd := rep_data_elems hr
  rw [hd] at he
  obtain ⟨l1, new, h1, -⟩ := move_spec hm cap hr he
  refine ⟨?_, l1, ?_⟩
  · rw [hd]; exact hr.nodup.sublist (nodes_sublist spans)
  · rw [h1, nearer_head, hd, indexOf_eq_takeWhile]

theorem list_move_to_head_returns_rank_witness :
    (data_elems ex_abc).Nodup ∧
      ∃ l1, list_move_to_head bump MARKER_MAX_SZ ex_abc 1 = some (l1, ((2 : Nat) : Int)) :=
  list_move_to_head_returns_rank bump_valid MARKER_MAX_SZ reachable_ex_abc 1 (by decide)

/-- C2: in every reachable state, after `list_move_to_head` on a data element
`elem` the data elements, front to back, are `elem` followed by all the others
in their previous order; none is lost or duplicated and every payload is
unchanged. -/
theorem list_move_to_head_order {malloc : Heap → Nat} (hm : ValidMalloc malloc)
    (cap : Int) {l : list_t} (hl : Reachable malloc cap l) (elem : Nat)
    (he : elem ∈ data_elems l) :
    ∃ l1 d, list_move_to_head malloc cap l elem = some (l1, d) ∧
      data_elems l1 = elem :: (data_elems l).filter (fun a => decide (a ≠ elem)) ∧
      (data_elems l1).Nodup ∧
      ∀ a ∈ data_elems l, payload l1 a = payload l a := by
  obtain ⟨spans, pay, hr⟩ := reachable_rep hm hl
  have hd := rep_data_elems hr
  rw [hd] at he
  obtain ⟨l1, new, h1, hr1⟩ := move_spec hm cap hr he
  have hd1 := rep_data_elems hr1
  have hnd : (nodes spans).Nodup := hr.nodup.sublist (nodes_sublist spans)
  have hnm := nodes_amove hr cap new he
  refine ⟨l1, _, h1, ?_, ?_, ?_⟩
  · rw [hd1, hd, hnm, hnd.erase_eq_filter]
    congr 1
    apply List.filter_congr
    intro a _
    by_cases hae : a = elem <;> simp [hae]
  · rw [hd1]; exact hr1.nodup.sublist (nodes_sublist _)
  · intro a ha
    rw [hd] at ha
    have ha1 : a ∈ nodes (amove cap elem new spans) := by
      rw [hnm]
      by_cases hae : a = elem
      · simp [hae]
      · exact List.mem_cons_of_mem _ ((List.mem_erase_of_ne hae).2 ha)
    rw [rep_payload hr1 ha1, rep_payload hr ha]

theorem list_move_to_head_order_witness :
    (∃ l1 d, list_move_to_head bump MARKER_MAX_SZ ex_abc 1 = some (l1, d) ∧
      data_elems l1 = 1 :: [4, 3] ∧ (data_elems l1).Nodup ∧
      ∀ a ∈ [4, 3, 1], payload l1 a = payload ex_abc a) ∧
    (list_move_to_head bump MARKER_MAX_SZ ex_abc 1).map (fun r => r.2) = some 2 ∧
    (data_elems ex_abc).map (payload ex_abc) = [67, 66, 65] :=
  ⟨list_move_to_head_order bump_valid MARKER_MAX_SZ reachable_ex_abc 1 (by decide),
    by decide, by decide⟩

theorem move_head_eq (malloc : Heap → Nat) (cap : Int) (list : list_t) :
    list_move_to_head malloc cap list list.head = some (list, 0) := by
  simp [list_move_to_head]

/-- C5: `list_move_to_head` on the current head returns 0 and returns the list
state unchanged (head, marker_tail and every cell of the memory). -/
theorem list_move_to_head_head (malloc : Heap → Nat) (cap : Int) (list : list_t) :
    list_move_to_head malloc cap list list.head = some (list, 0) := by
  simp [list_move_to_head]

/-- C6: in every reachable state, for every data element `x` and every marker
cap, two calls of `list_move_to_head` on `x` in succession both return, and the
second returns 0. -/
theorem list_move_to_head_twice {malloc : Heap → Nat} (hm : ValidMalloc malloc)
    (cap : Int) {l : list_t} (hl : Reachable malloc cap l) {x : Nat}
    (hx : x ∈ data_elems l) :
    ∃ l1 d l2, list_move_to_head malloc cap l x = some (l1, d) ∧
      list_move_to_head malloc cap l1 x = some (l2, 0) := by
  obtain ⟨spans, pay, hr⟩ := reachable_rep hm hl
  rw [rep_data_elems hr] at hx
  obtain ⟨l1, new, h1, hr1⟩ := move_spec hm cap hr hx
  have hh : l1.head = x := rep_head_of_cons hr1 (nodes_amove hr cap new hx)
  refine ⟨l1, _, l1, h1, ?_⟩
  rw [← hh]; exact move_head_eq malloc cap l1

theorem list_move_to_head_twice_witness :
    ∃ l1 d l2, list_move_to_head bump 2 ex_abcde 1 = some (l1, d) ∧
      list_move_to_head bump 2 l1 1 = some (l2, 0) :=
  list_move_to_head_twice bump_valid 2 reachable_ex_abcde (x := 1) (by decide)

/-- C7: in every reachable state (the empty list and a list with a full active
marker included) and for every payload `p`, `list_push` returns an element `x`
and an immediately following `list_move_to_head` on `x` returns 0. -/
theorem list_push_then_move {malloc : Heap → Nat} (hm : ValidMalloc malloc)
    (cap : Int) {l : list_t} (hl : Reachable malloc cap l) (p : Int) :
    ∃ l1 x l2, list_push malloc cap l p = some (l1, x) ∧
      list_move_to_head malloc cap l1 x = some (l2, 0) := by
  obtain ⟨spans, pay, hr⟩ := reachable_rep hm hl
  obtain ⟨l1, new, h1, hr1, -⟩ := push_spec hm cap hr p
  have hh : l1.head = malloc l.mem := rep_head_of_cons hr1 (nodes_ainsert cap _ new spans)
  refine ⟨l1, _, l1, h1, ?_⟩
  rw [← hh]; exact move_head_eq malloc cap l1

theorem list_push_then_move_witness :
    ∃ l1 x l2, list_push bump 2 ex_abcde 70 = some (l1, x) ∧
      list_move_to_head bump 2 l1 x = some (l2, 0) :=
  list_push_then_move bump_valid 2 reachable_ex_abcde 70

/-- C8: in every reachable state the sum of the `count` fields of the markers
in the sequence equals the number of data elements in the sequence. -/
theorem marker_counts_sum_to_size {malloc : Heap → Nat} (hm : ValidMalloc malloc)
    (cap : Int) {l : list_t} (hl : Reachable malloc cap l) :
    marker_count_sum l = ((data_elems l).length : Int) := by
  obtain ⟨spans, pay, hr⟩ := reachable_rep hm hl
  rw [marker_count_sum, rep_marker_elems hr, rep_data_elems hr]
  exact marker_sum_info spans 0 hr.info

theorem marker_counts_sum_to_size_witness :
    marker_count_sum ex_abcde = (((data_elems ex_abcde).length : Nat) : Int) :=
  marker_counts_sum_to_size bump_valid 2 reachable_ex_abcde

theorem trace_inv {malloc : Heap → Nat} (hm : ValidMalloc malloc) {cap : Int} {l : list_t}
    {hist : List Nat} (ht : Trace malloc cap l hist) :
    Reachable malloc cap l ∧ data_elems l = mru hist := by
  induction ht with
  | create => exact ⟨Reachable.create, by decide⟩
  | @push l0 l2 hist0 data a _ hp ih =>
    obtain ⟨hre, hd⟩ := ih
    obtain ⟨spans, pay, hr⟩ := reachable_rep hm hre
    obtain ⟨l1, new, h1, hr1, hfresh⟩ := push_spec hm cap hr _
    rw [hp] at h1
    simp only [Option.some.injEq, Prod.mk.injEq] at h1
    obtain ⟨e1, e2⟩ := h1
    refine ⟨Reachable.push hre hp, ?_⟩
    rw [e1, rep_data_elems hr1, nodes_ainsert, e2]
    rw [rep_data_elems hr] at hd
    have hnot : malloc l0.mem ∉ nodes spans := fun hh => hfresh (nodes_sublist_flat spans _ hh)
    rw [hd] at hnot ⊢
    rw [mru_cons_of_not_mem (fun hh => hnot ((mem_mru _ _).2 hh))]
  | @move l0 l2 hist0 x d _ hx hmv ih =>
    obtain ⟨hre, hd⟩ := ih
    obtain ⟨spans, pay, hr⟩ := reachable_rep hm hre
    have hx1 : x ∈ data_elems l0 := by rw [hd]; exact (mem_mru _ _).2 hx
    have hx2 := hx1
    rw [rep_data_elems hr] at hx2
    obtain ⟨l1, new, h1, hr1⟩ := move_spec hm cap hr hx2
    rw [hmv] at h1
    simp only [Option.some.injEq, Prod.mk.injEq] at h1
    refine ⟨Reachable.move hre hx1 hmv, ?_⟩
    rw [h1.1, rep_data_elems hr1, nodes_amove hr cap new hx2]
    rw [rep_data_elems hr] at hd
    have hnd : (nodes spans).Nodup := hr.nodup.sublist (nodes_sublist spans)
    rw [hnd.erase_eq_filter, hd]
    simp only [mru]
    congr 1
    apply List.filter_congr
    intro a _
    by_cases hae : a = x <;> simp [hae]

/-- The list after pushing A, B, C and moving A to the head. -/
theorem trace_ex : Trace bump MARKER_MAX_SZ
    ((list_move_to_head bump MARKER_MAX_SZ ex_abc 1).getD (list_create, 0)).1 [1, 4, 3, 1] := by
  have t1 : Trace bump MARKER_MAX_SZ
      ((list_push bump MARKER_MAX_SZ list_create 65).getD (list_create, 0)).1 [1] :=
    @Trace.push bump MARKER_MAX_SZ list_create _ [] 65 1 Trace.create (by decide)
  have t2 : Trace bump MARKER_MAX_SZ
      ((push_all bump MARKER_MAX_SZ list_create [65, 66]).getD list_create) [3, 1] :=
    @Trace.push bump MARKER_MAX_SZ _ _ [1] 66 3 t1 (by decide)
  have t3 : Trace bump MARKER_MAX_SZ ex_abc [4, 3, 1] := @Trace.push bump MARKER_MAX_SZ _ _ [3, 1] 67 4 t2 (by decide)
  exact Trace.move (d := 2) t3 (by decide) (by decide)

/-- C3: in every state reached from `list_create` by a finite sequence of
`list_push` and `list_move_to_head` calls, `list_move_to_head` on a handle `x`
returns the number of distinct handles touched (pushed or moved to the head)
after the most recent touch of `x`. -/
theorem list_move_to_head_counts_touched {malloc : Heap → Nat} (hm : ValidMalloc malloc)
    (cap : Int) {l : list_t} {hist : List Nat} (ht : Trace malloc cap l hist) (x : Nat)
    (hx : x ∈ hist) :
    ∃ l1, list_move_to_head malloc cap l x = some (l1, (touched_since hist x : Int)) := by
  obtain ⟨hre, hd⟩ := trace_inv hm ht
  obtain ⟨spans, pay, hr⟩ := reachable_rep hm hre
  rw [rep_data_elems hr] at hd
  have hx2 : x ∈ nodes spans := by rw [hd]; exact (mem_mru _ _).2 hx
  obtain ⟨l1, new, h1, -⟩ := move_spec hm cap hr hx2
  refine ⟨l1, ?_⟩
  rw [h1, hd, indexOf_mru]

theorem list_move_to_head_counts_touched_witness :
    ∃ l1, list_move_to_head bump MARKER_MAX_SZ
      ((list_move_to_head bump MARKER_MAX_SZ ex_abc 1).getD (list_create, 0)).1 3 =
        some (l1, ((2 : Nat) : Int)) :=
  list_move_to_head_counts_touched bump_valid MARKER_MAX_SZ trace_ex 3 (by decide)

theorem length_incr_at (hist : List Nat) (k : Nat) : (incr_at hist k).length = hist.length := by
  induction hist generalizing k with
  | nil => rfl
  | cons c cs ih =>
    cases k with
    | zero => rfl
    | succ k => simp [incr_at, ih]

theorem getD_incr_at (hist : List Nat) (k : Nat) (hk : k < hist.length) (i : Nat) :
    (incr_at hist k).getD i 0 = hist.getD i 0 + (if i = k then 1 else 0) := by
  induction hist generalizing k i with
  | nil => simp at hk
  | cons c cs ih =>
    cases k with
    | zero =>
      cases i with
      | zero => simp [incr_at]
      | succ i => simp [incr_at]
    | succ k =>
      cases i with
      | zero => simp [incr_at]
      | succ i =>
        have := ih k (by simpa using hk) i
        simpa [incr_at] using this

theorem hist_incr_nat (hist : List Nat) (k : Nat) (hk : k < hist.length) :
    hist_incr hist (k : Int) = some (incr_at hist k) := by
  have h1 : (0 : Int) ≤ (k : Int) ∧ (k : Int) < (hist.length : Int) :=
    ⟨Int.ofNat_nonneg k, by exact_mod_cast hk⟩
  simp only [hist_incr, h1, and_self, if_true, Int.toNat_ofNat]

theorem record_hit_eq (n d : Nat) (hist : List Nat) (hlen : hist.length = n + 2) :
    record_hit (n : Int) hist (d : Int) = some (incr_at hist (if n ≤ d then n else d)) := by
  unfold record_hit B_OVFL
  by_cases h1 : n < d
  · have h2 : (d : Int) > (n : Int) := by exact_mod_cast h1
    have h3 : n ≤ d := Nat.le_of_lt h1
    simp only [h2, if_true, h3]
    exact hist_incr_nat hist n (by omega)
  · have h2 : ¬ (d : Int) > (n : Int) := by
      intro hh; exact h1 (by exact_mod_cast hh)
    simp only [h2, if_false]
    by_cases h3 : n ≤ d
    · have : d = n := by omega
      subst this
      simp only [le_refl, if_true]
      exact hist_incr_nat hist d (by omega)
    · simp only [h3, if_false]
      exact hist_incr_nat hist d (by omega)

/-- C9: for every rank `d` and bucket count `nbuckets ≥ 0`, with a histogram of
`nbuckets + 2` counters, the hit branch of the driver increments the OVERFLOW
counter (index `nbuckets`) when `d ≥ nbuckets` and bucket `d` otherwise, and
changes no other counter; in particular COLD (index `nbuckets + 1`) is
unchanged and `d = nbuckets` is counted as OVERFLOW. -/
theorem record_hit_spec (nbuckets d : Nat) (hist : List Nat)
    (hlen : hist.length = nbuckets + 2) :
    ∃ h1, record_hit (nbuckets : Int) hist (d : Int) = some h1 ∧
      h1.length = hist.length ∧
      (∀ i, h1.getD i 0 =
        hist.getD i 0 + (if i = (if nbuckets ≤ d then nbuckets else d) then 1 else 0)) ∧
      h1.getD (nbuckets + 1) 0 = hist.getD (nbuckets + 1) 0 := by
  refine ⟨_, record_hit_eq nbuckets d hist hlen, length_incr_at _ _, ?_, ?_⟩
  · intro i
    apply getD_incr_at
    split_ifs <;> omega
  · rw [getD_incr_at hist _ (by split_ifs <;> omega)]
    have : ¬ (nbuckets + 1 = if nbuckets ≤ d then nbuckets else d) := by
      split_ifs <;> omega
    simp [this]

theorem record_hit_spec_witness :
    ∃ h1, record_hit ((3 : Nat) : Int) [0, 0, 0, 0, 0] ((3 : Nat) : Int) = some h1 ∧
      h1.length = [0, 0, 0, 0, 0].length ∧
      (∀ i, h1.getD i 0 =
        [0, 0, 0, 0, 0].getD i 0 + (if i = (if 3 ≤ 3 then 3 else 3) then 1 else 0)) ∧
      h1.getD (3 + 1) 0 = [0, 0, 0, 0, 0].getD (3 + 1) 0 :=
  record_hit_spec 3 3 [0, 0, 0, 0, 0] (by decide)

theorem scan_blank_spec (line : List Char) :
    (scan_blank line).takeWhile (fun c => decide (c ≠ '\x00')) =
      (c_string line).dropWhile is_blank := by
  induction line with
  | nil => rfl
  | cons c cs ih =>
    by_cases h0 : c = '\x00'
    · subst h0; simp [scan_blank, c_string, List.takeWhile]
    · by_cases hb : c = ' ' ∨ c = '\t' ∨ c = '\n'
      · have e1 : scan_blank (c :: cs) = scan_blank cs := by simp [scan_blank, h0, hb]
        have e2 : c_string (c :: cs) = c :: c_string cs := by
          simp [c_string, List.takeWhile, h0]
        have e3 : is_blank c = true := by simp [is_blank, hb]
        rw [e1, e2, List.dropWhile_cons, e3, if_pos rfl, ih]
      · have e1 : scan_blank (c :: cs) = c :: cs := by simp [scan_blank, h0, hb]
        have e2 : c_string (c :: cs) = c :: c_string cs := by
          simp [c_string, List.takeWhile, h0]
        have e3 : is_blank c = false := by simp [is_blank, hb]
        rw [e1, e2, List.dropWhile_cons, e3]
        simp [c_string, List.takeWhile, h0]

theorem shift_left_spec (buf : List Char) :
    shift_left buf =
      (buf.takeWhile (fun c => decide (c ≠ '\x00'))).takeWhile (fun c => decide (c ≠ '\n')) := by
  induction buf with
  | nil => rfl
  | cons c cs ih =>
    by_cases h0 : c = '\x00'
    · subst h0; simp [shift_left, List.takeWhile]
    · by_cases hn : c = '\n'
      · subst hn; simp [shift_left, List.takeWhile]
      · simp [shift_left, List.takeWhile, h0, hn, ih]

theorem process_string_fst (line : List Char) :
    (process_string line).1 = 0 ↔ discarded line := by
  have hs := scan_blank_spec line
  unfold process_string discarded
  rw [← hs]
  cases hsc : scan_blank line with
  | nil => simp
  | cons c cs =>
    by_cases h0 : c = '\x00'
    · simp [h0, List.takeWhile]
    · by_cases hh : c = '#'
      · simp [hh, List.takeWhile]
      · have hnb : ¬ (c = ' ' ∨ c = '\t' ∨ c = '\n') := by
          intro hb
          have : ∀ l : List Char, scan_blank l = c :: cs → ¬ (c = ' ' ∨ c = '\t' ∨ c = '\n') ∨
              c = '\x00' := by
            intro l
            induction l with
            | nil => intro h; simp [scan_blank] at h
            | cons a as ih =>
              intro h
              by_cases ha0 : a = '\x00'
              · simp only [scan_blank, ha0, if_true, List.cons.injEq] at h
                exact Or.inr h.1.symm
              · by_cases hab : a = ' ' ∨ a = '\t' ∨ a = '\n'
                · simp only [scan_blank, ha0, if_false, hab, not_true_eq_false] at h
                  exact ih h
                · simp only [scan_blank, ha0, if_false, hab, not_false_eq_true, if_true,
                    List.cons.injEq] at h
                  rw [← h.1]; exact Or.inl hab
          rcases this line hsc with h1 | h1
          · exact h1 hb
          · exact h0 h1
        have hn : c ≠ '\n' := fun h => hnb (Or.inr (Or.inr h))
        simp [h0, hh, List.takeWhile, shift_left, hn]
        omega

theorem process_string_snd (line : List Char) (h : ¬ discarded line) :
    (process_string line).2 = reference_of line := by
  have h1 : ¬ (process_string line).1 = 0 := fun hh => h ((process_string_fst line).1 hh)
  have hs := scan_blank_spec line
  unfold reference_of
  rw [← hs, ← shift_left_spec]
  unfold process_string at h1 ⊢
  cases hsc : scan_blank line with
  | nil => rw [hsc] at h1; simp at h1
  | cons c cs =>
    rw [hsc] at h1
    by_cases hc : c = '\x00' ∨ c = '#'
    · simp [hc] at h1
    · simp [hc]

theorem main_loop_eq_run_refs (malloc : Heap → Nat) (cap : Int) (strdup : List Char → Int)
    (nbuckets : Int) : ∀ (lines : List (List Char)) (st : driver_t),
    main_loop malloc cap strdup nbuckets st lines =
      run_refs malloc cap strdup nbuckets st (lines.filterMap normalized) := by
  intro lines
  induction lines with
  | nil => intro st; rfl
  | cons line rest ih =>
    intro st
    by_cases hd : discarded line
    · have h0 : (process_string line).1 = 0 := (process_string_fst line).2 hd
      simp only [main_loop, h0, if_true, List.filterMap_cons, normalized, hd, ih]
    · have h0 : ¬ (process_string line).1 = 0 := fun hh => hd ((process_string_fst line).1 hh)
      simp only [main_loop, h0, if_false, List.filterMap_cons, normalized, hd, run_refs,
        process_string_snd line hd, ih]

/-- C10: `process_string` returns 0 exactly when, after skipping leading
spaces, tabs and newlines, the line is empty or starts with `#`; such a line is
discarded by the loop of `main` and every other line is processed as the
reference it holds.  On the lines "  ", "# note", "x" exactly one reference,
"x", is processed. -/
theorem process_string_discards (line : List Char) :
    ((process_string line).1 = 0 ↔ discarded line) ∧
    (¬ discarded line → (process_string line).2 = reference_of line) ∧
    (∀ (malloc : Heap → Nat) (cap : Int) (strdup : List Char → Int) (nbuckets : Int)
      (st : driver_t) (lines : List (List Char)),
      main_loop malloc cap strdup nbuckets st lines =
        run_refs malloc cap strdup nbuckets st (lines.filterMap normalized)) ∧
    ex_lines.filterMap normalized = [['x']] :=
  ⟨process_string_fst line, process_string_snd line,
    fun malloc cap strdup nbuckets st lines =>
      main_loop_eq_run_refs malloc cap strdup nbuckets lines st,
    by decide⟩

theorem process_string_discards_witness :
    ¬ discarded "x\n".toList ∧
      (process_string "x\n".toList).2 = reference_of "x\n".toList ∧
      reference_of "x\n".toList = ['x'] :=
  ⟨by decide, (process_string_discards "x\n".toList).2.1 (by decide), by decide⟩

theorem lookup_filter_ne (tbl : GHashTable) (k key : List Char) (h : key ≠ k) :
    g_hash_table_lookup (tbl.filter (fun p => decide (p.1 ≠ k))) key =
      g_hash_table_lookup tbl key := by
  induction tbl with
  | nil => rfl
  | cons p tbl ih =>
    obtain ⟨k1, v1⟩ := p
    by_cases h1 : k1 = k
    · subst h1
      have : g_hash_table_lookup ((k1, v1) :: tbl) key = g_hash_table_lookup tbl key := by
        simp [g_hash_table_lookup, h]
      rw [this, ← ih]
      simp [List.filter]
    · have e1 : List.filter (fun p => decide (p.1 ≠ k)) ((k1, v1) :: tbl) =
          (k1, v1) :: List.filter (fun p => decide (p.1 ≠ k)) tbl := by
        simp [List.filter, h1]
      rw [e1]
      by_cases h2 : key = k1
      · simp [g_hash_table_lookup, h2]
      · simp only [g_hash_table_lookup, h2, if_false]
        exact ih

theorem lookup_insert_self (tbl : GHashTable) (k : List Char) (v : Nat) :
    g_hash_table_lookup (g_hash_table_insert tbl k v) k = v := by
  simp [g_hash_table_insert, g_hash_table_lookup]

theorem lookup_insert_ne (tbl : GHashTable) (k key : List Char) (v : Nat) (h : key ≠ k) :
    g_hash_table_lookup (g_hash_table_insert tbl k v) key = g_hash_table_lookup tbl key := by
  simp only [g_hash_table_insert, g_hash_table_lookup, h, if_false]
  exact lookup_filter_ne tbl k key h

theorem indexOf_map_inj {α : Type} [DecidableEq α] (f : α → Nat) :
    ∀ (L : List α) (r : α), (L.map f).Nodup → r ∈ L →
      (L.map f).indexOf (f r) = L.indexOf r := by
  intro L
  induction L with
  | nil => intro r _ h; simp at h
  | cons a L ih =>
    intro r hnd hr
    by_cases har : a = r
    · subst har; simp
    · have hr1 : r ∈ L := by
        rcases List.mem_cons.1 hr with h | h
        · exact absurd h.symm har
        · exact h
      simp only [List.map_cons, List.nodup_cons] at hnd
      have hne : f a ≠ f r := by
        intro hh; apply hnd.1; rw [hh]; exact List.mem_map_of_mem f hr1
      rw [List.map_cons, List.indexOf_cons_ne _ hne, List.indexOf_cons_ne _ har, ih r hnd.2 hr1]

theorem erase_map_inj {α : Type} [DecidableEq α] (f : α → Nat) (L : List α) (r : α)
    (hnd : (L.map f).Nodup) (hr : r ∈ L) :
    (L.map f).erase (f r) = (L.filter (fun y => decide (y ≠ r))).map f := by
  rw [hnd.erase_eq_filter, List.filter_map]
  congr 1
  apply List.filter_congr
  intro a ha
  have hinj := List.inj_on_of_nodup_map hnd
  by_cases har : a = r
  · simp [har]
  · have : f a ≠ f r := fun hh => har (hinj ha hr hh)
    simp [har, this]

theorem driverInv_init (n : Nat) : DriverInv n (main_init n) [] := by
  refine ⟨[], _, rep_create, rfl, fun _ _ => rfl, ?_⟩
  simp only [main_init, List.length_replicate]
  omega

theorem main_init_histogram (n : Nat) :
    (main_init n).histogram = List.replicate (n + 2) 0 := by
  simp only [main_init]
  congr 1

theorem process_ref_step {malloc : Heap → Nat} (hm : ValidMalloc malloc) (cap : Int)
    (strdup : List Char → Int) (n : Nat) {st : driver_t} {seen : List (List Char)}
    (hinv : DriverInv n st seen) (r : List Char) :
    ∃ st1, process_ref malloc cap strdup n st r = some st1 ∧ DriverInv n st1 (r :: seen) ∧
      st1.histogram = naive_step n st.histogram seen r := by
  obtain ⟨spans, pay, hr, hnodes, hmiss, hlen⟩ := hinv
  by_cases hseen : r ∈ seen
  · -- hit
    have hrm : r ∈ mru seen := (mem_mru seen r).2 hseen
    have hx : g_hash_table_lookup st.data_elem r ∈ nodes spans := by
      rw [hnodes]; exact List.mem_map_of_mem _ hrm
    have hx0 : g_hash_table_lookup st.data_elem r ≠ 0 := by
      obtain ⟨c, hc⟩ := linked_live hr.linked _ (nodes_sublist_flat spans _ hx)
      exact ne_zero_of_read hc
    have hndn : (nodes spans).Nodup := hr.nodup.sublist (nodes_sublist spans)
    have hndm : ((mru seen).map (g_hash_table_lookup st.data_elem)).Nodup := hnodes ▸ hndn
    obtain ⟨l1, new, hmv, hr1⟩ := move_spec hm cap hr hx
    have hidx : (nodes spans).indexOf (g_hash_table_lookup st.data_elem r) =
        touched_since seen r := by
      rw [hnodes, indexOf_map_inj _ _ _ hndm hrm, indexOf_mru]
    rw [hidx] at hmv
    have hrec := record_hit_eq n (touched_since seen r) st.histogram hlen
    have hpr : process_ref malloc cap strdup n st r = some
        { data_elem := st.data_elem, access_list := l1,
          histogram := incr_at st.histogram
            (if n ≤ touched_since seen r then n else touched_since seen r) } := by
      simp only [process_ref, hx0, if_false, hmv, Option.bind_eq_bind, Option.some_bind, hrec,
        Option.map_some']
    refine ⟨_, hpr, ?_, ?_⟩
    · refine ⟨_, pay, hr1, ?_, ?_, ?_⟩
      · rw [nodes_amove hr cap new hx, hnodes, erase_map_inj _ _ _ hndm hrm]
        rfl
      · intro s hs
        exact hmiss s (fun hh => hs (List.mem_cons_of_mem _ hh))
      · simp only [length_incr_at, hlen]
    · simp only [naive_step, stack_distance, hseen, if_true]
      split_ifs <;> first | rfl | omega
  · -- cold start
    have h0 : g_hash_table_lookup st.data_elem r = 0 := hmiss r hseen
    obtain ⟨l1, new, hp, hr1, hfresh⟩ := push_spec hm cap hr (strdup r)
    have hinc : hist_incr st.histogram (B_INF (n : Int)) = some (incr_at st.histogram (n + 1)) := by
      have : B_INF (n : Int) = ((n + 1 : Nat) : Int) := by simp [B_INF]
      rw [this]; exact hist_incr_nat _ _ (by omega)
    have hpr : process_ref malloc cap strdup n st r = some
        { data_elem := g_hash_table_insert st.data_elem r (malloc st.access_list.mem),
          access_list := l1, histogram := incr_at st.histogram (n + 1) } := by
      simp only [process_ref, h0, if_true, hp, Option.bind_eq_bind, Option.some_bind, hinc,
        Option.map_some']
    refine ⟨_, hpr, ?_, ?_⟩
    · refine ⟨_, _, hr1, ?_, ?_, ?_⟩
      · rw [nodes_ainsert, mru_cons_of_not_mem hseen, List.map_cons, lookup_insert_self, hnodes]
        congr 1
        apply List.map_congr_left
        intro s hs
        have : s ≠ r := by
          rintro rfl; exact hseen ((mem_mru seen s).1 hs)
        exact (lookup_insert_ne _ _ _ _ this).symm
      · intro s hs
        simp only [List.mem_cons, not_or] at hs
        show g_hash_table_lookup (g_hash_table_insert st.data_elem r _) s = 0
        rw [lookup_insert_ne _ _ _ _ hs.1]
        exact hmiss s hs.2
      · simp only [length_incr_at, hlen]
    · simp only [naive_step, stack_distance, hseen, if_false]

theorem run_refs_spec {malloc : Heap → Nat} (hm : ValidMalloc malloc) (cap : Int)
    (strdup : List Char → Int) (n : Nat) :
    ∀ (refs : List (List Char)) (st : driver_t) (seen : List (List Char)),
      DriverInv n st seen →
      ∃ st1, run_refs malloc cap strdup n st refs = some st1 ∧
        st1.histogram = naive_hist n st.histogram seen refs := by
  intro refs
  induction refs with
  | nil => intro st seen _; exact ⟨st, rfl, rfl⟩
  | cons r rest ih =>
    intro st seen hinv
    obtain ⟨st1, h1, hinv1, hh1⟩ := process_ref_step hm cap strdup n hinv r
    obtain ⟨st2, h2, hh2⟩ := ih st1 (r :: seen) hinv1
    refine ⟨st2, ?_, ?_⟩
    · simp only [run_refs, h1, Option.bind_eq_bind, Option.some_bind, h2]
    · rw [hh2, hh1]; rfl

/-- C4: for every stream of normalized references, the loop of `main` (symbol
table an exact-match finite map, counters unbounded) ends, and its histogram is
the histogram of the naive stack-distance definition: COLD counts the first
occurrences, and a repeat occurrence at stack distance `d` counts in bucket `d`
when `d < nbuckets` and in OVERFLOW otherwise. -/
theorem driver_refines_naive {malloc : Heap → Nat} (hm : ValidMalloc malloc) (cap : Int)
    (strdup : List Char → Int) (nbuckets : Nat) (refs : List (List Char)) :
    ∃ st, run_refs malloc cap strdup nbuckets (main_init nbuckets) refs = some st ∧
      st.histogram = naive_histogram nbuckets refs := by
  obtain ⟨st, h1, h2⟩ :=
    run_refs_spec hm cap strdup nbuckets refs (main_init nbuckets) [] (driverInv_init nbuckets)
  exact ⟨st, h1, by rw [h2, main_init_histogram]; rfl⟩

theorem driver_refines_naive_witness :
    (∃ st, run_refs bump MARKER_MAX_SZ (fun _ => 0) ((3 : Nat) : Int) (main_init ((3 : Nat) : Int))
        ex_stream = some st ∧ st.histogram = naive_histogram 3 ex_stream) ∧
      naive_histogram 3 ex_stream = [1, 1, 0, 0, 2] :=
  ⟨driver_refines_naive bump_valid MARKER_MAX_SZ (fun _ => 0) 3 ex_stream, by decide⟩

theorem group_spans_span {h : Heap} {w : Nat → Int} {m : Nat} {n : Int} {p : Nat}
    (hm : IsMarker h m n p) :
    ∀ (ns acc R : List Nat), (∀ a ∈ ns, IsNode h a (w a)) →
      group_spans h acc (ns ++ m :: R) = (acc.reverse ++ ns, m) :: group_spans h [] R := by
  intro ns
  induction ns with
  | nil =>
    intro acc R _
    simp [group_spans, is_mark_of_isMarker hm]
  | cons a ns ih =>
    intro acc R hn
    have ha := is_mark_of_isNode (hn a (List.mem_cons_self _ _))
    simp only [List.cons_append, group_spans, ha, Bool.false_eq_true, if_false]
    change group_spans h (a :: acc) (ns ++ m :: R) = _
    rw [ih (a :: acc) R (fun b hb => hn b (List.mem_cons_of_mem _ hb))]
    simp

theorem group_spans_flat {h : Heap} {pay : Nat → Int} :
    ∀ (spans : List Span) (p : Nat), Info h pay p spans →
      group_spans h [] (flat spans) = spans := by
  intro spans
  induction spans with
  | nil => intro _ _; rfl
  | cons s rest ih =>
    intro p hi
    obtain ⟨-, i2, i3, i4⟩ := hi
    simp only [flat]
    rw [group_spans_span i3 s.1 [] (flat rest) i2, ih s.2 i4]
    simp

theorem rep_spans_of {l : list_t} {spans : List Span} {pay : Nat → Int}
    (hr : Rep l spans pay) : spans_of l = spans := by
  unfold spans_of
  rw [rep_list_elems hr]
  exact group_spans_flat spans 0 hr.info

theorem rep_count_at {l : list_t} {pre post : List Span} {s : Span} {pay : Nat → Int}
    (hr : Rep l (pre ++ s :: post) pay) :
    ∃ c, l.mem.read s.2 = some c ∧ c.is_marker = 1 ∧ c.count = (s.1.length : Int) ∧
      c.prev_marker = lastM 0 pre ∧ s.1 ≠ [] := by
  have hi := hr.info
  rw [info_append] at hi
  obtain ⟨-, h1, -, ⟨c, hc, hk, hcc, hcp⟩, -⟩ := hi
  exact ⟨c, hc, hk, hcc, hcp, h1⟩

theorem find_marker_rep {l : list_t} {pre post : List Span} {A B : List Nat} {e m : Nat}
    {pay : Nat → Int} (hr : Rep l (pre ++ (A ++ e :: B, m) :: post) pay) :
    find_marker l.mem (l.mem.length + 1) e 0 = some (m, ((B.length + 1 : Nat) : Int)) := by
  have hlen := length_le_of_live hr.nodup (linked_live hr.linked)
  have hlk := hr.linked
  rw [flat_split, linked_append] at hlk
  have hinfo := hr.info
  rw [info_append] at hinfo
  obtain ⟨-, -, hnodes, hmk, -⟩ := hinfo
  have hfl : (flat (pre ++ (A ++ e :: B, m) :: post)).length =
      (flat pre).length + A.length + (B.length + 1 + ((flat post).length + 1)) := by
    rw [flat_split]; simp only [List.length_append, List.length_cons]; omega
  have h1 := find_marker_spec (w := pay) hmk (e :: B) (flat post) 0 (l.mem.length + 1) 0
    hlk.2 (fun a ha => hnodes a (by
      simp only [List.mem_cons] at ha
      simp only [List.mem_append, List.mem_cons]; tauto))
    (by simp only [List.length_cons]; omega)
  simp only [List.cons_append, List.headD_cons] at h1
  rw [h1]
  simp

/-- The two phases of `list_move_to_head` on a data element that is not the
head: the removal leaves a well-formed list without `e`, the re-insertion puts
`e` at the front of it. -/
theorem move_phases {malloc : Heap → Nat} (hm : ValidMalloc malloc) (cap : Int)
    {l : list_t} {pre post : List Span} {A B : List Nat} {e m : Nat} {pay : Nat → Int}
    (hr : Rep l (pre ++ (A ++ e :: B, m) :: post) pay) (hhe : l.head ≠ e) :
    ∃ d l2 l1 new,
      mth_distance l e = some (m, d) ∧ mth_unlink l e m = some l2 ∧
      mth_relink malloc cap l2 e = some l1 ∧
      list_move_to_head malloc cap l e = some (l1, d) ∧
      Rep l2 (aremove e (pre ++ (A ++ e :: B, m) :: post)) pay ∧
      aremove e (pre ++ (A ++ e :: B, m) :: post) =
        (if A ++ B = [] then pre ++ post else pre ++ (A ++ B, m) :: post) ∧
      aremove e (pre ++ (A ++ e :: B, m) :: post) ≠ [] ∧
      e ∉ flat (aremove e (pre ++ (A ++ e :: B, m) :: post)) ∧
      (A ++ B = [] → l2.mem.read m = none ∧ m ∉ flat (pre ++ post) ∧ pre ≠ []) ∧
      Rep l1 (ainsert cap e new (aremove e (pre ++ (A ++ e :: B, m) :: post))) pay := by
  have hndn : (nodes (pre ++ (A ++ e :: B, m) :: post)).Nodup :=
    hr.nodup.sublist (nodes_sublist _)
  rw [nodes_split] at hndn
  have hnm := not_mem_of_nodup_middle hndn
  have h1 : e ∉ nodes pre := fun hh => hnm.1 (by simp [hh])
  have h2 : e ∉ A := fun hh => hnm.1 (by simp [hh])
  have hdist := distance_spec hr
  have hrem := @aremove_split pre post A B e m h1 h2
  generalize aremove e (pre ++ (A ++ e :: B, m) :: post) = S at hrem ⊢
  by_cases hAB : A ++ B = []
  · have hA : A = [] := (List.append_eq_nil.1 hAB).1
    have hB : B = [] := (List.append_eq_nil.1 hAB).2
    subst hA; subst hB
    have hS : S = pre ++ post := by rw [hrem]; simp
    obtain ⟨l2, hu, hr2, hn2, hpre, hfree⟩ := unlink_drop hr hhe
    obtain ⟨hnd2, hend, hmnd, -⟩ := nodup_flat_drop hr.nodup
    rw [← hS] at hr2 hend
    cases hsp : S with
    | nil => rw [hsp] at hS; exact absurd (List.append_eq_nil.1 hS.symm).1 hpre
    | cons s rest =>
      rw [hsp] at hr2 hend
      obtain ⟨l1, new, hrl, hr1⟩ := relink_spec hm cap hr2 hend hn2
      refine ⟨_, l2, l1, new, hdist, hu, hrl, ?_, hr2, ?_, by simp, hend,
        fun _ => ⟨hfree, hmnd, hpre⟩, hr1⟩
      · simp [list_move_to_head, hhe, hdist, hu, hrl]
      · rw [← hsp, hS]; simp
  · have hS : S = pre ++ (A ++ B, m) :: post := by rw [hrem]; simp [hAB]
    obtain ⟨l2, hu, hr2, hn2⟩ := unlink_keep hr hhe hAB
    have hend := (nodup_flat_remove hr.nodup).2
    rw [← hS] at hr2 hend
    cases hsp : S with
    | nil => rw [hsp] at hS; simp at hS
    | cons s rest =>
      rw [hsp] at hr2 hend
      obtain ⟨l1, new, hrl, hr1⟩ := relink_spec hm cap hr2 hend hn2
      refine ⟨_, l2, l1, new, hdist, hu, hrl, ?_, hr2, ?_, by simp, hend,
        fun hh => absurd hh hAB, hr1⟩
      · simp [list_move_to_head, hhe, hdist, hu, hrl]
      · rw [← hsp, hS]; simp [hAB]

theorem walk_markers_rep {l : list_t} {pre post : List Span} {s : Span} {pay : Nat → Int}
    (hr : Rep l (pre ++ s :: post) pay) :
    prev_marker_at l.mem s.2 = lastM 0 pre ∧
      walk_markers l.mem (l.mem.length + 1) (lastM 0 pre) 0 =
        some (((nodes pre).length : Nat) : Int) := by
  have hlen := length_le_of_live hr.nodup (linked_live hr.linked)
  obtain ⟨c, hc, -, -, hcp, -⟩ := rep_count_at hr
  have hi := hr.info
  rw [info_append] at hi
  have h2 := walk_markers_spec pre (l.mem.length + 1) 0 hi.1 (by
    have h3 := length_le_flat pre
    rw [flat_append, List.length_append] at hlen
    omega)
  refine ⟨by simp [prev_marker_at, hc, hcp], ?_⟩
  rw [h2]; simp

theorem nearer_head_rep {l : list_t} {pre post : List Span} {s : Span} {pay : Nat → Int}
    (hr : Rep l (pre ++ s :: post) pay) :
    data_elems l = nodes pre ++ (s.1 ++ nodes post) ∧
      nearer_head l (s.1.headD 0) = (nodes pre).length := by
  have hd := rep_data_elems hr
  have hnd : (nodes (pre ++ s :: post)).Nodup := hr.nodup.sublist (nodes_sublist _)
  obtain ⟨c, -, -, -, -, hne⟩ := rep_count_at hr
  have e1 : nodes (pre ++ s :: post) = nodes pre ++ (s.1 ++ nodes post) := by
    simp [nodes_append, nodes]
  rw [e1] at hd hnd
  refine ⟨hd, ?_⟩
  cases hs : s.1 with
  | nil => exact absurd hs hne
  | cons a t =>
    rw [hs] at hd hnd
    have hnot : a ∉ nodes pre := (not_mem_of_nodup_middle (by simpa using hnd)).1
    rw [nearer_head, hd, ← indexOf_eq_takeWhile, List.headD_cons,
      List.indexOf_append_of_not_mem hnot, List.cons_append, List.indexOf_cons_self]
    rfl

/-- C12 (INV1): in every reachable state the spans partition the sequence, and
for every data element the first marker reached by following `next` from it
closes the span the element lies in, with `count` equal to the number of data
elements of that span. -/
theorem span_accounting {malloc : Heap → Nat} (hm : ValidMalloc malloc) (cap : Int)
    {l : list_t} (hl : Reachable malloc cap l) :
    flat (spans_of l) = list_elems l ∧ nodes (spans_of l) = data_elems l ∧
    ∀ e ∈ data_elems l, ∃ s ∈ spans_of l, e ∈ s.1 ∧
      count_at l.mem s.2 = (s.1.length : Int) ∧
      ∃ h, find_marker l.mem (l.mem.length + 1) e 0 = some (s.2, h) := by
  obtain ⟨spans, pay, hr⟩ := reachable_rep hm hl
  rw [rep_spans_of hr, rep_list_elems hr, rep_data_elems hr]
  refine ⟨rfl, rfl, ?_⟩
  intro e he
  obtain ⟨pre, A, B, m, post, hsp⟩ := mem_nodes_split spans he
  subst hsp
  obtain ⟨c, hc, -, hcc, -, -⟩ := rep_count_at hr
  refine ⟨(A ++ e :: B, m), by simp, by simp, ?_, _, find_marker_rep hr⟩
  simp only [count_at, hc, hcc]

theorem span_accounting_witness :
    flat (spans_of ex_abcde) = list_elems ex_abcde ∧
    nodes (spans_of ex_abcde) = data_elems ex_abcde ∧
    ∀ e ∈ data_elems ex_abcde, ∃ s ∈ spans_of ex_abcde, e ∈ s.1 ∧
      count_at ex_abcde.mem s.2 = (s.1.length : Int) ∧
      ∃ h, find_marker ex_abcde.mem (ex_abcde.mem.length + 1) e 0 = some (s.2, h) :=
  span_accounting bump_valid 2 reachable_ex_abcde

/-- C13 (INV4): in every reachable state and for every marker `m` of the
sequence, the counts of the markers reached from `m` along `prev_marker` (`m`
excluded) add up to the number of data elements strictly nearer the head than
every element of the span of `m`: the data elements of the spans before it. -/
theorem chain_completeness {malloc : Heap → Nat} (hm : ValidMalloc malloc) (cap : Int)
    {l : list_t} (hl : Reachable malloc cap l) (m : Nat) (hmk : m ∈ marker_elems l) :
    ∃ pre s post, spans_of l = pre ++ s :: post ∧ s.2 = m ∧
      data_elems l = nodes pre ++ (s.1 ++ nodes post) ∧
      nearer_head l (s.1.headD 0) = (nodes pre).length ∧
      walk_markers l.mem (l.mem.length + 1) (prev_marker_at l.mem m) 0 =
        some (((nodes pre).length : Nat) : Int) := by
  obtain ⟨spans, pay, hr⟩ := reachable_rep hm hl
  rw [rep_marker_elems hr] at hmk
  obtain ⟨s, hs, hsm⟩ := List.mem_map.1 hmk
  obtain ⟨pre, post, hsp⟩ := List.append_of_mem hs
  subst hsp
  obtain ⟨h1, h2⟩ := walk_markers_rep hr
  obtain ⟨h3, h4⟩ := nearer_head_rep hr
  refine ⟨pre, s, post, rep_spans_of hr, hsm, h3, h4, ?_⟩
  rw [← hsm, h1]; exact h2

theorem chain_completeness_witness :
    ∃ pre s post, spans_of ex_abcde = pre ++ s :: post ∧ s.2 = 2 ∧
      data_elems ex_abcde = nodes pre ++ (s.1 ++ nodes post) ∧
      nearer_head ex_abcde (s.1.headD 0) = (nodes pre).length ∧
      walk_markers ex_abcde.mem (ex_abcde.mem.length + 1) (prev_marker_at ex_abcde.mem 2) 0 =
        some (((nodes pre).length : Nat) : Int) :=
  chain_completeness bump_valid 2 reachable_ex_abcde 2 (by decide)

theorem marks_sublist (spans : List Span) : (spans.map Prod.snd).Sublist (flat spans) := by
  induction spans with
  | nil => exact List.Sublist.refl _
  | cons s rest ih =>
    simp only [List.map_cons, flat]
    exact (List.Sublist.cons₂ s.2 ih).trans (List.sublist_append_right _ _)

theorem info_counts_pos {h : Heap} {pay : Nat → Int} :
    ∀ (spans : List Span) (p : Nat), Info h pay p spans →
      ∀ k ∈ spans.map Prod.snd, 0 < count_at h k := by
  intro spans
  induction spans with
  | nil => intro _ _ k hk; simp at hk
  | cons s rest ih =>
    intro p hi k hk
    obtain ⟨i1, -, ⟨c, hc, -, hcc, -⟩, i4⟩ := hi
    simp only [List.map_cons, List.mem_cons] at hk
    rcases hk with rfl | hk
    · simp only [count_at, hc, hcc]
      exact_mod_cast List.length_pos.2 i1
    · exact ih s.2 i4 k hk

theorem reachable_ex_moved : Reachable bump 2 ex_moved :=
  @Reachable.move bump 2 ex_abcde ex_moved 1 4 reachable_ex_abcde (by decide) (by decide)

/-- C14 (INV3): in every reachable state every marker of the sequence has
`count > 0`; and when `list_move_to_head` takes the last data element out of a
span (the marker `m` after `elem` has count 1), the removal phase of the same
call takes `m` out of the sequence and frees it, and the call ends in a state
whose markers all have `count > 0`. -/
theorem no_empty_spans {malloc : Heap → Nat} (hm : ValidMalloc malloc) (cap : Int)
    {l : list_t} (hl : Reachable malloc cap l) :
    (∀ k ∈ marker_elems l, 0 < count_at l.mem k) ∧
    ∀ elem ∈ data_elems l, l.head ≠ elem → ∀ m d, mth_distance l elem = some (m, d) →
      count_at l.mem m = 1 →
      ∃ l2 l1, mth_unlink l elem m = some l2 ∧ l2.mem.read m = none ∧
        m ∉ list_elems l2 ∧ marker_elems l2 = (marker_elems l).erase m ∧
        list_move_to_head malloc cap l elem = some (l1, d) ∧
        ∀ k ∈ marker_elems l1, 0 < count_at l1.mem k := by
  obtain ⟨spans, pay, hr⟩ := reachable_rep hm hl
  refine ⟨?_, ?_⟩
  · rw [rep_marker_elems hr]; exact info_counts_pos spans 0 hr.info
  · intro elem he hhe m d hdist hcnt
    have he1 := he
    rw [rep_data_elems hr] at he1
    obtain ⟨pre, A, B, m1, post, hsp⟩ := mem_nodes_split spans he1
    subst hsp
    obtain ⟨d1, l2, l1, new, h1, h2, h3, h4, hr2, hrem, -, -, hdrop, hr1⟩ :=
      move_phases hm cap hr hhe
    rw [hdist] at h1
    simp only [Option.some.injEq, Prod.mk.injEq] at h1
    obtain ⟨rfl, rfl⟩ := h1
    obtain ⟨c, hc, -, hcc, -, -⟩ := rep_count_at hr
    have hAB : A ++ B = [] := by
      simp only [count_at, hc, hcc] at hcnt
      have : (A ++ elem :: B).length = 1 := by exact_mod_cast hcnt
      simp only [List.length_append, List.length_cons] at this
      apply List.eq_nil_of_length_eq_zero
      simp only [List.length_append]; omega
    obtain ⟨hfree, hmnot, -⟩ := hdrop hAB
    rw [hrem, if_pos hAB] at hr2
    refine ⟨l2, l1, h2, hfree, ?_, ?_, h4, ?_⟩
    · rw [rep_list_elems hr2]; exact hmnot
    · rw [rep_marker_elems hr2, rep_marker_elems hr]
      have hmp : m ∉ pre.map Prod.snd := by
        intro hh
        apply hmnot
        rw [flat_append]
        exact List.mem_append_left _ (marks_sub_flat pre m hh)
      simp only [List.map_append, List.map_cons]
      rw [List.erase_append_right _ hmp, List.erase_cons_head]
    · have hre : Reachable malloc cap l1 := Reachable.move hl he h4
      obtain ⟨spans1, pay1, hrr⟩ := reachable_rep hm hre
      rw [rep_marker_elems hrr]; exact info_counts_pos spans1 0 hrr.info

theorem no_empty_spans_witness :
    (∀ k ∈ marker_elems ex_moved, 0 < count_at ex_moved.mem k) ∧
    ∃ l2 l1, mth_unlink ex_moved 3 2 = some l2 ∧ l2.mem.read 2 = none ∧
      2 ∉ list_elems l2 ∧ marker_elems l2 = (marker_elems ex_moved).erase 2 ∧
      list_move_to_head bump 2 ex_moved 3 = some (l1, 4) ∧
      ∀ k ∈ marker_elems l1, 0 < count_at l1.mem k :=
  ⟨(no_empty_spans bump_valid 2 reachable_ex_moved).1,
    (no_empty_spans bump_valid 2 reachable_ex_moved).2 3 (by decide) (by decide) 2 4
      (by decide) (by decide)⟩

theorem flat_getLast (spans : List Span) (p : Nat) (hne : spans ≠ []) :
    (flat spans).getLast? = some (lastM p spans) := by
  induction spans generalizing p with
  | nil => exact absurd rfl hne
  | cons s rest ih =>
    cases rest with
    | nil => simp [flat, lastM]
    | cons t rest1 =>
      have := ih s.2 (by simp)
      simp only [flat, lastM] at this ⊢
      rw [List.getLast?_append_of_ne_nil _ (by simp), ← this]
      cases h1 : t.1 ++ t.2 :: flat rest1 with
      | nil => simp at h1
      | cons a as => exact List.getLast?_cons_cons

theorem lastM_is_mark {h : Heap} {pay : Nat → Int} :
    ∀ (spans : List Span) (p : Nat), Info h pay p spans → spans ≠ [] →
      is_mark h (lastM p spans) = true := by
  intro spans
  induction spans with
  | nil => intro _ _ hne; exact absurd rfl hne
  | cons s rest ih =>
    intro p hi _
    obtain ⟨-, -, i3, i4⟩ := hi
    cases rest with
    | nil => exact is_mark_of_isMarker i3
    | cons t rest1 => exact ih s.2 i4 (by simp)

theorem info_prev_chain {h : Heap} {pay : Nat → Int} :
    ∀ (spans : List Span) (p : Nat), Info h pay p spans →
      (spans.map Prod.snd).map (prev_marker_at h) = (p :: spans.map Prod.snd).dropLast := by
  intro spans
  induction spans with
  | nil => intro _ _; rfl
  | cons s rest ih =>
    intro p hi
    obtain ⟨-, -, ⟨c, hc, -, -, hcp⟩, i4⟩ := hi
    have := ih s.2 i4
    simp only [List.map_cons, List.dropLast_cons₂, this, prev_marker_at, hc, hcp]

theorem linked_next_mem {h : Heap} {L : List Nat} {stop : Nat} (hl : Linked h L stop) :
    ∀ a ∈ L, ∃ c, h.read a = some c ∧ (c.next = stop ∨ c.next ∈ L) := by
  induction L with
  | nil => intro a ha; simp at ha
  | cons b rest ih =>
    intro a ha
    obtain ⟨⟨c, hc, hn⟩, hl2⟩ := linked_cons_read hl
    rcases List.mem_cons.1 ha with rfl | ha
    · refine ⟨c, hc, ?_⟩
      cases rest with
      | nil => exact Or.inl hn
      | cons r rs => exact Or.inr (by rw [hn]; simp)
    · obtain ⟨c1, hc1, h1⟩ := ih hl2 a ha
      exact ⟨c1, hc1, h1.imp id (List.mem_cons_of_mem _)⟩

theorem info_prev_mem {h : Heap} {pay : Nat → Int} :
    ∀ (spans : List Span) (p : Nat), Info h pay p spans →
      ∀ a ∈ flat spans, ∃ c, h.read a = some c ∧
        (c.prev_marker = 0 ∨ c.prev_marker = p ∨ c.prev_marker ∈ spans.map Prod.snd) := by
  intro spans
  induction spans with
  | nil => intro _ _ a ha; simp [flat] at ha
  | cons s rest ih =>
    intro p hi a ha
    obtain ⟨-, i2, ⟨c, hc, -, -, hcp⟩, i4⟩ := hi
    simp only [flat, List.mem_append, List.mem_cons] at ha
    rcases ha with ha | rfl | ha
    · obtain ⟨c1, hc1, -, -, hp1⟩ := i2 a ha
      exact ⟨c1, hc1, Or.inl hp1⟩
    · exact ⟨c, hc, Or.inr (Or.inl hcp)⟩
    · obtain ⟨c1, hc1, h1⟩ := ih s.2 i4 a ha
      refine ⟨c1, hc1, ?_⟩
      rcases h1 with h1 | h1 | h1
      · exact Or.inl h1
      · exact Or.inr (Or.inr (by rw [h1]; simp))
      · exact Or.inr (Or.inr (by simp [h1]))

/-- C15: in every reachable non-empty state (a) the last element of the
sequence is a marker, so every data element has a marker further back, (b)
`marker_tail` is the first marker of the sequence, (c) the `prev_marker` of
each marker is the marker before it in the sequence and `NULL` for the first
one, and every link (`head`, `marker_tail`, every `next` and `prev_marker` of
an element of the sequence) is `NULL` or an allocated element of the sequence,
never a removed marker. -/
theorem marker_chain_wf {malloc : Heap → Nat} (hm : ValidMalloc malloc) (cap : Int)
    {l : list_t} (hl : Reachable malloc cap l) (hne : l.head ≠ 0) :
    (∃ m, (list_elems l).getLast? = some m ∧ is_mark l.mem m = true) ∧
    (marker_elems l).head? = some l.marker_tail ∧
    (marker_elems l).map (prev_marker_at l.mem) = 0 :: (marker_elems l).dropLast ∧
    (∀ a ∈ list_elems l, ∃ c, l.mem.read a = some c ∧
      (c.next = 0 ∨ c.next ∈ list_elems l) ∧
      (c.prev_marker = 0 ∨ c.prev_marker ∈ marker_elems l)) ∧
    l.head ∈ list_elems l ∧ l.marker_tail ∈ marker_elems l ∧ 0 ∉ list_elems l := by
  obtain ⟨spans, pay, hr⟩ := reachable_rep hm hl
  rw [rep_list_elems hr, rep_marker_elems hr]
  have hsp : spans ≠ [] := by
    rintro rfl
    exact hne hr.head_eq
  cases hs : spans with
  | nil => exact absurd hs hsp
  | cons s rest =>
    rw [← hs]
    have htail : l.marker_tail = s.2 := by
      have := hr.tail_eq; rw [hs] at this; exact this
    refine ⟨⟨_, flat_getLast spans 0 hsp, lastM_is_mark spans 0 hr.info hsp⟩, ?_, ?_, ?_, ?_,
      ?_, ?_⟩
    · rw [hs, htail]; rfl
    · rw [info_prev_chain spans 0 hr.info, hs]; rfl
    · intro a ha
      obtain ⟨c, hc, h1⟩ := linked_next_mem hr.linked a ha
      obtain ⟨c1, hc1, h2⟩ := info_prev_mem spans 0 hr.info a ha
      rw [hc] at hc1
      cases hc1
      refine ⟨c, hc, h1, ?_⟩
      rcases h2 with h2 | h2 | h2
      · exact Or.inl h2
      · exact Or.inl h2
      · exact Or.inr h2
    · rw [hr.head_eq]
      exact headD_mem_of_ne_nil (by rw [hs]; simp [flat]) 0
    · rw [hs, htail]; simp
    · intro h0
      obtain ⟨c, hc⟩ := linked_live hr.linked 0 h0
      exact ne_zero_of_read hc rfl

theorem marker_chain_wf_witness :
    (∃ m, (list_elems ex_moved).getLast? = some m ∧ is_mark ex_moved.mem m = true) ∧
    (marker_elems ex_moved).head? = some ex_moved.marker_tail ∧
    (marker_elems ex_moved).map (prev_marker_at ex_moved.mem) =
      0 :: (marker_elems ex_moved).dropLast ∧
    (∀ a ∈ list_elems ex_moved, ∃ c, ex_moved.mem.read a = some c ∧
      (c.next = 0 ∨ c.next ∈ list_elems ex_moved) ∧
      (c.prev_marker = 0 ∨ c.prev_marker ∈ marker_elems ex_moved)) ∧
    ex_moved.head ∈ list_elems ex_moved ∧ ex_moved.marker_tail ∈ marker_elems ex_moved ∧
    0 ∉ list_elems ex_moved :=
  marker_chain_wf bump_valid 2 reachable_ex_moved (by decide)

theorem rep_head_zero_iff {l : list_t} {spans : List Span} {pay : Nat → Int}
    (hr : Rep l spans pay) : l.head = 0 ↔ spans = [] := by
  constructor
  · intro h0
    cases hs : spans with
    | nil => rfl
    | cons s rest =>
      exfalso
      have hmem : l.head ∈ flat spans := by
        rw [hr.head_eq]; exact headD_mem_of_ne_nil (by rw [hs]; simp [flat]) 0
      obtain ⟨c, hc⟩ := linked_live hr.linked _ hmem
      exact ne_zero_of_read hc h0
  · rintro rfl; exact hr.head_eq

theorem rep_tail_count {l : list_t} {s : Span} {rest : List Span} {pay : Nat → Int}
    (hr : Rep l (s :: rest) pay) :
    l.marker_tail = s.2 ∧ count_at l.mem l.marker_tail = (s.1.length : Int) ∧
      prev_marker_at l.mem s.2 = 0 := by
  have ht : l.marker_tail = s.2 := hr.tail_eq
  obtain ⟨-, -, ⟨c, hc, -, hcc, hcp⟩, -⟩ := hr.info
  refine ⟨ht, ?_, ?_⟩
  · rw [ht]; simp only [count_at, hc, hcc]
  · simp only [prev_marker_at, hc, hcp]

/-- The effect of the abstract insertion on the markers of the list state. -/
theorem ainsert_effect {cap : Int} {l l1 : list_t} {spans : List Span} {pay pay1 : Nat → Int}
    {e k : Nat} (hr : Rep l spans pay) (hr1 : Rep l1 (ainsert cap e k spans) pay1) :
    front_insert_effect cap l l1 := by
  unfold front_insert_effect
  rw [rep_marker_elems hr, rep_marker_elems hr1, rep_list_elems hr]
  cases hs : spans with
  | nil =>
    subst hs
    have h0 : l.head = 0 := hr.head_eq
    have hr1a : Rep l1 (([e], k) :: []) pay1 := hr1
    obtain ⟨t1, t2, -⟩ := rep_tail_count hr1a
    simp only [h0, true_or, if_true, ainsert, List.map_cons, List.map_nil, t1, flat,
      List.not_mem_nil, not_false_eq_true, ne_eq, not_true_eq_false, false_implies, and_true,
      true_and]
    have t3 : l1.marker_tail = k := t1
    rw [← t3, t2]; rfl
  | cons s rest =>
    subst hs
    have h0 : l.head ≠ 0 := fun hh => by
      have := (rep_head_zero_iff hr).1 hh; simp at this
    obtain ⟨u1, u2, -⟩ := rep_tail_count hr
    by_cases hfull : cap ≤ (s.1.length : Int)
    · have hai : ainsert cap e k (s :: rest) = ([e], k) :: s :: rest := by
        simp [ainsert, hfull]
      rw [hai] at hr1 ⊢
      obtain ⟨t1, t2, -⟩ := rep_tail_count hr1
      have hnd := hr1.nodup
      have hk : k ∉ flat (s :: rest) := by
        have : flat (([e], k) :: s :: rest) = [e] ++ k :: flat (s :: rest) := rfl
        rw [this] at hnd
        exact (not_mem_of_nodup_middle hnd).2
      have hprev : prev_marker_at l1.mem s.2 = k := by
        have hr1b : Rep l1 ([([e], k)] ++ s :: rest) pay1 := hr1
        obtain ⟨c, hc, -, -, hcp, -⟩ := rep_count_at hr1b
        simp [prev_marker_at, hc, hcp, lastM]
      have hc : l.head = 0 ∨ cap ≤ count_at l.mem l.marker_tail := Or.inr (by rw [u2]; exact hfull)
      rw [if_pos hc]
      refine ⟨by rw [t1]; rfl, by rw [t1]; exact hk, ?_, fun _ => by rw [u1, t1]; exact hprev⟩
      rw [t2]; rfl
    · have hai : ainsert cap e k (s :: rest) = (e :: s.1, s.2) :: rest := by
        simp [ainsert, hfull]
      rw [hai] at hr1 ⊢
      obtain ⟨t1, t2, -⟩ := rep_tail_count hr1
      have hc : ¬ (l.head = 0 ∨ cap ≤ count_at l.mem l.marker_tail) := by
        rw [u2]; simp [h0, hfull]
      rw [if_neg hc]
      refine ⟨rfl, by rw [t1, u1], ?_⟩
      rw [t2, u2]; simp

theorem ainsert_head_le {cap : Int} (hcap : 1 ≤ cap) (e k : Nat) (spans : List Span) :
    ∀ s, (ainsert cap e k spans).head? = some s → (s.1.length : Int) ≤ cap := by
  intro s hs
  cases spans with
  | nil =>
    simp only [ainsert, List.head?_cons, Option.some.injEq] at hs
    subst hs; simpa using hcap
  | cons t rest =>
    simp only [ainsert] at hs
    split_ifs at hs with h1
    · simp only [List.head?_cons, Option.some.injEq] at hs
      subst hs; simpa using hcap
    · simp only [List.head?_cons, Option.some.injEq] at hs
      subst hs
      simp only [List.length_cons, Nat.cast_add, Nat.cast_one]
      omega

theorem reachable_rep_cap {malloc : Heap → Nat} (hm : ValidMalloc malloc) {cap : Int}
    (hcap : 1 ≤ cap) {l : list_t} (h : Reachable malloc cap l) :
    ∃ spans pay, Rep l spans pay ∧ ∀ s, spans.head? = some s → (s.1.length : Int) ≤ cap := by
  induction h with
  | create => exact ⟨[], _, rep_create, by simp⟩
  | push _ hp ih =>
    obtain ⟨spans, pay, hr, -⟩ := ih
    obtain ⟨l1, new, h1, h2, -⟩ := push_spec hm cap hr _
    rw [hp] at h1
    simp only [Option.some.injEq, Prod.mk.injEq] at h1
    rw [h1.1]
    exact ⟨_, _, h2, ainsert_head_le hcap _ _ _⟩
  | move _ he hmv ih =>
    obtain ⟨spans, pay, hr, hb⟩ := ih
    rw [rep_data_elems hr] at he
    obtain ⟨l1, new, h1, h2⟩ := move_spec hm cap hr he
    rw [hmv] at h1
    simp only [Option.some.injEq, Prod.mk.injEq] at h1
    rw [h1.1]
    refine ⟨_, _, h2, ?_⟩
    unfold amove
    split_ifs
    · exact hb
    · exact ainsert_head_le hcap _ _ _

/-- C16 (INV2): for every cap `≥ 1`, in every reachable state the count of the
active marker (`marker_tail`) is at most the cap; and putting an element at
the head, by `list_push` or by `list_move_to_head` after its removal phase,
inserts a new marker ahead of the old one, active and with count 1, exactly
when the list is empty or the active marker is at the cap, and otherwise
counts one more on the active marker. -/
theorem active_marker_bound {malloc : Heap → Nat} (hm : ValidMalloc malloc) (cap : Int)
    (hcap : 1 ≤ cap) {l : list_t} (hl : Reachable malloc cap l) :
    count_at l.mem l.marker_tail ≤ cap ∧
    (∀ data, ∃ l1 a, list_push malloc cap l data = some (l1, a) ∧
      front_insert_effect cap l l1 ∧ count_at l1.mem l1.marker_tail ≤ cap) ∧
    (∀ elem ∈ data_elems l, l.head ≠ elem → ∃ m d l2 l1,
      mth_distance l elem = some (m, d) ∧ mth_unlink l elem m = some l2 ∧
      list_move_to_head malloc cap l elem = some (l1, d) ∧
      front_insert_effect cap l2 l1 ∧ count_at l1.mem l1.marker_tail ≤ cap) := by
  have bound : ∀ l0, Reachable malloc cap l0 → count_at l0.mem l0.marker_tail ≤ cap := by
    intro l0 hl0
    obtain ⟨spans, pay, hr, hb⟩ := reachable_rep_cap hm hcap hl0
    cases hs : spans with
    | nil =>
      subst hs
      have : l0.marker_tail = 0 := hr.tail_eq
      rw [this]; simp only [count_at, read_zero]; omega
    | cons s rest =>
      subst hs
      rw [(rep_tail_count hr).2.1]
      exact hb s rfl
  obtain ⟨spans, pay, hr⟩ := reachable_rep hm hl
  refine ⟨bound l hl, ?_, ?_⟩
  · intro data
    obtain ⟨l1, new, h1, h2, -⟩ := push_spec hm cap hr data
    exact ⟨l1, _, h1, ainsert_effect hr h2, bound l1 (Reachable.push hl h1)⟩
  · intro elem he hhe
    have he1 := he
    rw [rep_data_elems hr] at he1
    obtain ⟨pre, A, B, m, post, hsp⟩ := mem_nodes_split spans he1
    subst hsp
    obtain ⟨d, l2, l1, new, h1, h2, -, h4, hr2, -, -, -, -, hr1⟩ := move_phases hm cap hr hhe
    exact ⟨m, d, l2, l1, h1, h2, h4, ainsert_effect hr2 hr1,
      bound l1 (Reachable.move hl he h4)⟩

theorem active_marker_bound_witness :
    count_at ex_abcde.mem ex_abcde.marker_tail ≤ 2 ∧
    (∀ data, ∃ l1 a, list_push bump 2 ex_abcde data = some (l1, a) ∧
      front_insert_effect 2 ex_abcde l1 ∧ count_at l1.mem l1.marker_tail ≤ 2) ∧
    (∀ elem ∈ data_elems ex_abcde, ex_abcde.head ≠ elem → ∃ m d l2 l1,
      mth_distance ex_abcde elem = some (m, d) ∧ mth_unlink ex_abcde elem m = some l2 ∧
      list_move_to_head bump 2 ex_abcde elem = some (l1, d) ∧
      front_insert_effect 2 l2 l1 ∧ count_at l1.mem l1.marker_tail ≤ 2) :=
  active_marker_bound bump_valid 2 (by decide) reachable_ex_abcde

theorem front_insert_effect_length {cap : Int} {l l1 : list_t} (hne : l.head ≠ 0)
    (h : front_insert_effect cap l l1) :
    ((marker_elems l1).length = (marker_elems l).length + 1 ↔
      cap ≤ count_at l.mem l.marker_tail) := by
  unfold front_insert_effect at h
  by_cases hc : cap ≤ count_at l.mem l.marker_tail
  · rw [if_pos (Or.inr hc)] at h
    simp [h.1, hc]
  · have hc1 : ¬ (l.head = 0 ∨ cap ≤ count_at l.mem l.marker_tail) := by simp [hne, hc]
    rw [if_neg hc1] at h
    simp [h.1, hc]

/-- C18: in every reachable state, `list_move_to_head` on a data element that
is not the head is "take it out, then re-insert it as `list_push` would": the
removal phase leaves the spans without `elem` (and without its marker when the
span became empty), the re-insertion applies to them the same linking rule
that `list_push` applies to that state, so a new marker is created exactly when
the count of the active marker after the removal is at least the cap.  When
`elem` lies in the active span and that span held exactly `cap` elements, no
marker is created. -/
theorem move_is_remove_then_push {malloc : Heap → Nat} (hm : ValidMalloc malloc) (cap : Int)
    {l : list_t} (hl : Reachable malloc cap l) (elem : Nat) (he : elem ∈ data_elems l)
    (hhe : l.head ≠ elem) :
    ∃ m d l2 l1 k,
      mth_distance l elem = some (m, d) ∧ mth_unlink l elem m = some l2 ∧
      mth_relink malloc cap l2 elem = some l1 ∧
      list_move_to_head malloc cap l elem = some (l1, d) ∧
      spans_of l2 = aremove elem (spans_of l) ∧
      spans_of l1 = ainsert cap elem k (spans_of l2) ∧
      (∀ data, ∃ l3 a j, list_push malloc cap l2 data = some (l3, a) ∧
        spans_of l3 = ainsert cap a j (spans_of l2)) ∧
      front_insert_effect cap l2 l1 ∧
      ((marker_elems l1).length = (marker_elems l2).length + 1 ↔
        cap ≤ count_at l2.mem l2.marker_tail) ∧
      (m = l.marker_tail → count_at l.mem m = cap →
        marker_elems l1 = marker_elems l ∧ l1.marker_tail = l.marker_tail) := by
  obtain ⟨spans, pay, hr⟩ := reachable_rep hm hl
  have he1 := he
  rw [rep_data_elems hr] at he1
  obtain ⟨pre, A, B, m, post, hsp⟩ := mem_nodes_split spans he1
  subst hsp
  obtain ⟨d, l2, l1, k, h1, h2, h3, h4, hr2, hrem, hne2, -, -, hr1⟩ :=
    move_phases hm cap hr hhe
  have heff := ainsert_effect hr2 hr1
  have hhead2 : l2.head ≠ 0 := fun hh => hne2 ((rep_head_zero_iff hr2).1 hh)
  refine ⟨m, d, l2, l1, k, h1, h2, h3, h4, ?_, ?_, ?_, heff,
    front_insert_effect_length hhead2 heff, ?_⟩
  · rw [rep_spans_of hr2, rep_spans_of hr]
  · rw [rep_spans_of hr1, rep_spans_of hr2]
  · intro data
    obtain ⟨l3, j, hp, hr3, -⟩ := push_spec hm cap hr2 data
    exact ⟨l3, _, j, hp, by rw [rep_spans_of hr3, rep_spans_of hr2]⟩
  · intro hmt hcnt
    -- `m` is the first marker, so no span comes before it
    have hpre : pre = [] := by
      cases hp : pre with
      | nil => rfl
      | cons s0 pre1 =>
        exfalso
        subst hp
        have ht : l.marker_tail = s0.2 := hr.tail_eq
        have hnd := hr.nodup
        rw [flat_split] at hnd
        have hm1 : m ∉ (flat (s0 :: pre1) ++ A) ++ elem :: B := by
          have := not_mem_of_nodup_middle (X := (flat (s0 :: pre1) ++ A) ++ elem :: B) (a := m)
            (Y := flat post) (by simpa using hnd)
          exact this.1
        apply hm1
        rw [hmt, ht]
        simp [flat]
    subst hpre
    have hA : A ≠ [] := by
      rintro rfl
      apply hhe
      rw [hr.head_eq]; simp [flat]
    have hAB : A ++ B ≠ [] := by simp [hA]
    obtain ⟨c, hc, -, hcc, -, -⟩ := rep_count_at hr
    have hlen : ((A ++ elem :: B).length : Int) = cap := by
      simp only [count_at, hc] at hcnt; rw [← hcnt, hcc]
    rw [hrem, if_neg hAB] at hr2 hr1
    have hnf : ¬ ((A ++ B).length : Int) ≥ cap := by
      simp only [List.length_append, List.length_cons, Nat.cast_add, Nat.cast_one] at hlen ⊢
      omega
    have hai : ainsert cap elem k ([] ++ (A ++ B, m) :: post) =
        (elem :: (A ++ B), m) :: post := by
      have hnf1 : ¬ cap ≤ ((A ++ B).length : Int) := hnf
      simp only [List.nil_append, ainsert, ge_iff_le, hnf1, if_false]
    rw [hai] at hr1
    rw [rep_marker_elems hr1, rep_marker_elems hr]
    refine ⟨rfl, ?_⟩
    rw [(rep_tail_count hr1).1, ← hmt]

theorem move_is_remove_then_push_witness :
    ∃ m d l2 l1 k,
      mth_distance ex_moved 7 = some (m, d) ∧ mth_unlink ex_moved 7 m = some l2 ∧
      mth_relink bump 2 l2 7 = some l1 ∧
      list_move_to_head bump 2 ex_moved 7 = some (l1, d) ∧
      spans_of l2 = aremove 7 (spans_of ex_moved) ∧
      spans_of l1 = ainsert 2 7 k (spans_of l2) ∧
      (∀ data, ∃ l3 a j, list_push bump 2 l2 data = some (l3, a) ∧
        spans_of l3 = ainsert 2 a j (spans_of l2)) ∧
      front_insert_effect 2 l2 l1 ∧
      ((marker_elems l1).length = (marker_elems l2).length + 1 ↔
        2 ≤ count_at l2.mem l2.marker_tail) ∧
      (m = ex_moved.marker_tail → count_at ex_moved.mem m = 2 →
        marker_elems l1 = marker_elems ex_moved ∧ l1.marker_tail = ex_moved.marker_tail) :=
  move_is_remove_then_push bump_valid 2 reachable_ex_moved 7 (by decide) (by decide)

theorem indexOf_middle {P Q : List Nat} {e : Nat} (hnd : (P ++ e :: Q).Nodup) :
    (P ++ e :: Q).indexOf e = P.length ∧
      (∀ a ∈ P, (P ++ e :: Q).indexOf a < P.length) ∧
      (∀ a ∈ Q, P.length < (P ++ e :: Q).indexOf a) := by
  have hm := not_mem_of_nodup_middle hnd
  refine ⟨?_, ?_, ?_⟩
  · rw [List.indexOf_append_of_not_mem hm.1, List.indexOf_cons_self]; rfl
  · intro a ha
    rw [List.indexOf_append_of_mem ha]
    exact List.indexOf_lt_length.2 ha
  · intro a ha
    have haP : a ∉ P := by
      intro hh
      exact (List.nodup_append.1 hnd).2.2 hh (List.mem_cons_of_mem _ ha)
    have hae : e ≠ a := by
      rintro rfl; exact hm.2 ha
    rw [List.indexOf_append_of_not_mem haP, List.indexOf_cons_ne _ hae]
    omega

theorem span_of_marker_rep {l : list_t} {pre post : List Span} {s : Span} {pay : Nat → Int}
    (hr : Rep l (pre ++ s :: post) pay) : span_of_marker l s.2 = s.1 := by
  unfold span_of_marker
  rw [rep_spans_of hr]
  have hnot : ∀ x ∈ pre, ¬ (decide (x.2 = s.2) = true) := by
    intro x hx hh
    simp only [decide_eq_true_eq] at hh
    have hnd := hr.nodup
    rw [flat_append] at hnd
    have h1 : x.2 ∈ flat pre := marks_sub_flat pre _ (List.mem_map_of_mem _ hx)
    have h2 : s.2 ∈ flat (s :: post) := by simp [flat]
    exact (List.nodup_append.1 hnd).2.2 h1 (hh ▸ h2)
  rw [List.find?_append, List.find?_eq_none.2 hnot]
  simp

theorem span_filters_rep {l : list_t} {pre post : List Span} {A B : List Nat} {e m : Nat}
    {pay : Nat → Int} (hr : Rep l (pre ++ (A ++ e :: B, m) :: post) pay) :
    span_strictly_nearer l m e = A.length ∧ span_at_or_nearer l m e = A.length + 1 := by
  have hsp : span_of_marker l m = A ++ e :: B := span_of_marker_rep hr
  have hnd := hr.nodup
  rw [flat_split] at hnd
  obtain ⟨i1, i2, i3⟩ := indexOf_middle hnd
  have hA : ∀ a ∈ A, (flat pre ++ A ++ e :: (B ++ m :: flat post)).indexOf a < (flat pre ++ A).length :=
    fun a ha => i2 a (by simp [ha])
  have hB : ∀ a ∈ B, (flat pre ++ A).length < (flat pre ++ A ++ e :: (B ++ m :: flat post)).indexOf a :=
    fun a ha => i3 a (by simp [ha])
  unfold span_strictly_nearer span_at_or_nearer
  rw [hsp, rep_list_elems hr, flat_split, i1]
  constructor
  · rw [List.filter_append, List.filter_cons]
    have e1 : A.filter (fun a => decide ((flat pre ++ A ++ e :: (B ++ m :: flat post)).indexOf a <
        (flat pre ++ A).length)) = A :=
      List.filter_eq_self.2 (fun a ha => by simpa using hA a ha)
    have e2 : B.filter (fun a => decide ((flat pre ++ A ++ e :: (B ++ m :: flat post)).indexOf a <
        (flat pre ++ A).length)) = [] :=
      List.filter_eq_nil_iff.2 (fun a ha => by
        have := hB a ha
        simp only [decide_eq_true_eq, not_lt]; omega)
    rw [e1, e2, i1]
    simp
  · rw [List.filter_append, List.filter_cons]
    have e1 : A.filter (fun a => decide ((flat pre ++ A ++ e :: (B ++ m :: flat post)).indexOf a ≤
        (flat pre ++ A).length)) = A :=
      List.filter_eq_self.2 (fun a ha => by
        have := hA a ha
        simp only [decide_eq_true_eq]; omega)
    have e2 : B.filter (fun a => decide ((flat pre ++ A ++ e :: (B ++ m :: flat post)).indexOf a ≤
        (flat pre ++ A).length)) = [] :=
      List.filter_eq_nil_iff.2 (fun a ha => by
        have := hB a ha
        simp only [decide_eq_true_eq, not_le]; omega)
    rw [e1, e2, i1]
    simp

/-- C17, as stated, fails: after pushing A, B, C the marker after A is reached
in 1 hop and has count 3, so `count - h` is 2, while 3 data elements of the
span (C, B and A itself) are at or nearer the front than A. -/
theorem in_span_offset_counterexample :
    Reachable bump MARKER_MAX_SZ ex_abc ∧ 1 ∈ data_elems ex_abc ∧ ex_abc.head ≠ 1 ∧
      find_marker ex_abc.mem (ex_abc.mem.length + 1) 1 0 = some (2, 1) ∧
      count_at ex_abc.mem 2 - 1 = 2 ∧ span_at_or_nearer ex_abc 2 1 = 3 :=
  ⟨reachable_ex_abc, by decide, by decide, by decide, by decide, by decide⟩

/-- C17, amended: in every reachable state, for a data element `elem` (the head
or not) whose next marker `m` is reached after `h` hops, `count - h` is the
number of data elements of the span of `m` that are strictly nearer the front
than `elem`; counting `elem` itself gives one more. -/
theorem in_span_offset {malloc : Heap → Nat} (hm : ValidMalloc malloc) (cap : Int)
    {l : list_t} (hl : Reachable malloc cap l) (elem : Nat) (he : elem ∈ data_elems l) :
    ∃ m h, find_marker l.mem (l.mem.length + 1) elem 0 = some (m, h) ∧
      count_at l.mem m - h = (span_strictly_nearer l m elem : Int) ∧
      span_at_or_nearer l m elem = span_strictly_nearer l m elem + 1 := by
  obtain ⟨spans, pay, hr⟩ := reachable_rep hm hl
  rw [rep_data_elems hr] at he
  obtain ⟨pre, A, B, m, post, hsp⟩ := mem_nodes_split spans he
  subst hsp
  obtain ⟨c, hc, -, hcc, -, -⟩ := rep_count_at hr
  obtain ⟨f1, f2⟩ := span_filters_rep hr
  refine ⟨m, _, find_marker_rep hr, ?_, by rw [f1, f2]⟩
  rw [f1]
  simp only [count_at, hc, hcc, List.length_append, List.length_cons, Nat.cast_add,
    Nat.cast_one]
  ring

theorem in_span_offset_witness :
    ∃ m h, find_marker ex_abc.mem (ex_abc.mem.length + 1) 1 0 = some (m, h) ∧
      count_at ex_abc.mem m - h = (span_strictly_nearer ex_abc m 1 : Int) ∧
      span_at_or_nearer ex_abc m 1 = span_strictly_nearer ex_abc m 1 + 1 :=
  in_span_offset bump_valid MARKER_MAX_SZ reachable_ex_abc 1 (by decide)

theorem linked_mid_next {h : Heap} {X Y : List Nat} {p e stop : Nat}
    (hl : Linked h (X ++ p :: e :: Y) stop) : next_at h p = e := by
  rw [linked_append] at hl
  obtain ⟨⟨c, hc, hn⟩, -⟩ := linked_cons_read hl.2
  simp [next_at, hc, hn]

/-- C19: in every reachable state and for every data element `elem`,
`list_move_to_head` returns. When `elem` is not the head, the scan for the next
marker stops at a marker of the list, the parent scan stops at an element of
the list whose `next` is `elem`, and when the count of the marker is about to
drop to 0 the marker is the successor of `elem` and the parent is a marker. -/
theorem move_runs {malloc : Heap → Nat} (hm : ValidMalloc malloc) (cap : Int)
    {l : list_t} (hl : Reachable malloc cap l) (elem : Nat) (he : elem ∈ data_elems l) :
    (∃ l1 d, list_move_to_head malloc cap l elem = some (l1, d)) ∧
      (l.head ≠ elem →
        ∃ m h p, find_marker l.mem (l.mem.length + 1) elem 0 = some (m, h) ∧
          m ∈ marker_elems l ∧
          find_parent l.mem elem (l.mem.length + 1)
            (if prev_marker_at l.mem m = 0 then l.head else prev_marker_at l.mem m) = some p ∧
          p ∈ list_elems l ∧ next_at l.mem p = elem ∧
          (count_at l.mem m - 1 = 0 →
            next_at l.mem elem = m ∧ is_mark l.mem p = true)) := by
  obtain ⟨spans, pay, hr⟩ := reachable_rep hm hl
  rw [rep_data_elems hr] at he
  refine ⟨?_, ?_⟩
  · obtain ⟨l1, new, h1, -⟩ := move_spec hm cap hr he
    exact ⟨l1, _, h1⟩
  · intro hhe
    obtain ⟨pre, A, B, m, post, hsp⟩ := mem_nodes_split spans he
    subst hsp
    obtain ⟨X, p, hXp, hfp, hA⟩ := parent_spec hr hhe
    obtain ⟨hpm, -⟩ := walk_markers_rep hr
    obtain ⟨c, hc, -, hcc, -, -⟩ := rep_count_at hr
    have hlk := hr.linked
    have hflat : flat (pre ++ (A ++ elem :: B, m) :: post) =
        X ++ p :: elem :: (B ++ m :: flat post) := by
      rw [flat_split, hXp]; simp
    refine ⟨m, _, p, find_marker_rep hr, ?_, ?_, ?_, ?_, ?_⟩
    · rw [rep_marker_elems hr]; simp
    · rw [hpm]; exact hfp
    · rw [rep_list_elems hr, hflat]; simp
    · rw [hflat] at hlk
      exact linked_mid_next hlk
    · intro h0
      have hlen : A.length + B.length = 0 := by
        simp only [count_at, hc, hcc, List.length_append, List.length_cons, Nat.cast_add,
          Nat.cast_one] at h0
        omega
      have hA0 : A = [] := List.length_eq_zero.1 (by omega)
      have hB0 : B = [] := List.length_eq_zero.1 (by omega)
      subst hA0 hB0
      constructor
      · have h2 : flat (pre ++ ([] ++ [elem], m) :: post) =
            (X ++ [p]) ++ elem :: m :: flat post := by
          rw [hflat]; simp
        rw [h2] at hlk
        exact linked_mid_next hlk
      · obtain ⟨pre1, nsp, hpre⟩ := hA rfl
        have hp : p ∈ marker_elems l := by
          rw [rep_marker_elems hr, hpre]; simp
        exact (List.mem_filter.1 hp).2

theorem move_runs_witness :
    (∃ l1 d, list_move_to_head bump 2 ex_moved 3 = some (l1, d)) ∧
      (ex_moved.head ≠ 3 →
        ∃ m h p, find_marker ex_moved.mem (ex_moved.mem.length + 1) 3 0 = some (m, h) ∧
          m ∈ marker_elems ex_moved ∧
          find_parent ex_moved.mem 3 (ex_moved.mem.length + 1)
            (if prev_marker_at ex_moved.mem m = 0 then ex_moved.head
              else prev_marker_at ex_moved.mem m) = some p ∧
          p ∈ list_elems ex_moved ∧ next_at ex_moved.mem p = 3 ∧
          (count_at ex_moved.mem m - 1 = 0 →
            next_at ex_moved.mem 3 = m ∧ is_mark ex_moved.mem p = true)) :=
  move_runs bump_valid 2 reachable_ex_moved 3 (by decide)

theorem find_last_bucket_zero (hist : List Nat) :
    ∀ (k fuel : Nat), k < fuel → k ≤ hist.length → (∀ i, i < k → hist.getD i 0 = 0) →
      find_last_bucket hist fuel ((k : Int) - 1) = none := by
  intro k
  induction k with
  | zero =>
    intro fuel hf _ _
    obtain ⟨f, rfl⟩ : ∃ f, fuel = f + 1 := ⟨fuel - 1, by omega⟩
    simp [find_last_bucket]
  | succ k ih =>
    intro fuel hf hk hz
    obtain ⟨f, rfl⟩ : ∃ f, fuel = f + 1 := ⟨fuel - 1, by omega⟩
    have e1 : ((k + 1 : Nat) : Int) - 1 = (k : Int) := by push_cast; ring
    have h1 : ¬ ((k : Int) < 0 ∨ (hist.length : Int) ≤ (k : Int)) := by omega
    rw [e1]
    simp only [find_last_bucket, h1, if_false, Int.toNat_ofNat, hz k (by omega), if_true]
    exact ih f (by omega) (by omega) (fun i hi => hz i (by omega))

/-- C11 fails in the code: with two lists in one memory, the element B of the
second list (address 3) is not in the first list, and `list_move_to_head` on
the first list does not return -1. The scan from B stops at the marker of the
second list and gives distance 0, and the parent scan then runs from the head
of the first list past its end and reads through `NULL`. -/
theorem list_move_to_head_not_found :
    3 ∉ list_elems ex_first_of_two ∧ is_data ex_first_of_two.mem 3 = true ∧
      mth_distance ex_first_of_two 3 = some (4, 0) ∧
      find_parent ex_first_of_two.mem 3 (ex_first_of_two.mem.length + 1)
        ex_first_of_two.head = none ∧
      list_move_to_head bump MARKER_MAX_SZ ex_first_of_two 3 = none := by
  refine ⟨by decide, by decide, by decide, by decide, by decide⟩

/-- C20 fails in the code: for every number of buckets, after the stream that
holds the single reference "x" the reference is counted in the cold bucket
only, the buckets 0 to `nbuckets - 1` are all 0, and the backward scan for the
last non-zero bucket reads the histogram at index -1. -/
theorem last_bucket_underflow (n : Nat) :
    ∃ st, main_loop bump MARKER_MAX_SZ (fun _ => 0) n (main_init n) [['x', '\n']] = some st ∧
      st.histogram.getD (n + 1) 0 = 1 ∧ (∀ i, i < n → st.histogram.getD i 0 = 0) ∧
      last_bucket n st.histogram = none := by
  have e0 : [['x', '\n']].filterMap normalized = [['x']] := by decide
  obtain ⟨st, h1, h2⟩ := run_refs_spec bump_valid MARKER_MAX_SZ (fun _ => 0) n [['x']]
    (main_init n) [] (driverInv_init n)
  have hh : st.histogram = incr_at (List.replicate (n + 2) 0) (n + 1) := by
    rw [h2, main_init_histogram]
    simp [naive_hist, naive_step, stack_distance]
  have hz : ∀ i, i < n → st.histogram.getD i 0 = 0 := by
    intro i hi
    rw [hh, getD_incr_at _ _ (by simp)]
    have : i ≠ n + 1 := by omega
    simp [this]
  refine ⟨st, ?_, ?_, hz, ?_⟩
  · rw [main_loop_eq_run_refs, e0]; exact h1
  · rw [hh, getD_incr_at _ _ (by simp)]
    simp
  · have hlen : st.histogram.length = n + 2 := by rw [hh, length_incr_at]; simp
    exact find_last_bucket_zero st.histogram n _ (by omega) (by omega) hz

end StackDist
